import Mathlib

/-!
# Software occlusion culling: the multi-threaded depth-buffer rasterizer

A shallow embedding of `DepthBufferRasterizerSSEMT.cpp` (the partition of vertices and
triangles over tasks, and the tile rasterizer) and of `AABBoxRasterizerSSE.cpp` (the packets
of world-space boxes, the frustum test and the render loop), followed by theorems about the
embedded code.

Conventions of the embedding.

* In the partition loops a `UINT` is a natural number below `2^32` and every unsigned result
  is reduced with `toUINT`; the `(int)` casts and the signed difference are reduced with
  `wrapINT`.
* In the rasterizer the lanes of a `VecS32` are integers in `[-2^31, 2^31)` and every
  arithmetic result is reduced with `wrapINT`.  Tile bounds, loop counters and buffer indices
  are plain integers: they stay far below `2^31` on any screen.
* A `float` is an element of an ordered field `K` (exact arithmetic).  Two properties of
  `float` that a field does not have are embedded apart, where the code depends on them:
  `1.0f / 0.0f` and NaN in the rasterization of a triangle of area zero (`XFloat`), and the
  sign bit of `-0.0f` in the frustum decision (`SFloat`).
* The depth buffer is a function from slot index to depth; a store updates it, nothing
  checks bounds.
* The models of the scene are seen through the only thing the partition loops read from
  them, their vertex or triangle count; the bins are seen through their counters and the
  triangle that `Gather` fetches for each slot.
* The SIMD header and the header of constants are not among the sources: the constants are
  parameters (`Constants`), the SIMD primitives are modelled lane-wise.
* The frame function `TransformModelsAndRasterizeToDepthBuffer` is the sequence of its calls
  to the task manager; the task manager is not among the sources, and what it guarantees of
  an execution is modelled from the specification (`Execution.admissible`).
* In the bounding-box rasterizer the `UINT` counters are reduced with `toUINT`, an array is a
  function from index to element with its allocated length kept beside it, and the sign bit
  of a float in exact arithmetic is set when its value is negative.
-/

namespace SoftwareOcclusionCulling

/-! ## Machine integers -/

/-- Reduction of an unsigned 32-bit result (`UINT` arithmetic is modulo `2^32`). -/
def toUINT (n : Int) : Nat := (n % 4294967296).toNat

/-- Two's complement wrap-around of a signed 32-bit result. -/
def wrapINT (i : Int) : Int := (i + 2147483648) % 4294967296 - 2147483648

/-- The C cast `(int)u` of a `UINT`. -/
def toINT (u : Nat) : Int := wrapINT (u : Int)

/-- Modelled from the spec: the SIMD lane count, the constant `SSE` of the headers; the vectors
have four lanes. -/
def SSE : Nat := 4

/-! ## Partition of vertices and triangles over tasks -/

/-- One call `mpTransformedModels1[ss].TransformMeshes(.., thisSurfaceStartIndex,
thisSurfaceEndIndex, ..)` or `mpTransformedModels1[ss].BinTransformedTrianglesMT(taskId, ss,
thisSurfaceStartIndex, thisSurfaceEndIndex, ..)`: the model and the inclusive sub-range. -/
structure SurfaceCall where
  ss : Nat
  thisSurfaceStartIndex : Nat
  thisSurfaceEndIndex : Nat
deriving DecidableEq, Repr

/-- The surface loop `for(UINT ss = 0; ss < mNumModels1; ss++)`, which `TransformMeshes`
(lines 123-145) and `BinTransformedMeshes` (lines 184-206) share word for word.  The list holds
the counts `GetNumVertices()` (resp. `GetNumTriangles()`) of the models still to visit, `ss` is
the index of its head, and the result is the sequence of calls made to the models. -/
def surfaceLoop (startIndex : Nat) : List Nat → Nat → Nat → Nat → List SurfaceCall
  | [], _, _, _ => []
  | thisSurfaceCount :: rest, ss, runningCount, remainingPerTask =>
    let newRunningCount := toUINT ((runningCount : Int) + thisSurfaceCount)
    if newRunningCount < startIndex then
      -- We haven't reached the first surface in our range yet.
      surfaceLoop startIndex rest (ss + 1) newRunningCount remainingPerTask
    else
      let thisSurfaceStartIndex :=
        toUINT (max 0 (wrapINT (toINT startIndex - toINT runningCount)))
      let thisSurfaceEndIndex :=
        toUINT ((min (toUINT ((thisSurfaceStartIndex : Int) + remainingPerTask))
          thisSurfaceCount : Nat) - 1)
      let remainingPerTask' :=
        toUINT ((remainingPerTask : Int)
          - toUINT ((toUINT ((thisSurfaceEndIndex : Int) + 1) : Int) - thisSurfaceStartIndex))
      SurfaceCall.mk ss thisSurfaceStartIndex thisSurfaceEndIndex ::
        (if remainingPerTask' ≤ 0 then []
         else surfaceLoop startIndex rest (ss + 1) newRunningCount remainingPerTask')

/-- The vertex budget of a transform task: `mNumVertices1 / taskCount`, plus one when the
division leaves a remainder (lines 114-115). -/
def verticesPerTask (mNumVertices1 taskCount : Nat) : Nat :=
  let verticesPerTask := mNumVertices1 / taskCount
  if mNumVertices1 % taskCount > 0 then toUINT ((verticesPerTask : Int) + 1) else verticesPerTask

/-- `DepthBufferRasterizerSSEMT::TransformMeshes(taskId, taskCount)`: the calls the task makes
to the models' transform routine.  `numVertices` lists `GetNumVertices()` of
`mpTransformedModels1[0 .. mNumModels1-1]`. -/
def TransformMeshes (mNumVertices1 : Nat) (numVertices : List Nat) (taskId taskCount : Nat) :
    List SurfaceCall :=
  let startIndex := toUINT ((taskId : Int) * verticesPerTask mNumVertices1 taskCount)
  surfaceLoop startIndex numVertices 0 0 (verticesPerTask mNumVertices1 taskCount)

/-- The triangle budget of a binning task: `(mNumTriangles1 + taskCount - 1) / taskCount`
rounded up to a multiple of `SSE` (lines 175-176). -/
def trianglesPerTask (mNumTriangles1 taskCount : Nat) : Nat :=
  let trianglesPerTask := toUINT ((mNumTriangles1 : Int) + taskCount - 1) / taskCount
  toUINT ((trianglesPerTask : Int)
    + (if trianglesPerTask % SSE ≠ 0 then SSE - trianglesPerTask % SSE else 0 : Nat))

/-- `DepthBufferRasterizerSSEMT::BinTransformedMeshes(taskId, taskCount)`: the calls the task
makes to `BinTransformedTrianglesMT`.  `numTriangles` lists `GetNumTriangles()` of the models.
(The reset of the task's own bin counters, lines 164-172, precedes the loop and does not
influence the ranges.) -/
def BinTransformedMeshes (mNumTriangles1 : Nat) (numTriangles : List Nat)
    (taskId taskCount : Nat) : List SurfaceCall :=
  let startIndex := toUINT ((taskId : Int) * trianglesPerTask mNumTriangles1 taskCount)
  surfaceLoop startIndex numTriangles 0 0 (trianglesPerTask mNumTriangles1 taskCount)

/-- Whether the inclusive sub-range of a call contains element `v` of model `ss`. -/
def SurfaceCall.covers (c : SurfaceCall) (ss v : Nat) : Bool :=
  c.ss == ss && (decide (c.thisSurfaceStartIndex ≤ v) && decide (v ≤ c.thisSurfaceEndIndex))

/-- How many of the calls contain element `v` of model `ss`. -/
def timesCovered (calls : List SurfaceCall) (ss v : Nat) : Nat :=
  calls.countP (fun c => c.covers ss v)

/-- Global index of element `v` of model `ss`: the counts of the models before it, plus `v`. -/
def globalIndex (counts : List Nat) (ss v : Nat) : Nat :=
  (counts.take ss).sum + v

/-! ## Tile rasterizer: constants, SIMD primitives and triangle setup -/

/-- Compile-time constants that `DepthBufferRasterizerSSEMT.cpp` reads from headers which are
not among the sources.  They are parameters of the embedding. -/
structure Constants where
  SCREENW : Nat
  TILE_WIDTH_IN_PIXELS : Nat
  TILE_HEIGHT_IN_PIXELS : Nat
  NUM_XFORMVERTS_TASKS : Nat
  MAX_TRIS_IN_BIN_MT : Nat
  YOFFSET1_MT : Nat
  XOFFSET1_MT : Nat
  YOFFSET2_MT : Nat
  XOFFSET2_MT : Nat

/-- The pixel rectangle of a tile, `[tileStartX, tileEndX) x [tileStartY, tileEndY)`. -/
structure Tile where
  tileStartX : Int
  tileEndX : Int
  tileStartY : Int
  tileEndY : Int

/-- Column `tileX` of the tile of task `taskId` (line 233). -/
def tileX (k : Constants) (taskId : Nat) : Nat :=
  let screenWidthInTiles := k.SCREENW / k.TILE_WIDTH_IN_PIXELS
  taskId % screenWidthInTiles

/-- Row `tileY` of the tile of task `taskId` (line 234). -/
def tileY (k : Constants) (taskId : Nat) : Nat :=
  let screenWidthInTiles := k.SCREENW / k.TILE_WIDTH_IN_PIXELS
  taskId / screenWidthInTiles

/-- Tile bounds of task `taskId` (lines 232-240).  Tile coordinates are far below `2^31`, so
this index arithmetic is not reduced modulo `2^32`. -/
def tileOf (k : Constants) (taskId : Nat) : Tile :=
  let tileStartX : Int := (tileX k taskId * k.TILE_WIDTH_IN_PIXELS : Nat)
  let tileEndX : Int := tileStartX + k.TILE_WIDTH_IN_PIXELS
  let tileStartY : Int := (tileY k taskId * k.TILE_HEIGHT_IN_PIXELS : Nat)
  let tileEndY : Int := tileStartY + k.TILE_HEIGHT_IN_PIXELS
  { tileStartX := tileStartX, tileEndX := tileEndX,
    tileStartY := tileStartY, tileEndY := tileEndY }

/-- A four-lane SIMD value (`VecS32`, `VecF32`): lane `k` of `v` is `v k`. -/
abbrev Vec4 (α : Type) : Type := Fin 4 → α

/-- Modelled from the spec: the broadcast constructor `VecS32(x)` / `VecF32(x)` of the SIMD
header, all four lanes equal to `x`. -/
def splat {α : Type} (x : α) : Vec4 α := fun _ => x

/-- Modelled from the spec: lane-wise 32-bit addition of `VecS32`. -/
def vadd (a b : Vec4 Int) : Vec4 Int := fun k => wrapINT (a k + b k)

/-- Modelled from the spec: lane-wise 32-bit multiplication of `VecS32` (low 32 bits). -/
def vmul (a b : Vec4 Int) : Vec4 Int := fun k => wrapINT (a k * b k)

/-- Modelled from the spec: lane-wise bitwise or of `VecS32`. -/
def vor (a b : Vec4 Int) : Vec4 Int := fun k => Int.lor (a k) (b k)

/-- Modelled from the spec: `shiftl<1>`, the logical shift left by one bit of a 32-bit lane. -/
def shiftl1 (a : Vec4 Int) : Vec4 Int := fun k => wrapINT (2 * a k)

/-- Modelled from the spec: the all-negative test of the SIMD header, true when the sign bit
of every lane is set. -/
def is_all_negative (v : Vec4 Int) : Bool := decide (∀ k : Fin 4, v k < 0)

/-- Modelled from the spec: select-on-mask, `select(a, b, mask)`.  Lanes whose mask has the
sign bit set take `b`, the others take `a`: the call `select(mergedDepth, previousDepthValue,
mask)` keeps the previous depth in outside lanes, and the source marks a lane as outside the
triangle by a negative `mask` (comment of the early-out on `is_all_negative(mask)`). -/
def select {α : Type} (a b : Vec4 α) (mask : Vec4 Int) : Vec4 α :=
  fun k => if mask k < 0 then b k else a k

/-- Modelled from the spec: lane-wise maximum `vmax` of `VecF32`. -/
def vmax {K : Type} [LinearOrder K] (a b : Vec4 K) : Vec4 K := fun k => max (a k) (b k)

/-- Modelled from the spec: the conversion `itof` of a 32-bit integer lane to a depth value,
exact in the ordered field that stands for `float`. -/
def itof {K : Type} [LinearOrderedField K] (v : Vec4 Int) : Vec4 K := fun k => (v k : K)

/-- The constant `colOffset(0, 1, 0, 1)` (line 226). -/
def colOffset : Vec4 Int := ![0, 1, 0, 1]

/-- The constant `rowOffset(0, 0, 1, 1)` (line 227). -/
def rowOffset : Vec4 Int := ![0, 0, 1, 1]

/-- What the rasterizer reads of one gathered triangle: the fixed-point screen coordinates
`xFormedFxPtPos[i].X`, `xFormedFxPtPos[i].Y` (the 32-bit results of `ftoi_round`) and the
depths `xformedvPos[i].Z` of the vertices `i = 0, 1, 2`.  Depths live in an ordered field `K`
that stands for `float` in exact arithmetic. -/
structure Triangle (K : Type) where
  X : Fin 3 → Int
  Y : Fin 3 → Int
  Z : Fin 3 → K

section Setup

variable {K : Type} [LinearOrderedField K]

/-- Edge coefficient `A0 = Y[1] - Y[2]` (line 306). -/
def A0 (t : Triangle K) : Int := wrapINT (t.Y 1 - t.Y 2)

/-- Edge coefficient `A1 = Y[2] - Y[0]` (line 307). -/
def A1 (t : Triangle K) : Int := wrapINT (t.Y 2 - t.Y 0)

/-- Edge coefficient `A2 = Y[0] - Y[1]` (line 308). -/
def A2 (t : Triangle K) : Int := wrapINT (t.Y 0 - t.Y 1)

/-- Edge coefficient `B0 = X[2] - X[1]` (line 311). -/
def B0 (t : Triangle K) : Int := wrapINT (t.X 2 - t.X 1)

/-- Edge coefficient `B1 = X[0] - X[2]` (line 312). -/
def B1 (t : Triangle K) : Int := wrapINT (t.X 0 - t.X 2)

/-- Edge coefficient `B2 = X[1] - X[0]` (line 313). -/
def B2 (t : Triangle K) : Int := wrapINT (t.X 1 - t.X 0)

/-- Edge coefficient `C0 = X[1] * Y[2] - X[2] * Y[1]` (line 316). -/
def C0 (t : Triangle K) : Int := wrapINT (wrapINT (t.X 1 * t.Y 2) - wrapINT (t.X 2 * t.Y 1))

/-- Edge coefficient `C1 = X[2] * Y[0] - X[0] * Y[2]` (line 317). -/
def C1 (t : Triangle K) : Int := wrapINT (wrapINT (t.X 2 * t.Y 0) - wrapINT (t.X 0 * t.Y 2))

/-- Edge coefficient `C2 = X[0] * Y[1] - X[1] * Y[0]` (line 318). -/
def C2 (t : Triangle K) : Int := wrapINT (wrapINT (t.X 0 * t.Y 1) - wrapINT (t.X 1 * t.Y 0))

/-- The fixed-point area `triArea = B2 * A1 - B1 * A2` (line 321). -/
def triArea (t : Triangle K) : Int := wrapINT (wrapINT (B2 t * A1 t) - wrapINT (B1 t * A2 t))

/-- The reciprocal `oneOverTriArea = 1.0f / itof(triArea)` (line 322) in exact arithmetic.  It
is the `float` of the source when `triArea` is not zero; at `triArea = 0` the field gives
`1 / 0 = 0` where `float` gives `+infinity`, and that case is embedded apart, with the
special values of IEEE 754 (`oneOverTriAreaX`). -/
def oneOverTriArea (t : Triangle K) : K := 1 / (triArea t : K)

/-- The depth plane `Z[0], Z[1], Z[2]` of the Z setup (lines 325-328). -/
def zPlane (t : Triangle K) : Fin 3 → K :=
  ![t.Z 0, (t.Z 1 - t.Z 0) * oneOverTriArea t, (t.Z 2 - t.Z 0) * oneOverTriArea t]

/-- Bounding box start `startX` (line 331); `~1` is `-2`. -/
def startX (tile : Tile) (t : Triangle K) : Int :=
  Int.land (max (min (min (t.X 0) (t.X 1)) (t.X 2)) tile.tileStartX) (-2)

/-- Bounding box end `endX` (line 332). -/
def endX (tile : Tile) (t : Triangle K) : Int :=
  min (wrapINT (max (max (t.X 0) (t.X 1)) (t.X 2) + 1)) tile.tileEndX

/-- Bounding box start `startY` (line 334). -/
def startY (tile : Tile) (t : Triangle K) : Int :=
  Int.land (max (min (min (t.Y 0) (t.Y 1)) (t.Y 2)) tile.tileStartY) (-2)

/-- Bounding box end `endY` (line 335). -/
def endY (tile : Tile) (t : Triangle K) : Int :=
  min (wrapINT (max (max (t.Y 0) (t.Y 1)) (t.Y 2) + 1)) tile.tileEndY

end Setup

/-! ## Tile rasterizer: quad traversal -/

/-- The state of the column loop at the start of one iteration: the quad origin `(c, r)`, the
buffer index `idx` and the three edge vectors. -/
structure Quad where
  c : Int
  r : Int
  idx : Int
  alpha : Vec4 Int
  beta : Vec4 Int
  gama : Vec4 Int

/-- The column loop `for(int c = startXx; c < endXx; c += 2, idx += 4, alpha += aa0Inc, beta +=
aa1Inc, gama += aa2Inc)` (lines 397-401): the quads it visits, in order.  The first argument
bounds the number of iterations; `endXx - c` of them always suffice. -/
def colLoop (endXx : Int) (aa0Inc aa1Inc aa2Inc : Vec4 Int) (r : Int) :
    Nat → Int → Int → Vec4 Int → Vec4 Int → Vec4 Int → List Quad
  | 0, _, _, _, _, _ => []
  | fuel + 1, c, idx, alpha, beta, gama =>
    if c < endXx then
      { c := c, r := r, idx := idx, alpha := alpha, beta := beta, gama := gama } ::
        colLoop endXx aa0Inc aa1Inc aa2Inc r fuel (c + 2) (idx + 4)
          (vadd alpha aa0Inc) (vadd beta aa1Inc) (vadd gama aa2Inc)
    else []

/-- The row loop `for(int r = startYy; r < endYy; r += 2, rowIdx = rowIdx + 2 * SCREENW,
sum0Row += bb0Inc, sum1Row += bb1Inc, sum2Row += bb2Inc)` (lines 385-389) around the column
loop: all quads visited, in order. -/
def rowLoop (SCREENW : Int) (startXx endXx endYy : Int)
    (aa0Inc aa1Inc aa2Inc bb0Inc bb1Inc bb2Inc : Vec4 Int) :
    Nat → Int → Int → Vec4 Int → Vec4 Int → Vec4 Int → List Quad
  | 0, _, _, _, _, _ => []
  | fuel + 1, r, rowIdx, sum0Row, sum1Row, sum2Row =>
    if r < endYy then
      colLoop endXx aa0Inc aa1Inc aa2Inc r (endXx - startXx).toNat startXx rowIdx
          sum0Row sum1Row sum2Row ++
        rowLoop SCREENW startXx endXx endYy aa0Inc aa1Inc aa2Inc bb0Inc bb1Inc bb2Inc
          fuel (r + 2) (rowIdx + 2 * SCREENW)
          (vadd sum0Row bb0Inc) (vadd sum1Row bb1Inc) (vadd sum2Row bb2Inc)
    else []

section Raster

variable {K : Type} [LinearOrderedField K]

/-- The quads visited for one triangle of a group (lines 347-401): per-lane extraction of the
setup, increments, `rowIdx`, `col`, `row`, the row sums, and the two loops. -/
def traverse (k : Constants) (tile : Tile) (t : Triangle K) : List Quad :=
  let startXx := startX tile t
  let endXx := endX tile t
  let startYy := startY tile t
  let endYy := endY tile t
  let aa0 : Vec4 Int := splat (A0 t)
  let aa1 : Vec4 Int := splat (A1 t)
  let aa2 : Vec4 Int := splat (A2 t)
  let bb0 : Vec4 Int := splat (B0 t)
  let bb1 : Vec4 Int := splat (B1 t)
  let bb2 : Vec4 Int := splat (B2 t)
  let cc0 : Vec4 Int := splat (C0 t)
  let cc1 : Vec4 Int := splat (C1 t)
  let cc2 : Vec4 Int := splat (C2 t)
  let aa0Inc := shiftl1 aa0
  let aa1Inc := shiftl1 aa1
  let aa2Inc := shiftl1 aa2
  let bb0Inc := shiftl1 bb0
  let bb1Inc := shiftl1 bb1
  let bb2Inc := shiftl1 bb2
  let rowIdx : Int := startYy * k.SCREENW + 2 * startXx
  let col := vadd (splat startXx) colOffset
  let row := vadd (splat startYy) rowOffset
  let sum0Row := vadd (vadd (vmul aa0 col) (vmul bb0 row)) cc0
  let sum1Row := vadd (vadd (vmul aa1 col) (vmul bb1 row)) cc1
  let sum2Row := vadd (vadd (vmul aa2 col) (vmul bb2 row)) cc2
  rowLoop k.SCREENW startXx endXx endYy aa0Inc aa1Inc aa2Inc bb0Inc bb1Inc bb2Inc
    (endYy - startYy).toNat startYy rowIdx sum0Row sum1Row sum2Row

/-- The coverage mask `mask = alpha | beta | gama` (line 404). -/
def quadMask (q : Quad) : Vec4 Int := vor (vor q.alpha q.beta) q.gama

/-- The barycentric-interpolated depth `zz[0] + itof(beta) * zz[1] + itof(gama) * zz[2]`
(lines 411-413). -/
def quadDepth (zz : Fin 3 → K) (q : Quad) : Vec4 K :=
  fun l => zz 0 + (itof q.beta : Vec4 K) l * zz 1 + (itof q.gama : Vec4 K) l * zz 2

/-- The 4-wide load `VecF32::load(&pDepthBuffer[idx])`. -/
def load (pDepthBuffer : Int → K) (idx : Int) : Vec4 K :=
  fun l => pDepthBuffer (idx + (l.val : Int))

/-- The 4-wide store `depth.store(&pDepthBuffer[idx])`. -/
def store (depth : Vec4 K) (idx : Int) (pDepthBuffer : Int → K) : Int → K :=
  fun s =>
    if s = idx then depth 0
    else if s = idx + 1 then depth 1
    else if s = idx + 2 then depth 2
    else if s = idx + 3 then depth 3
    else pDepthBuffer s

/-- The body of the column loop (lines 403-418) applied to the depth buffer. -/
def quadStep (zz : Fin 3 → K) (pDepthBuffer : Int → K) (q : Quad) : Int → K :=
  let mask := quadMask q
  if is_all_negative mask then pDepthBuffer
  else
    let depth := quadDepth zz q
    let previousDepthValue := load pDepthBuffer q.idx
    let mergedDepth := vmax depth previousDepthValue
    let depth := select mergedDepth previousDepthValue mask
    store depth q.idx pDepthBuffer

/-- Rasterization of one triangle of a group into the depth buffer: the body of the loop
`for(int lane=0; lane < numSimdTris; lane++)` (lines 338-421). -/
def rasterizeTriangle (k : Constants) (tile : Tile) (pDepthBuffer : Int → K)
    (t : Triangle K) : Int → K :=
  (traverse k tile t).foldl (quadStep (zPlane t)) pDepthBuffer

end Raster

/-! ## Tile rasterizer: gathering the binned triangles -/

/-- The bins as the tile task reads them: the counters `mpNumTrisInBin` and, for every slot of
`mpBin` / `mpBinModel` / `mpBinMesh`, the triangle that `Gather` fetches for the descriptor
stored there (with `ftoi_round` applied to its screen coordinates). -/
structure Bins (K : Type) where
  mpNumTrisInBin : Nat → Nat
  gathered : Nat → Triangle K

/-- A bin entry the tile task gathers: producer bin and index inside the bin. -/
structure BinEntry where
  bin : Nat
  binIndex : Nat
deriving DecidableEq, Repr

/-- The variables `bin`, `binIndex`, `numTrisInBin` of the gather loop. -/
structure GatherState where
  bin : Nat
  binIndex : Nat
  numTrisInBin : Nat
deriving DecidableEq, Repr

/-- The loop `while(numTrisInBin <= 0)` (lines 259-269) that moves to the next bin; `numTris
bin` is `mpNumTrisInBin[offset1 + bin]`.  The first argument bounds the iterations. -/
def skipEmptyBins (NUM_XFORMVERTS_TASKS : Nat) (numTris : Nat → Nat) :
    Nat → GatherState → GatherState
  | 0, s => s
  | fuel + 1, s =>
    if s.numTrisInBin ≤ 0 then
      if s.bin + 1 ≥ NUM_XFORMVERTS_TASKS then { s with bin := s.bin + 1 }
      else skipEmptyBins NUM_XFORMVERTS_TASKS numTris fuel
        { bin := s.bin + 1, binIndex := 0, numTrisInBin := numTris (s.bin + 1) }
    else s

/-- The loop `for(ii = 0; ii < SSE; ii++)` (lines 257-283) that fills the lanes of one group;
the first argument counts the lanes still free, `lanes` holds the entries gathered so far. -/
def gatherLoop (NUM_XFORMVERTS_TASKS : Nat) (numTris : Nat → Nat) :
    Nat → GatherState → List BinEntry → GatherState × List BinEntry
  | 0, s, lanes => (s, lanes)
  | n + 1, s, lanes =>
    let s1 := skipEmptyBins NUM_XFORMVERTS_TASKS numTris (NUM_XFORMVERTS_TASKS + 1) s
    if s1.numTrisInBin = 0 then (s1, lanes)
    else
      gatherLoop NUM_XFORMVERTS_TASKS numTris n
        { bin := s1.bin, binIndex := s1.binIndex + 1, numTrisInBin := s1.numTrisInBin - 1 }
        (lanes ++ [{ bin := s1.bin, binIndex := s1.binIndex }])

/-- The loop `while(!done)` (lines 252-422) as far as gathering goes: the successive groups of
at most `SSE` entries; `numSimdTris` of a group is its length.  The first argument bounds the
iterations. -/
def gatherGroups (NUM_XFORMVERTS_TASKS : Nat) (numTris : Nat → Nat) :
    Nat → GatherState → Bool → List (List BinEntry)
  | 0, _, _ => []
  | fuel + 1, s, allBinsEmpty =>
    let r := gatherLoop NUM_XFORMVERTS_TASKS numTris SSE s []
    let allBinsEmpty1 := allBinsEmpty && r.2.isEmpty
    if allBinsEmpty1 then []
    else
      r.2 :: (if r.1.bin ≥ NUM_XFORMVERTS_TASKS then []
        else gatherGroups NUM_XFORMVERTS_TASKS numTris fuel r.1 allBinsEmpty1)

/-- Total number of triangles in the `n` first bins. -/
def numTrisUpTo (numTris : Nat → Nat) : Nat → Nat
  | 0 => 0
  | n + 1 => numTrisUpTo numTris n + numTris n

section Task

variable {K : Type} [LinearOrderedField K]

/-- The counter of bin `bin` of the tile: `mpNumTrisInBin[offset1 + bin]` (lines 244, 266). -/
def numTrisOf (k : Constants) (bins : Bins K) (taskId : Nat) (bin : Nat) : Nat :=
  let offset1 := k.YOFFSET1_MT * tileY k taskId + k.XOFFSET1_MT * tileX k taskId
  bins.mpNumTrisInBin (offset1 + bin)

/-- The triangle gathered for an entry: the descriptor at
`offset2 + bin * MAX_TRIS_IN_BIN_MT + binIndex` (lines 245, 274-277). -/
def triangleOf (k : Constants) (bins : Bins K) (taskId : Nat) (e : BinEntry) : Triangle K :=
  let offset2 := k.YOFFSET2_MT * tileY k taskId + k.XOFFSET2_MT * tileX k taskId
  bins.gathered (offset2 + e.bin * k.MAX_TRIS_IN_BIN_MT + e.binIndex)

/-- The groups of entries that the tile task gathers, in order (lines 242-289). -/
def gatheredGroups (k : Constants) (bins : Bins K) (taskId : Nat) : List (List BinEntry) :=
  gatherGroups k.NUM_XFORMVERTS_TASKS (numTrisOf k bins taskId)
    (numTrisUpTo (numTrisOf k bins taskId) k.NUM_XFORMVERTS_TASKS + 2)
    { bin := 0, binIndex := 0, numTrisInBin := numTrisOf k bins taskId 0 } true

/-- `DepthBufferRasterizerSSEMT::RasterizeBinnedTrianglesToDepthBuffer(taskId, taskCount)`:
the depth buffer after the tile task, from the depth buffer before it.  (The diagnostic
counter `mNumRasterizedTris` and the denormal control bits are left out.) -/
def RasterizeBinnedTrianglesToDepthBuffer (k : Constants) (bins : Bins K) (taskId : Nat)
    (pDepthBuffer : Int → K) : Int → K :=
  (gatheredGroups k bins taskId).foldl
    (fun buf lanes =>
      lanes.foldl (fun buf e => rasterizeTriangle k (tileOf k taskId) buf
        (triangleOf k bins taskId e)) buf)
    pDepthBuffer

end Task

/-! ## Tile rasterizer: fragments, stores and the slot of a pixel -/

section Trace

variable {K : Type} [LinearOrderedField K]

/-- The merge of one depth sample into the depth buffer: slot `f.1` takes the maximum of the
sample `f.2` and its previous value, every other slot keeps its value. -/
def maxWrite (pDepthBuffer : Int → K) (f : Int × K) : Int → K :=
  fun s => if s = f.1 then max f.2 (pDepthBuffer s) else pDepthBuffer s

/-- The covered lanes of a quad as samples (slot, interpolated depth): the lanes whose mask
has the sign bit clear, none if the quad is skipped. -/
def quadFragments (zz : Fin 3 → K) (q : Quad) : List (Int × K) :=
  if is_all_negative (quadMask q) then []
  else (List.finRange 4).filterMap (fun l =>
    if quadMask q l < 0 then none else some (q.idx + (l.val : Int), quadDepth zz q l))

/-- The samples of one triangle in a tile, in traversal order. -/
def triangleFragments (k : Constants) (tile : Tile) (t : Triangle K) : List (Int × K) :=
  (traverse k tile t).flatMap (quadFragments (zPlane t))

/-- The slots the 4-wide store of a quad writes: all four lanes, none if the quad is
skipped. -/
def quadStores (q : Quad) : List Int :=
  if is_all_negative (quadMask q) then [] else [q.idx, q.idx + 1, q.idx + 2, q.idx + 3]

/-- The slots stored to while rasterizing one triangle in a tile. -/
def triangleStores (k : Constants) (tile : Tile) (t : Triangle K) : List Int :=
  (traverse k tile t).flatMap quadStores

/-- The entries the tile task gathers, in order. -/
def gatheredEntries (k : Constants) (bins : Bins K) (taskId : Nat) : List BinEntry :=
  (gatheredGroups k bins taskId).flatten

/-- The triangles the tile task rasterizes, in order. -/
def gatheredTriangles (k : Constants) (bins : Bins K) (taskId : Nat) : List (Triangle K) :=
  (gatheredEntries k bins taskId).map (triangleOf k bins taskId)

/-- The samples of all triangles the tile task rasterizes, in order. -/
def taskFragments (k : Constants) (bins : Bins K) (taskId : Nat) : List (Int × K) :=
  (gatheredTriangles k bins taskId).flatMap (triangleFragments k (tileOf k taskId))

/-- The slots the tile task stores to. -/
def taskStores (k : Constants) (bins : Bins K) (taskId : Nat) : List Int :=
  (gatheredTriangles k bins taskId).flatMap (triangleStores k (tileOf k taskId))

end Trace

/-- The entries held in the bins of a tile, bin after bin: entries `0 .. numTris bin - 1` of
bins `0 .. NUM_XFORMVERTS_TASKS - 1`. -/
def binnedEntries (NUM_XFORMVERTS_TASKS : Nat) (numTris : Nat → Nat) : List BinEntry :=
  (List.range NUM_XFORMVERTS_TASKS).flatMap (fun bin =>
    (List.range (numTris bin)).map (fun binIndex => { bin := bin, binIndex := binIndex }))

/-- The slot of pixel `(x, y)` in the quad-contiguous layout as the specification writes it:
`((y & ~1) * W + 2*(x & ~1)) + 2*(y & 1) + (x & 1)`. -/
def slotOf (W : Int) (x y : Int) : Int :=
  (Int.land y (-2) * W + 2 * Int.land x (-2)) + 2 * Int.land y 1 + Int.land x 1

/-- Entries `binIndex .. binIndex + n - 1` of bin `bin`. -/
def binEntriesFrom (bin binIndex n : Nat) : List BinEntry :=
  (List.range n).map (fun i => { bin := bin, binIndex := binIndex + i })

/-- All entries of the `count` bins `b, b + 1, ..`. -/
def restEntries (numTris : Nat → Nat) : Nat → Nat → List BinEntry
  | 0, _ => []
  | count + 1, b => binEntriesFrom b 0 (numTris b) ++ restEntries numTris count (b + 1)

/-- The entries a gather state has still to deliver: the rest of the current bin, then the
bins after it. -/
def pending (NUM_XFORMVERTS_TASKS : Nat) (numTris : Nat → Nat) (s : GatherState) :
    List BinEntry :=
  binEntriesFrom s.bin s.binIndex s.numTrisInBin ++
    restEntries numTris (NUM_XFORMVERTS_TASKS - (s.bin + 1)) (s.bin + 1)

section Binned

variable {K : Type} [LinearOrderedField K]

/-- The triangles held in the bins of the tile of task `taskId`, bin after bin. -/
def binnedTriangles (k : Constants) (bins : Bins K) (taskId : Nat) : List (Triangle K) :=
  (binnedEntries k.NUM_XFORMVERTS_TASKS (numTrisOf k bins taskId)).map (triangleOf k bins taskId)

/-- The samples of all triangles held in the bins of the tile: for every binned triangle,
every visited quad and every covered lane, the slot and the interpolated depth. -/
def binnedFragments (k : Constants) (bins : Bins K) (taskId : Nat) : List (Int × K) :=
  (binnedTriangles k bins taskId).flatMap (triangleFragments k (tileOf k taskId))

end Binned

/-! ## Concrete inputs used to instantiate the theorems -/

/-- A small configuration: an 8-pixel-wide screen cut into 4x4 tiles, three producer bins
of capacity ten per tile. -/
def sampleConstants : Constants :=
  { SCREENW := 8, TILE_WIDTH_IN_PIXELS := 4, TILE_HEIGHT_IN_PIXELS := 4,
    NUM_XFORMVERTS_TASKS := 3, MAX_TRIS_IN_BIN_MT := 10,
    YOFFSET1_MT := 6, XOFFSET1_MT := 3, YOFFSET2_MT := 60, XOFFSET2_MT := 30 }

/-- A triangle with positive area, vertices (0,0), (0,3), (3,0) in vertex order 0, 2, 1. -/
def sampleTriangle : Triangle Rat :=
  { X := ![0, 3, 0], Y := ![0, 0, 3], Z := ![1, 2, 3] }

/-- A second triangle with positive area. -/
def sampleTriangle2 : Triangle Rat :=
  { X := ![1, 3, 1], Y := ![1, 1, 2], Z := ![5, 0, 0] }

/-- A triangle with two coincident vertices: vertices 0 and 1 are both at (0,0). -/
def degenerateTriangle : Triangle Rat :=
  { X := ![0, 0, 1], Y := ![0, 0, 0], Z := ![1, 2, 3] }

/-- Bins of tile 0 that hold `sampleTriangle` in bin 0 and `sampleTriangle2` in bin 2. -/
def sampleBins : Bins Rat :=
  { mpNumTrisInBin := fun i => if i = 0 then 1 else if i = 2 then 1 else 0,
    gathered := fun i => if i = 0 then sampleTriangle else sampleTriangle2 }

/-- The bins of `sampleBins` with the two triangles exchanged. -/
def sampleBinsSwapped : Bins Rat :=
  { mpNumTrisInBin := fun i => if i = 0 then 1 else if i = 2 then 1 else 0,
    gathered := fun i => if i = 0 then sampleTriangle2 else sampleTriangle }

/-- Bins of tile 0 that hold `degenerateTriangle` alone, in bin 0. -/
def degenerateBins : Bins Rat :=
  { mpNumTrisInBin := fun i => if i = 0 then 1 else 0,
    gathered := fun _ => degenerateTriangle }

/-- An empty depth buffer. -/
def zeroBuffer : Int → Rat := fun _ => 0

/-! ## Amount of work handed out by a task -/

/-- Number of indices in the inclusive sub-range of a call (zero when the range is empty). -/
def SurfaceCall.size (c : SurfaceCall) : Nat :=
  c.thisSurfaceEndIndex + 1 - c.thisSurfaceStartIndex

/-- Total number of indices in the sub-ranges a task hands to the models. -/
def handedOut (calls : List SurfaceCall) : Nat :=
  (calls.map SurfaceCall.size).sum

/-- Number of elements `v` of a model with `thisSurfaceCount` elements that lie in the
inclusive sub-range of a call: `thisSurfaceStartIndex <= v <= thisSurfaceEndIndex` and
`v < thisSurfaceCount`. -/
def SurfaceCall.elements (c : SurfaceCall) (thisSurfaceCount : Nat) : Nat :=
  min (c.thisSurfaceEndIndex + 1) thisSurfaceCount - c.thisSurfaceStartIndex

/-- Total number of elements of the models in the sub-ranges a task hands to them; `counts`
lists the element counts of the models. -/
def handedElements (counts : List Nat) (calls : List SurfaceCall) : Nat :=
  (calls.map (fun c => c.elements (counts.getD c.ss 0))).sum
/-! ## Edge functions: direct and exact evaluation -/

/-- Direct evaluation of an edge function with 32-bit coefficients `A`, `B`, `C` at the pixel
of lane `l` of the quad at `(c, r)`: `A*(c + colOffset[l]) + B*(r + rowOffset[l]) + C` as a
32-bit integer.  This is the value the specification gives for the lane, to be compared with
the value the loops of `traverse` reach by stepping. -/
def directEdge (A B C : Int) (c r : Int) (l : Fin 4) : Int :=
  wrapINT (A * (c + colOffset l) + B * (r + rowOffset l) + C)

/-- The three edge functions of a triangle over the integers, without reduction modulo
`2^32`: edge `e` at pixel `(x, y)`. -/
def edgeExact {K : Type} (t : Triangle K) (e : Fin 3) (x y : Int) : Int :=
  (![t.Y 1 - t.Y 2, t.Y 2 - t.Y 0, t.Y 0 - t.Y 1] : Fin 3 → Int) e * x +
  (![t.X 2 - t.X 1, t.X 0 - t.X 2, t.X 1 - t.X 0] : Fin 3 → Int) e * y +
  (![t.X 1 * t.Y 2 - t.X 2 * t.Y 1, t.X 2 * t.Y 0 - t.X 0 * t.Y 2,
     t.X 0 * t.Y 1 - t.X 1 * t.Y 0] : Fin 3 → Int) e

/-- The area `B2 * A1 - B1 * A2` over the integers, without reduction modulo `2^32`. -/
def areaExact {K : Type} (t : Triangle K) : Int :=
  (t.X 1 - t.X 0) * (t.Y 2 - t.Y 0) - (t.X 0 - t.X 2) * (t.Y 0 - t.Y 1)

/-- A value that a signed 32-bit integer holds without overflow. -/
def fits32 (v : Int) : Prop := -2147483648 ≤ v ∧ v < 2147483648

instance (v : Int) : Decidable (fits32 v) :=
  inferInstanceAs (Decidable (-2147483648 ≤ v ∧ v < 2147483648))

/-- No 32-bit overflow in the edge values of a triangle in a tile: the area and the three edge
functions at every pixel of every visited quad are what a signed 32-bit integer holds.
(Overflow in the intermediate products and differences cancels modulo `2^32`.) -/
def EdgesFit {K : Type} (k : Constants) (tile : Tile) (t : Triangle K) : Prop :=
  fits32 (areaExact t) ∧
  ∀ q ∈ traverse k tile t, ∀ l : Fin 4, ∀ e : Fin 3,
    fits32 (edgeExact t e (q.c + colOffset l) (q.r + rowOffset l))

/-- A triangle with negative area: `sampleTriangle` with vertices 1 and 2 exchanged. -/
def negativeTriangle : Triangle Rat :=
  { X := ![0, 0, 3], Y := ![0, 3, 0], Z := ![1, 3, 2] }

/-! ## Pixels updated by a triangle -/

/-- The pixels of the covered lanes of a quad: the pixel `(c + colOffset[l], r + rowOffset[l])`
of every lane `l` whose mask has the sign bit clear, none if the quad is skipped.  These are the
lanes in which the store of `quadStep` writes `max(new, old)`. -/
def quadPixels (q : Quad) : List (Int × Int) :=
  if is_all_negative (quadMask q) then []
  else (List.finRange 4).filterMap (fun l =>
    if quadMask q l < 0 then none else some (q.c + colOffset l, q.r + rowOffset l))

/-- The pixels updated while rasterizing one triangle in a tile, in traversal order. -/
def updatedPixels {K : Type} (k : Constants) (tile : Tile) (t : Triangle K) :
    List (Int × Int) :=
  (traverse k tile t).flatMap quadPixels

/-- Whether pixel `(x, y)` is one of the four pixels of the quad. -/
def inQuad (q : Quad) (x y : Int) : Bool :=
  decide (q.c ≤ x ∧ x ≤ q.c + 1 ∧ q.r ≤ y ∧ y ≤ q.r + 1)

/-- The vertex coordinates are 32-bit integers for which `max + 1` of the bounding box does
not overflow. -/
def CoordsFit {K : Type} (t : Triangle K) : Prop :=
  ∀ i : Fin 3, (fits32 (t.X i) ∧ fits32 (t.X i + 1)) ∧ (fits32 (t.Y i) ∧ fits32 (t.Y i + 1))

/-! ## Tile rasterizer: depths with the special values of IEEE 754

The theorems on depth values read a `float` as an element of an ordered field, where
`1 / 0 = 0`.  The rasterizer divides by `itof(triArea)` without a test, and in `float`
arithmetic `1.0f / 0.0f` is `+infinity`, `0 * infinity` is NaN, and a comparison with NaN is
false.  This section embeds the Z setup and the body of the quad loop a second time, over
depths that are a field element, an infinity or NaN; finite results are exact (no rounding, no
overflow).  `rasterizeTriangleX_finite` relates the two embeddings when `triArea` is not
zero. -/

/-- A `float`: a finite value, `+infinity` (`inf false`), `-infinity` (`inf true`) or NaN. -/
inductive XFloat (K : Type) where
  | fin (v : K)
  | inf (negative : Bool)
  | nan
deriving DecidableEq

section IEEE

variable {K : Type} [LinearOrderedField K]

/-- Negation of a `float`. -/
def XFloat.neg : XFloat K → XFloat K
  | XFloat.fin v => XFloat.fin (-v)
  | XFloat.inf s => XFloat.inf (!s)
  | XFloat.nan => XFloat.nan

/-- Addition of two `float`s: `infinity + (-infinity)` is NaN, NaN propagates. -/
def XFloat.add : XFloat K → XFloat K → XFloat K
  | XFloat.fin a, XFloat.fin b => XFloat.fin (a + b)
  | XFloat.fin _, XFloat.inf s => XFloat.inf s
  | XFloat.inf s, XFloat.fin _ => XFloat.inf s
  | XFloat.inf s, XFloat.inf s2 => if s = s2 then XFloat.inf s else XFloat.nan
  | XFloat.nan, _ => XFloat.nan
  | _, XFloat.nan => XFloat.nan

/-- Subtraction of two `float`s. -/
def XFloat.sub (a b : XFloat K) : XFloat K := XFloat.add a (XFloat.neg b)

/-- Multiplication of two `float`s: `0 * infinity` is NaN, NaN propagates. -/
def XFloat.mul : XFloat K → XFloat K → XFloat K
  | XFloat.fin a, XFloat.fin b => XFloat.fin (a * b)
  | XFloat.fin a, XFloat.inf s =>
    if a = 0 then XFloat.nan else XFloat.inf (xor (decide (a < 0)) s)
  | XFloat.inf s, XFloat.fin b =>
    if b = 0 then XFloat.nan else XFloat.inf (xor s (decide (b < 0)))
  | XFloat.inf s, XFloat.inf s2 => XFloat.inf (xor s s2)
  | XFloat.nan, _ => XFloat.nan
  | _, XFloat.nan => XFloat.nan

/-- The ordered comparison `a > b` of two `float`s, false when either is NaN. -/
def XFloat.gt : XFloat K → XFloat K → Bool
  | XFloat.fin a, XFloat.fin b => decide (b < a)
  | XFloat.fin _, XFloat.inf s => s
  | XFloat.inf s, XFloat.fin _ => !s
  | XFloat.inf s, XFloat.inf s2 => !s && s2
  | XFloat.nan, _ => false
  | _, XFloat.nan => false

/-- Modelled from the spec: one lane of `vmax(a, b)` of `VecF32`, the SSE maximum `maxps` of
`a` and `b` in that order: `a` when `a > b`, else `b`; so `b` when either is NaN. -/
def XFloat.maxps (a b : XFloat K) : XFloat K := if XFloat.gt a b then a else b

/-- Modelled from the spec: lane-wise maximum `vmax` of `VecF32`, with the special values. -/
def vmaxX (a b : Vec4 (XFloat K)) : Vec4 (XFloat K) := fun k => XFloat.maxps (a k) (b k)

/-- Modelled from the spec: the conversion `itof` of a 32-bit integer lane, always finite. -/
def itofX (v : Vec4 Int) : Vec4 (XFloat K) := fun k => XFloat.fin (v k : K)

/-- The reciprocal `oneOverTriArea = 1.0f / itof(triArea)` (line 322) with the special values:
`itof(0)` is `+0.0f` and `1.0f / +0.0f` is `+infinity`. -/
def oneOverTriAreaX (t : Triangle (XFloat K)) : XFloat K :=
  if triArea t = 0 then XFloat.inf false else XFloat.fin (1 / (triArea t : K))

/-- The depth plane `Z[0], Z[1], Z[2]` of the Z setup (lines 325-328) with the special
values. -/
def zPlaneX (t : Triangle (XFloat K)) : Fin 3 → XFloat K :=
  ![t.Z 0, XFloat.mul (XFloat.sub (t.Z 1) (t.Z 0)) (oneOverTriAreaX t),
    XFloat.mul (XFloat.sub (t.Z 2) (t.Z 0)) (oneOverTriAreaX t)]

/-- The barycentric-interpolated depth `depth = zz[0]; depth += itof(beta) * zz[1];
depth += itof(gama) * zz[2]` (lines 411-413) with the special values. -/
def quadDepthX (zz : Fin 3 → XFloat K) (q : Quad) : Vec4 (XFloat K) :=
  fun l => XFloat.add (XFloat.add (zz 0) (XFloat.mul ((itofX q.beta : Vec4 (XFloat K)) l) (zz 1)))
    (XFloat.mul ((itofX q.gama : Vec4 (XFloat K)) l) (zz 2))

/-- The body of the column loop (lines 403-418) with the special values. -/
def quadStepX (zz : Fin 3 → XFloat K) (pDepthBuffer : Int → XFloat K) (q : Quad) :
    Int → XFloat K :=
  let mask := quadMask q
  if is_all_negative mask then pDepthBuffer
  else
    let depth := quadDepthX zz q
    let previousDepthValue := load pDepthBuffer q.idx
    let mergedDepth := vmaxX depth previousDepthValue
    let depth := select mergedDepth previousDepthValue mask
    store depth q.idx pDepthBuffer

/-- Rasterization of one triangle of a group (lines 338-421) with the special values. -/
def rasterizeTriangleX (k : Constants) (tile : Tile) (pDepthBuffer : Int → XFloat K)
    (t : Triangle (XFloat K)) : Int → XFloat K :=
  (traverse k tile t).foldl (quadStepX (zPlaneX t)) pDepthBuffer

/-- `RasterizeBinnedTrianglesToDepthBuffer(taskId, taskCount)` with the special values. -/
def RasterizeBinnedTrianglesToDepthBufferX (k : Constants) (bins : Bins (XFloat K))
    (taskId : Nat) (pDepthBuffer : Int → XFloat K) : Int → XFloat K :=
  (gatheredGroups k bins taskId).foldl
    (fun buf lanes =>
      lanes.foldl (fun buf e => rasterizeTriangleX k (tileOf k taskId) buf
        (triangleOf k bins taskId e)) buf)
    pDepthBuffer

/-- A triangle with finite depths, seen as a triangle with `float` depths. -/
def Triangle.toX (t : Triangle K) : Triangle (XFloat K) :=
  { X := t.X, Y := t.Y, Z := fun i => XFloat.fin (t.Z i) }

/-- Whether two of the three vertices of a triangle are at the same pixel. -/
def hasCoincidentVertices {F : Type} (t : Triangle F) : Bool :=
  decide (∃ i j : Fin 3, i ≠ j ∧ t.X i = t.X j ∧ t.Y i = t.Y j)

end IEEE

/-- The triangle `degenerateTriangle` with `float` depths. -/
def degenerateTriangleX : Triangle (XFloat Rat) := degenerateTriangle.toX

/-- A depth buffer with the values 0, 1, 2, 3 in its four first slots and 0 elsewhere. -/
def rampBufferX : Int → XFloat Rat :=
  fun s => if 0 ≤ s ∧ s < 4 then XFloat.fin (s : Rat) else XFloat.fin 0
/-! ## Bounding-box rasterizer (`AABBoxRasterizerSSE.cpp`): packets of world-space boxes -/

/-- `struct AABBoxRasterizerSSE::WorldBBoxPacket` (lines 20-34): four boxes in
structure-of-arrays form; `mCenter c l` and `mHalf c l` are component `c` of the center and of
the half-extents of the box in lane `l`. -/
structure WorldBBoxPacket (K : Type) where
  mCenter : Fin 3 → Vec4 K
  mHalf : Fin 3 → Vec4 K

/-- `WorldBBoxPacket::SetLane(lane, center, half)` (lines 25-33). -/
def WorldBBoxPacket.SetLane {K : Type} (p : WorldBBoxPacket K) (lane : Nat)
    (center half : Fin 3 → K) : WorldBBoxPacket K :=
  { mCenter := fun c l => if l.val = lane then center c else p.mCenter c l,
    mHalf := fun c l => if l.val = lane then half c else p.mHalf c l }

/-- Modelled from the spec: what the rasterizer reads of a `CPUTRenderNode` of an asset set
(the CPUT classes are not among the sources): the answer of `IsModel()` and, for a model, the
center and half-extents that `GetBoundsWorldSpace` returns. -/
structure RenderNode (K : Type) where
  IsModel : Bool
  center : Fin 3 → K
  half : Fin 3 → K

/-- The members of `AABBoxRasterizerSSE` that the embedded methods read or write.  An array is
a function from index to element together with the length it was allocated with
(`numPackets` for `mpWorldBBox`, `insideViewFrustumLength` for `mpInsideViewFrustum`,
`visibleLength` for `mpVisible`); nothing checks bounds. -/
structure AABBoxRasterizerSSE (K : Type) where
  mNumModels : Nat
  mpWorldBBox : Nat → WorldBBoxPacket K
  numPackets : Nat
  mpInsideViewFrustum : Nat → Bool
  insideViewFrustumLength : Nat
  mpVisible : Nat → Bool
  visibleLength : Nat
  mNumCulled : Nat

section Boxes

variable {K : Type} [LinearOrderedField K]

/-- A packet whose bytes are all zero, as `memset(mpWorldBBox, 0, ..)` leaves it (line 102):
the float with all bits zero is `0.0`. -/
def zeroPacket : WorldBBoxPacket K :=
  { mCenter := fun _ _ => 0, mHalf := fun _ _ => 0 }

/-- The body of the first pair of loops of `CreateTransformedAABBoxes` (lines 82-89):
`mNumModels++` for a model node. -/
def countStep (mNumModels : Nat) (pRenderNode : RenderNode K) : Nat :=
  if pRenderNode.IsModel then toUINT ((mNumModels : Int) + 1) else mNumModels

/-- The first pair of loops of `CreateTransformedAABBoxes` (lines 78-91). -/
def countModels (mNumModels : Nat) (pAssetSet : List (List (RenderNode K))) : Nat :=
  pAssetSet.foldl (fun mNumModels assetSet => assetSet.foldl countStep mNumModels) mNumModels

/-- The body of the second pair of loops of `CreateTransformedAABBoxes` (lines 108-128) as far
as `mpWorldBBox` goes: the state is `modelId` and the packets. -/
def fillStep (st : Nat × (Nat → WorldBBoxPacket K)) (pRenderNode : RenderNode K) :
    Nat × (Nat → WorldBBoxPacket K) :=
  if pRenderNode.IsModel then
    let modelId := st.1
    (toUINT ((modelId : Int) + 1),
      fun i => if i = modelId / 4
        then (st.2 i).SetLane (modelId % 4) pRenderNode.center pRenderNode.half
        else st.2 i)
  else st

/-- The second pair of loops of `CreateTransformedAABBoxes` (lines 104-130). -/
def fillPackets (pAssetSet : List (List (RenderNode K)))
    (mpWorldBBox : Nat → WorldBBoxPacket K) : Nat × (Nat → WorldBBoxPacket K) :=
  pAssetSet.foldl (fun st assetSet => assetSet.foldl fillStep st) (0, mpWorldBBox)

/-- `AABBoxRasterizerSSE::CreateTransformedAABBoxes(pAssetSet, numAssetSets)` (lines 76-131).
The arrays `mpTransformedAABBox` and `mpNumTriangles`, which no embedded method reads, are
left out.  `new bool[..]` leaves the elements of the flag arrays as they are; `memset` zeroes
the `numPackets` packets of the allocation. -/
def CreateTransformedAABBoxes (s : AABBoxRasterizerSSE K)
    (pAssetSet : List (List (RenderNode K))) : AABBoxRasterizerSSE K :=
  let mNumModels := countModels s.mNumModels pAssetSet
  let numPackets := toUINT ((mNumModels : Int) + 3) / 4
  let zeroed : Nat → WorldBBoxPacket K :=
    fun i => if i < numPackets then zeroPacket else s.mpWorldBBox i
  { s with
    mNumModels := mNumModels
    numPackets := numPackets
    insideViewFrustumLength := mNumModels
    visibleLength := mNumModels
    mpWorldBBox := (fillPackets pAssetSet zeroed).2 }

/-- The variables `modelId`, `count` of `RenderVisible` and the sequence of nodes on which
`Render` has been called. -/
structure RenderState (K : Type) where
  modelId : Nat
  count : Int
  rendered : List (RenderNode K)

/-- The body of the loops of `RenderVisible` (lines 160-174). -/
def renderStep (mpVisible : Nat → Bool) (st : RenderState K) (pRenderNode : RenderNode K) :
    RenderState K :=
  if pRenderNode.IsModel then
    let st1 : RenderState K :=
      if mpVisible st.modelId then
        { st with rendered := st.rendered ++ [pRenderNode], count := wrapINT (st.count + 1) }
      else st
    { st1 with modelId := toUINT ((st1.modelId : Int) + 1) }
  else st

/-- The loops of `RenderVisible` (lines 156-176). -/
def renderLoop (mpVisible : Nat → Bool) (pAssetSet : List (List (RenderNode K))) :
    RenderState K :=
  pAssetSet.foldl (fun st assetSet => assetSet.foldl (renderStep mpVisible) st)
    { modelId := 0, count := 0, rendered := [] }

/-- `AABBoxRasterizerSSE::RenderVisible(pAssetSet, renderParams, numAssetSets)` (lines
150-178): the state afterwards and the nodes rendered, in order. -/
def RenderVisible (s : AABBoxRasterizerSSE K) (pAssetSet : List (List (RenderNode K))) :
    AABBoxRasterizerSSE K × List (RenderNode K) :=
  let st := renderLoop s.mpVisible pAssetSet
  ({ s with mNumCulled := toUINT ((s.mNumModels : Int) - st.count) }, st.rendered)

/-- The model nodes of the asset sets in traversal order. -/
def modelNodes (pAssetSet : List (List (RenderNode K))) : List (RenderNode K) :=
  pAssetSet.flatten.filter (fun pRenderNode => pRenderNode.IsModel)

/-- Component `c` of the center and of the half-extents held in lane `i % 4` of packet
`i / 4`. -/
def boxAt (mpWorldBBox : Nat → WorldBBoxPacket K) (i : Nat) (c : Fin 3) : K × K :=
  ((mpWorldBBox (i / 4)).mCenter c ⟨i % 4, Nat.mod_lt i (by decide)⟩,
    (mpWorldBBox (i / 4)).mHalf c ⟨i % 4, Nat.mod_lt i (by decide)⟩)

/-! ## Bounding-box rasterizer: the frustum test -/

/-- Modelled from the spec: the members of `CPUTFrustum` that `CalcInsideViewFrustum` reads
(the class is not among the sources): the normals `mpNormal[i].f[j]` of the six planes and the
array `mPlanes`, which holds the plane distances at `mPlanes[3*8 + i]`. -/
structure CPUTFrustum (K : Type) where
  mpNormal : Fin 6 → Fin 3 → K
  mPlanes : Nat → K

/-- The sign bit of a float in exact arithmetic: set when the value is negative.  A zero has no
sign here; the frustum decision, which reads the sign bit of `dot` also when `dot` is
`-0.0f`, is embedded apart on floats that carry the sign of their zero (`signBitS`). -/
def signBit (x : K) : Bool := decide (x < 0)

/-- The intrinsic `_mm_xor_ps` of a value with a mask that holds a sign bit only: the sign of
the value is flipped when the bit is set. -/
def xorSign (x : K) (sign : Bool) : K := if sign then -x else x

/-- `planeNormal[i][j]` (line 237). -/
def planeNormal (pFrustum : CPUTFrustum K) (i : Fin 6) (j : Fin 3) : Vec4 K :=
  splat (pFrustum.mpNormal i j)

/-- `planeNormalSign[i][j] = planeNormal[i][j] & signMask` (line 238), as the sign bit. -/
def planeNormalSign (pFrustum : CPUTFrustum K) (i : Fin 6) (j : Fin 3) : Vec4 Bool :=
  fun l => signBit (planeNormal pFrustum i j l)

/-- `planeDist[i]` (line 241). -/
def planeDist (pFrustum : CPUTFrustum K) (i : Fin 6) : Vec4 K :=
  splat (pFrustum.mPlanes (3 * 8 + i.val))

/-- `halfSignX`, `halfSignY`, `halfSignZ` (lines 255-257) for plane `j`: component `c`. -/
def halfSign (box : WorldBBoxPacket K) (pFrustum : CPUTFrustum K) (j : Fin 6) (c : Fin 3) :
    Vec4 K :=
  fun l => xorSign (box.mHalf c l) (planeNormalSign pFrustum j c l)

/-- `cornerX`, `cornerY`, `cornerZ` (lines 260-262) for plane `j`: component `c` of the
corner to test. -/
def corner (box : WorldBBoxPacket K) (pFrustum : CPUTFrustum K) (j : Fin 6) (c : Fin 3) :
    Vec4 K :=
  fun l => box.mCenter c l - halfSign box pFrustum j c l

/-- The dot product `dot` for plane `j` (lines 265-268). -/
def planeDot (box : WorldBBoxPacket K) (pFrustum : CPUTFrustum K) (j : Fin 6) : Vec4 K :=
  fun l =>
    planeDist pFrustum j l
      + corner box pFrustum j 0 l * planeNormal pFrustum j 0 l
      + corner box pFrustum j 1 l * planeNormal pFrustum j 1 l
      + corner box pFrustum j 2 l * planeNormal pFrustum j 2 l

/-- The loop over the planes (lines 249-273).  Only the sign bit of each lane of `inMask` is
read afterwards, so `inMask` is held as its four sign bits: all set at the start, and
`_mm_and_ps(inMask, dot)` keeps the bit of a lane when the sign bit of `dot` is set. -/
def inMaskOf (box : WorldBBoxPacket K) (pFrustum : CPUTFrustum K) : Vec4 Bool :=
  (List.finRange 6).foldl
    (fun inMask j => fun l => inMask l && signBit (planeDot box pFrustum j l))
    (fun _ => true)

end Boxes

/-- The intrinsic `_mm_movemask_ps`: the integer whose bit `l` is the sign bit of lane `l`. -/
def movemask (inMask : Vec4 Bool) : Nat :=
  (if inMask 0 then 1 else 0) + (if inMask 1 then 2 else 0) +
    (if inMask 2 then 4 else 0) + (if inMask 3 then 8 else 0)

/-- The value `(packetMask >> k) & 1` converted to `bool`. -/
def maskBit (packetMask : Nat) (k : Nat) : Bool := (packetMask >>> k) &&& 1 != 0

/-- The four writes `visible[i*4 + k] = (packetMask >> k) & 1` (lines 277-280).  The index
needs no reduction modulo `2^32`: `i` is below `packetEnd`, which is below `2^30`. -/
def writeFlags (visible : Nat → Bool) (i : Nat) (packetMask : Nat) : Nat → Bool :=
  let v0 := Function.update visible (i * 4 + 0) (maskBit packetMask 0)
  let v1 := Function.update v0 (i * 4 + 1) (maskBit packetMask 1)
  let v2 := Function.update v1 (i * 4 + 2) (maskBit packetMask 2)
  Function.update v2 (i * 4 + 3) (maskBit packetMask 3)

/-- `packetStart = (start + 3) / 4` (line 225), in `UINT` arithmetic. -/
def packetStart (start : Nat) : Nat := toUINT ((start : Int) + 3) / 4

/-- `packetEnd = (end + 3) / 4` (line 226), in `UINT` arithmetic. -/
def packetEnd (end_ : Nat) : Nat := toUINT ((end_ : Int) + 3) / 4

/-- The packets that the loop `for(UINT i = packetStart; i < packetEnd; i++)` (line 246)
visits, in order. -/
def packetRange (start end_ : Nat) : List Nat :=
  List.range' (packetStart start) (packetEnd end_ - packetStart start)

/-- `AABBoxRasterizerSSE::CalcInsideViewFrustum(pFrustum, start, end)` (lines 222-282). -/
def CalcInsideViewFrustum {K : Type} [LinearOrderedField K] (s : AABBoxRasterizerSSE K)
    (pFrustum : CPUTFrustum K) (start end_ : Nat) : AABBoxRasterizerSSE K :=
  { s with
    mpInsideViewFrustum :=
      (packetRange start end_).foldl
        (fun visible i =>
          let packetMask := movemask (inMaskOf (s.mpWorldBBox i) pFrustum)
          writeFlags visible i packetMask)
        s.mpInsideViewFrustum }

/-! ## Bounding-box rasterizer: corners and signed distance as the specification writes them -/

section Corners

variable {K : Type} [LinearOrderedField K]

/-- The signed distance `n.p + d` of the point `p` to the plane with normal `n` and
distance `d`. -/
def signedDistance (n : Fin 3 → K) (d : K) (p : Fin 3 → K) : K :=
  n 0 * p 0 + n 1 * p 1 + n 2 * p 2 + d

/-- The eight corners of the box with the given center and half-extents: per component,
`center + half` where `sgn` is true and `center - half` where it is false. -/
def boxCorner (center half : Fin 3 → K) (sgn : Fin 3 → Bool) : Fin 3 → K :=
  fun c => if sgn c then center c + half c else center c - half c

end Corners

/-- A packet whose lane 0 holds the box with center (0, 0, 0) and half-extents (1, 1, 1). -/
def samplePacket : WorldBBoxPacket Rat :=
  (zeroPacket : WorldBBoxPacket Rat).SetLane 0 ![0, 0, 0] ![1, 1, 1]

/-- A frustum whose six planes all have normal (1, 0, 0) and distance 0. -/
def sampleFrustum : CPUTFrustum Rat :=
  { mpNormal := fun _ => ![1, 0, 0], mPlanes := fun _ => 0 }

/-- A rasterizer state of four models whose packet 0 is `samplePacket`. -/
def sampleRasterizer : AABBoxRasterizerSSE Rat :=
  { mNumModels := 4, mpWorldBBox := fun _ => samplePacket, numPackets := 1,
    mpInsideViewFrustum := fun _ => false, insideViewFrustumLength := 4,
    mpVisible := fun i => decide (i = 1), visibleLength := 4, mNumCulled := 0 }


/-- The state the constructor `AABBoxRasterizerSSE()` leaves (lines 36-57): no model, no
array. -/
def newRasterizer : AABBoxRasterizerSSE Rat :=
  { mNumModels := 0, mpWorldBBox := fun _ => zeroPacket, numPackets := 0,
    mpInsideViewFrustum := fun _ => false, insideViewFrustumLength := 0,
    mpVisible := fun _ => false, visibleLength := 0, mNumCulled := 0 }

/-- Two asset sets with three model nodes and one node that is not a model. -/
def sampleAssetSets : List (List (RenderNode Rat)) :=
  [[{ IsModel := true, center := ![0, 0, 0], half := ![1, 1, 1] },
    { IsModel := false, center := ![9, 9, 9], half := ![9, 9, 9] },
    { IsModel := true, center := ![5, 0, 0], half := ![1, 2, 3] }],
   [{ IsModel := true, center := ![0, 7, 0], half := ![2, 2, 2] }]]
/-! ## Bounding-box rasterizer: the indices the frustum test writes -/

/-- The indices of the four writes `visible[i*4 + 0 .. i*4 + 3]` of packet `i` (lines
277-280). -/
def packetWrites (i : Nat) : List Nat := [i * 4 + 0, i * 4 + 1, i * 4 + 2, i * 4 + 3]

/-- The indices of `mpInsideViewFrustum` that `CalcInsideViewFrustum(pFrustum, start, end)`
writes, in order: the four writes of every packet of the loop. -/
def flagWrites (start end_ : Nat) : List Nat :=
  (packetRange start end_).flatMap packetWrites

/-- One asset set of five model nodes, each the unit box. -/
def fiveModels : List (List (RenderNode Rat)) :=
  [List.replicate 5 { IsModel := true, center := ![0, 0, 0], half := ![1, 1, 1] }]

/-- The rasterizer after `CreateTransformedAABBoxes` over `fiveModels`, from a fresh state in
which the eight flags of `mpInsideViewFrustum` and the bytes behind them read `true`. -/
def fiveModelRasterizer : AABBoxRasterizerSSE Rat :=
  CreateTransformedAABBoxes { newRasterizer with mpInsideViewFrustum := fun _ => true }
    fiveModels
/-! ## Bounding-box rasterizer: the calls of a split into task ranges -/

/-- The consecutive ranges `(s_j, s_{j+1})` of a split `s_0, s_1, .., s_K` of the models: the
arguments `(start, end)` of the calls of `CalcInsideViewFrustum`. -/
def taskRanges (s : List Nat) : List (Nat × Nat) := s.zip s.tail

/-- How many times the calls of a split process packet `p`. -/
def timesProcessed (s : List Nat) (p : Nat) : Nat :=
  ((taskRanges s).map (fun c => (packetRange c.1 c.2).count p)).sum

/-- How many times the calls of a split write flag `x`. -/
def timesWritten (s : List Nat) (x : Nat) : Nat :=
  ((taskRanges s).map (fun c => (flagWrites c.1 c.2).count x)).sum
/-! ## Bounding-box rasterizer: the frustum test on floats with a sign bit

`CalcInsideViewFrustum` reads no value of `dot`, only its sign bit, and in `float` a zero has
a sign bit too: `-0.0f` has it set.  This section embeds the frustum test a second time, over
finite floats that carry the sign bit of their zero; finite results are exact (no rounding,
no overflow, no underflow). -/

/-- A finite `float` with the sign of its zero: the value `val`, and the sign bit `negZero`
that the float has when `val` is zero (`+0.0f` or `-0.0f`).  `negZero` is not read when `val`
is not zero. -/
structure SFloat (K : Type) where
  val : K
  negZero : Bool
deriving DecidableEq

section SignedZero

variable {K : Type} [LinearOrderedField K]

/-- The sign bit of a `float`: set when the value is negative, and the sign of the zero when
the value is zero. -/
def signBitS (x : SFloat K) : Bool := if x.val = 0 then x.negZero else decide (x.val < 0)

/-- Negation of a `float`: the sign bit is flipped. -/
def SFloat.neg (x : SFloat K) : SFloat K := { val := -x.val, negZero := !x.negZero }

/-- The intrinsic `_mm_add_ps` on one lane.  A sum that is zero is `-0.0f` when both operands
have the sign bit set, and `+0.0f` otherwise (round to nearest). -/
def SFloat.add (a b : SFloat K) : SFloat K :=
  { val := a.val + b.val, negZero := signBitS a && signBitS b }

/-- The intrinsic `_mm_sub_ps` on one lane: `a - b` is `a + (-b)`. -/
def SFloat.sub (a b : SFloat K) : SFloat K := SFloat.add a (SFloat.neg b)

/-- The intrinsic `_mm_mul_ps` on one lane.  The sign bit of a product is the exclusive or of
the sign bits of the factors, also when the product is zero. -/
def SFloat.mul (a b : SFloat K) : SFloat K :=
  { val := a.val * b.val, negZero := xor (signBitS a) (signBitS b) }

end SignedZero

/-- The float `-0.0f`. -/
def negZero : SFloat Rat := { val := 0, negZero := true }

/-- The task-set handles of `DepthBufferRasterizerSSEMT` that the frame function passes to
the task manager. -/
inductive TaskSetHandle where
  | mXformMesh
  | mBinMesh
  | mRasterize
deriving DecidableEq, Repr

/-- The task functions that the frame function hands to the task manager. -/
inductive TaskFunc where
  | TransformMeshes
  | BinTransformedMeshes
  | RasterizeBinnedTrianglesToDepthBuffer
deriving DecidableEq, Repr

/-- A call to the task manager `gTaskMgr`.  `CreateTaskSet(pFunc, pArg, uTaskCount, pDepends,
uDepends, szSetName, pOutHandle)` is kept with its function, its task count, the `uDepends`
handles that `pDepends` points to, and the handle variable it fills. -/
inductive TaskMgrCall where
  | CreateTaskSet (pFunc : TaskFunc) (uTaskCount : Nat) (pDepends : List TaskSetHandle)
      (pOutHandle : TaskSetHandle)
  | WaitForSet (hSet : TaskSetHandle)
  | ReleaseHandle (hSet : TaskSetHandle)
deriving DecidableEq, Repr

/-- `DepthBufferRasterizerSSEMT::TransformModelsAndRasterizeToDepthBuffer()` (lines 74-100):
the calls it makes to the task manager, in order.  `NUM_TILES` is a constant of the absent
header.  The timer and the count of rasterized models after the calls are left out. -/
def TransformModelsAndRasterizeToDepthBuffer (k : Constants) (NUM_TILES : Nat) :
    List TaskMgrCall :=
  [ TaskMgrCall.CreateTaskSet TaskFunc.TransformMeshes k.NUM_XFORMVERTS_TASKS []
      TaskSetHandle.mXformMesh,
    TaskMgrCall.CreateTaskSet TaskFunc.BinTransformedMeshes k.NUM_XFORMVERTS_TASKS
      [TaskSetHandle.mXformMesh] TaskSetHandle.mBinMesh,
    TaskMgrCall.CreateTaskSet TaskFunc.RasterizeBinnedTrianglesToDepthBuffer NUM_TILES
      [TaskSetHandle.mBinMesh] TaskSetHandle.mRasterize,
    TaskMgrCall.WaitForSet TaskSetHandle.mRasterize,
    TaskMgrCall.ReleaseHandle TaskSetHandle.mXformMesh,
    TaskMgrCall.ReleaseHandle TaskSetHandle.mBinMesh,
    TaskMgrCall.ReleaseHandle TaskSetHandle.mRasterize ]

/-- The task set that a sequence of calls creates under a handle: function, task count and
dependencies of the first `CreateTaskSet` that fills the handle. -/
def createdSet (calls : List TaskMgrCall) (h : TaskSetHandle) :
    Option (TaskFunc × Nat × List TaskSetHandle) :=
  calls.findSome? (fun c =>
    match c with
    | TaskMgrCall.CreateTaskSet pFunc uTaskCount pDepends pOutHandle =>
      if pOutHandle = h then some (pFunc, uTaskCount, pDepends) else none
    | _ => none)

/-- Number of tasks of the set under a handle (zero if no set is created under it). -/
def taskCountOf (calls : List TaskMgrCall) (h : TaskSetHandle) : Nat :=
  match createdSet calls h with
  | some (_, uTaskCount, _) => uTaskCount
  | none => 0

/-- Dependencies of the set under a handle. -/
def dependsOf (calls : List TaskMgrCall) (h : TaskSetHandle) : List TaskSetHandle :=
  match createdSet calls h with
  | some (_, _, pDepends) => pDepends
  | none => []

/-- A set and its transitive predecessors in the dependency graph, followed for at most the
given number of edges. -/
def predecessors (calls : List TaskMgrCall) : Nat → TaskSetHandle → List TaskSetHandle
  | 0, h => [h]
  | fuel + 1, h => h :: (dependsOf calls h).flatMap (predecessors calls fuel)

/-- Modelled from the spec: an execution of the task manager (the task manager is not among
the sources), as the times at which things happen: `start h taskId` and `finish h taskId` are
the times at which task `taskId` of the set under handle `h` starts and completes, and
`returns i` is the time at which call number `i` of the caller returns. -/
structure Execution where
  start : TaskSetHandle → Nat → Nat
  finish : TaskSetHandle → Nat → Nat
  returns : Nat → Nat

/-- Modelled from the spec: what the task graph runner guarantees of an execution of a
sequence of calls.  A task completes no earlier than it starts; "a set becomes runnable when
all its dependency sets have completed"; "`waitForSet` on a terminal node does not return
until all transitive predecessors have completed" (nor until the set waited on has); and the
calls of the caller return in program order. -/
def Execution.admissible (calls : List TaskMgrCall) (e : Execution) : Prop :=
  (∀ h taskId, taskId < taskCountOf calls h → e.start h taskId ≤ e.finish h taskId) ∧
  (∀ h d taskId taskId2, d ∈ dependsOf calls h → taskId < taskCountOf calls h →
    taskId2 < taskCountOf calls d → e.finish d taskId2 ≤ e.start h taskId) ∧
  (∀ i h, calls[i]? = some (TaskMgrCall.WaitForSet h) →
    ∀ p ∈ predecessors calls calls.length h, ∀ taskId, taskId < taskCountOf calls p →
      e.finish p taskId ≤ e.returns i) ∧
  (∀ i j, i ≤ j → e.returns i ≤ e.returns j)

/-- The level of a task set in the pipeline: transform, bin, rasterize. -/
def pipelineLevel : TaskSetHandle → Nat
  | TaskSetHandle.mXformMesh => 0
  | TaskSetHandle.mBinMesh => 1
  | TaskSetHandle.mRasterize => 2

/-- An execution that runs the three sets one after the other: the tasks of level `n` run
from time `2n` to `2n + 1`, the calls up to the wait return at once and the wait and the
calls after it return at time 6. -/
def sampleExecution : Execution :=
  { start := fun h _ => 2 * pipelineLevel h,
    finish := fun h _ => 2 * pipelineLevel h + 1,
    returns := fun i => if i < 3 then 0 else 6 }
/-! ## Theorems: partition of vertices and triangles -/

theorem toUINT_natCast {n : Nat} (h : n < 4294967296) : toUINT (n : Int) = n := by
  simp only [toUINT]; omega

theorem toUINT_of_nonneg_lt {i : Int} (h0 : 0 ≤ i) (h : i < 4294967296) : toUINT i = i.toNat := by
  simp only [toUINT]; omega

theorem wrapINT_of_range {i : Int} (h0 : -2147483648 ≤ i) (h : i < 2147483648) : wrapINT i = i := by
  simp only [wrapINT]; omega

theorem toINT_of_lt {n : Nat} (h : n < 2147483648) : toINT n = n := by
  simp only [toINT]; exact wrapINT_of_range (by omega) (by omega)

theorem thisSurfaceStartIndex_eq {S R : Nat} (hS : S < 2147483648) (hR : R < 2147483648) :
    toUINT (max 0 (wrapINT (toINT S - toINT R))) = max R S - R := by
  rw [toINT_of_lt hS, toINT_of_lt hR, wrapINT_of_range (by omega) (by omega),
    toUINT_of_nonneg_lt (by omega) (by omega)]
  omega

theorem thisSurfaceEndIndex_eq {a rem cnt : Nat} (h : a + rem < 4294967296) (hc : 1 ≤ cnt)
    (hcc : cnt < 4294967296) (hr : 1 ≤ a + rem) :
    toUINT ((min (toUINT ((a : Int) + rem)) cnt : Nat) - 1) = min (a + rem) cnt - 1 := by
  have h1 : toUINT ((a : Int) + rem) = a + rem := by
    rw [toUINT_of_nonneg_lt (by omega) (by omega)]; omega
  rw [h1, toUINT_of_nonneg_lt (by omega) (by omega)]
  omega

theorem remainingPerTask_eq {rem e a : Nat} (he : e + 1 < 4294967296) (ha : a ≤ e + 1)
    (hr : e + 1 - a ≤ rem) (hrem : rem < 4294967296) :
    toUINT ((rem : Int) - toUINT ((toUINT ((e : Int) + 1) : Int) - a)) = rem - (e + 1 - a) := by
  have h1 : toUINT ((e : Int) + 1) = e + 1 := by
    rw [toUINT_of_nonneg_lt (by omega) (by omega)]; omega
  have h2 : toUINT (((e + 1 : Nat) : Int) - a) = e + 1 - a := by
    rw [toUINT_of_nonneg_lt (by omega) (by omega)]; omega
  rw [h1, h2, toUINT_of_nonneg_lt (by omega) (by omega)]
  omega

theorem timesCovered_nil (ss v : Nat) : timesCovered [] ss v = 0 := rfl

theorem timesCovered_cons (c : SurfaceCall) (cs : List SurfaceCall) (ss v : Nat) :
    timesCovered (c :: cs) ss v = timesCovered cs ss v + (if c.covers ss v then 1 else 0) := by
  simp [timesCovered, List.countP_cons]

/-- Calls made by the loop started at model `ss0` never name an earlier model. -/
theorem surfaceLoop_ss_ge (S : Nat) :
    ∀ (L : List Nat) (ss0 R rem : Nat), ∀ c ∈ surfaceLoop S L ss0 R rem, ss0 ≤ c.ss := by
  intro L
  induction L with
  | nil => intro ss0 R rem c hc; simp [surfaceLoop] at hc
  | cons cnt rest ih =>
    intro ss0 R rem c hc
    simp only [surfaceLoop] at hc
    split at hc
    · have := ih _ _ _ c hc; omega
    · rcases List.mem_cons.1 hc with h | h
      · subst h; exact Nat.le_refl _
      · split at h
        · simp at h
        · have := ih _ _ _ c h; omega

theorem timesCovered_surfaceLoop_lt (S : Nat) (L : List Nat) (ss0 R rem ss v : Nat)
    (h : ss < ss0) : timesCovered (surfaceLoop S L ss0 R rem) ss v = 0 := by
  unfold timesCovered
  rw [List.countP_eq_zero]
  intro c hc
  have := surfaceLoop_ss_ge S L ss0 R rem c hc
  simp [SurfaceCall.covers]
  intro h1; omega

/-- One step of the surface loop on a surface that is not skipped, with the machine
arithmetic resolved. -/
theorem surfaceLoop_cons_process (S hi : Nat) (hhi : hi ≤ 2147483648) (cnt : Nat)
    (rest : List Nat) (ss0 R rem : Nat) (hcnt : 1 ≤ cnt) (hsum : R + cnt < 2147483648)
    (hrem : 1 ≤ rem) (hinv : rem + max R S = hi) (hskip : ¬ R + cnt < S) :
    surfaceLoop S (cnt :: rest) ss0 R rem =
      SurfaceCall.mk ss0 (max R S - R) (min (hi - R) cnt - 1) ::
        (if hi ≤ R + cnt then [] else surfaceLoop S rest (ss0 + 1) (R + cnt) (hi - (R + cnt))) := by
  have hnew : toUINT ((R : Int) + cnt) = R + cnt := by
    rw [toUINT_of_nonneg_lt (by omega) (by omega)]; omega
  have hst := @thisSurfaceStartIndex_eq S R (by omega) (by omega)
  have hen := @thisSurfaceEndIndex_eq (max R S - R) rem cnt (by omega) hcnt (by omega) (by omega)
  have hrm := @remainingPerTask_eq rem (min (max R S - R + rem) cnt - 1) (max R S - R)
    (by omega) (by omega) (by omega) (by omega)
  rw [surfaceLoop]
  simp only [hnew, if_neg hskip]
  rw [hst, hen, hrm]
  have e1 : min (max R S - R + rem) cnt - 1 = min (hi - R) cnt - 1 := by omega
  rw [e1]
  refine congrArg (List.cons _) ?_
  by_cases hb : hi ≤ R + cnt
  · rw [if_pos hb, if_pos (by omega)]
  · rw [if_neg hb, if_neg (by omega)]
    refine congrArg (surfaceLoop S rest (ss0 + 1) (R + cnt)) ?_
    omega

theorem surfaceLoop_cons_skip (S : Nat) (cnt : Nat)
    (rest : List Nat) (ss0 R rem : Nat) (hsum : R + cnt < 2147483648) (hskip : R + cnt < S) :
    surfaceLoop S (cnt :: rest) ss0 R rem = surfaceLoop S rest (ss0 + 1) (R + cnt) rem := by
  have hnew : toUINT ((R : Int) + cnt) = R + cnt := by
    rw [toUINT_of_nonneg_lt (by omega) (by omega)]; omega
  rw [surfaceLoop]
  simp only [hnew, if_pos hskip]

/-- Characterisation of the surface loop.  `hi` is the end of the task's global range,
`R` the running count, and the remaining budget is `hi - max R S`. -/
theorem timesCovered_surfaceLoop (S hi : Nat) (hhi : hi ≤ 2147483648) :
    ∀ (L : List Nat) (ss0 R rem : Nat),
      (∀ c ∈ L, 1 ≤ c) → R + L.sum < 2147483648 → 1 ≤ rem → rem + max R S = hi →
      ∀ j v, timesCovered (surfaceLoop S L ss0 R rem) (ss0 + j) v =
        if v < L.getD j 0 ∧ max R S ≤ R + (L.take j).sum + v ∧ R + (L.take j).sum + v < hi
        then 1 else 0 := by
  intro L
  induction L with
  | nil => intro ss0 R rem _ _ _ _ j v; simp [surfaceLoop, timesCovered]
  | cons cnt rest ih =>
    intro ss0 R rem hpos hsum hrem hinv j v
    have hcnt : 1 ≤ cnt := hpos cnt (List.mem_cons_self _ _)
    have hpos' : ∀ c ∈ rest, 1 ≤ c := fun c hc => hpos c (List.mem_cons_of_mem _ hc)
    simp only [List.sum_cons] at hsum
    by_cases hskip : R + cnt < S
    · rw [surfaceLoop_cons_skip S cnt rest ss0 R rem (by omega) hskip]
      cases j with
      | zero =>
        show timesCovered _ ss0 v = _
        rw [timesCovered_surfaceLoop_lt _ _ _ _ _ _ _ (Nat.lt_succ_self _)]
        simp only [List.getD_cons_zero, List.take_zero, List.sum_nil]
        rw [if_neg]; omega
      | succ j =>
        have := ih (ss0 + 1) (R + cnt) rem hpos' (by omega) hrem (by omega) j v
        rw [show ss0 + (j + 1) = ss0 + 1 + j by omega, this]
        simp only [List.getD_cons_succ, List.take_succ_cons, List.sum_cons]
        congr 1
        apply propext
        constructor <;> intro h <;> refine ⟨h.1, ?_, ?_⟩ <;> omega
    · rw [surfaceLoop_cons_process S hi hhi cnt rest ss0 R rem hcnt (by omega) hrem hinv hskip,
        timesCovered_cons]
      cases j with
      | zero =>
        show timesCovered _ ss0 v + (if SurfaceCall.covers _ ss0 v = true then 1 else 0) = _
        simp only [List.getD_cons_zero, List.take_zero, List.sum_nil, Nat.add_zero]
        have h0 : timesCovered (if hi ≤ R + cnt then []
            else surfaceLoop S rest (ss0 + 1) (R + cnt) (hi - (R + cnt))) ss0 v = 0 := by
          split
          · rfl
          · exact timesCovered_surfaceLoop_lt _ _ _ _ _ _ _ (Nat.lt_succ_self _)
        rw [h0]
        simp only [SurfaceCall.covers, beq_self_eq_true, Bool.true_and, Bool.and_eq_true,
          decide_eq_true_eq, Nat.zero_add]
        congr 1
        apply propext
        constructor
        · intro h; omega
        · intro h; omega
      | succ j =>
        have hc : (SurfaceCall.mk ss0 (max R S - R) (min (hi - R) cnt - 1)).covers
            (ss0 + (j + 1)) v = false := by
          simp [SurfaceCall.covers]
        rw [hc]
        simp only [List.getD_cons_succ, List.take_succ_cons, List.sum_cons]
        by_cases hbrk : hi ≤ R + cnt
        · rw [if_pos hbrk, timesCovered_nil]
          simp only [Bool.false_eq_true, if_false, Nat.add_zero]
          rw [if_neg]
          omega
        · rw [if_neg hbrk]
          have := ih (ss0 + 1) (R + cnt) (hi - (R + cnt))
            hpos' (by omega) (by omega) (by omega) j v
          rw [show ss0 + (j + 1) = ss0 + 1 + j by omega, this]
          simp only [Bool.false_eq_true, if_false, Nat.add_zero]
          congr 1
          apply propext
          constructor <;> intro h <;> refine ⟨h.1, ?_, ?_⟩ <;> omega


theorem div_eq_of_bounds {x P k : Nat} (hP : 0 < P) (h1 : k * P ≤ x) (h2 : x < (k + 1) * P) :
    x / P = k := by
  have a := (Nat.le_div_iff_mul_le hP).2 h1
  have b := (Nat.div_lt_iff_lt_mul hP).2 h2
  omega

/-- The code's `verticesPerTask` is the ceiling of `N / P`. -/
theorem verticesPerTask_eq_ceil (N P : Nat) (hP : 1 ≤ P) (hN : N < 4294967295) :
    verticesPerTask N P = (N + P - 1) / P := by
  have hdm := Nat.div_add_mod N P
  have hml := Nat.mod_lt N (show 0 < P by omega)
  have hq : N / P ≤ N := Nat.div_le_self N P
  simp only [verticesPerTask]
  generalize N / P = q at *
  generalize N % P = r at *
  split
  · rename_i hr
    have e : toUINT ((q : Int) + 1) = q + 1 := by
      rw [toUINT_of_nonneg_lt (by omega) (by omega)]; omega
    rw [e]
    symm
    apply div_eq_of_bounds (by omega)
    · have : (q + 1) * P = P * q + P := by ring
      omega
    · have : (q + 1 + 1) * P = P * q + P + P := by ring
      omega
  · rename_i hr
    symm
    apply div_eq_of_bounds (by omega)
    · have : q * P = P * q := by ring
      omega
    · have : (q + 1) * P = P * q + P := by ring
      omega

theorem ceil_mul_ge (N P : Nat) (hP : 1 ≤ P) : N ≤ (N + P - 1) / P * P := by
  have hdm := Nat.div_add_mod (N + P - 1) P
  have hml := Nat.mod_lt (N + P - 1) (show 0 < P by omega)
  have : (N + P - 1) / P * P = P * ((N + P - 1) / P) := by ring
  omega

theorem ceil_mul_lt (N P : Nat) (hP : 1 ≤ P) : (N + P - 1) / P * P < N + P := by
  have hdm := Nat.div_add_mod (N + P - 1) P
  have : (N + P - 1) / P * P = P * ((N + P - 1) / P) := by ring
  omega

theorem ceil_pos (N P : Nat) (hP : 1 ≤ P) (hN : 1 ≤ N) : 1 ≤ (N + P - 1) / P := by
  apply (Nat.one_le_div_iff (by omega)).2
  omega

/-- Exactly one task range `[t*c, (t+1)*c)` of the first `P` contains `g`, when `g < P*c`. -/
theorem sum_range_indicator (P c g N : Nat) (hc : 1 ≤ c) (hg : g < N) (hN : N ≤ c * P) :
    Finset.sum (Finset.range P)
      (fun t => if t * c ≤ g ∧ g < min ((t + 1) * c) N then 1 else 0) = 1 := by
  have hcpos : 0 < c := by omega
  have hlt : g / c < P := by
    apply (Nat.div_lt_iff_lt_mul hcpos).2
    calc g < N := hg
      _ ≤ c * P := hN
      _ = P * c := Nat.mul_comm _ _
  rw [Finset.sum_eq_single (g / c)]
  · rw [if_pos]
    refine ⟨Nat.div_mul_le_self g c, ?_⟩
    have := Nat.lt_succ_self (g / c)
    have h2 : g < (g / c + 1) * c := (Nat.div_lt_iff_lt_mul hcpos).1 this
    exact lt_min h2 hg
  · intro t _ hne
    rw [if_neg]
    rintro ⟨h1, h2⟩
    have h3 : g < (t + 1) * c := lt_of_lt_of_le h2 (min_le_left _ _)
    have h4 : t ≤ g / c := (Nat.le_div_iff_mul_le hcpos).2 h1
    have h5 : g / c < t + 1 := (Nat.div_lt_iff_lt_mul hcpos).2 h3
    omega
  · intro h
    exact absurd (Finset.mem_range.2 hlt) h

theorem sum_take_add_lt (L : List Nat) (ss v : Nat) (h : v < L.getD ss 0) :
    (L.take ss).sum + v < L.sum := by
  induction L generalizing ss with
  | nil => simp at h
  | cons a rest ih =>
    cases ss with
    | zero => simp at h ⊢; omega
    | succ n =>
      simp only [List.getD_cons_succ] at h
      have := ih n h
      simp only [List.take_succ_cons, List.sum_cons]
      omega

/-- Characterisation of one task of a partition loop with budget `c` per task. -/
theorem timesCovered_task (counts : List Nat) (c taskId : Nat)
    (hpos : ∀ n ∈ counts, 1 ≤ n) (hc : 1 ≤ c) (hsum : counts.sum < 2147483648)
    (hhi : (taskId + 1) * c ≤ 2147483648) (ss v : Nat) :
    timesCovered (surfaceLoop (toUINT ((taskId : Int) * c)) counts 0 0 c) ss v =
      if v < counts.getD ss 0 ∧ taskId * c ≤ globalIndex counts ss v ∧
          globalIndex counts ss v < min ((taskId + 1) * c) counts.sum then 1 else 0 := by
  have hS : toUINT ((taskId : Int) * c) = taskId * c := by
    have : (taskId : Int) * c = ((taskId * c : Nat) : Int) := by push_cast; rfl
    rw [this]
    apply toUINT_natCast
    have : (taskId + 1) * c = taskId * c + c := by ring
    omega
  rw [hS]
  have hexp : (taskId + 1) * c = taskId * c + c := by ring
  have := timesCovered_surfaceLoop (taskId * c) ((taskId + 1) * c) hhi counts 0 0 c hpos
    (by omega) hc (by omega) ss v
  rw [Nat.zero_add] at this
  rw [this]
  simp only [globalIndex, Nat.zero_add]
  by_cases hv : v < counts.getD ss 0
  · have := sum_take_add_lt counts ss v hv
    congr 1
    apply propext
    constructor
    · rintro ⟨h1, h2, h3⟩; refine ⟨h1, by omega, lt_min h3 this⟩
    · rintro ⟨h1, h2, h3⟩
      exact ⟨h1, by omega, lt_of_lt_of_le h3 (min_le_left _ _)⟩
  · rw [if_neg (fun h => hv h.1), if_neg (fun h => hv h.1)]

theorem sum_pos_of_ne_nil (L : List Nat) (hpos : ∀ n ∈ L, 1 ≤ n) (hne : L ≠ []) : 1 ≤ L.sum := by
  cases L with
  | nil => exact absurd rfl hne
  | cons a rest =>
    have := hpos a (List.mem_cons_self _ _)
    simp only [List.sum_cons]
    omega

/-- C1 (as amended). Vertex partition is exact.  For every task count `P >= 1` and every list of models
with at least one vertex each, whose total `N` satisfies `N + P <= 2^31` (so that the 32-bit
arithmetic of the source does not wrap), the inclusive sub-ranges that the tasks
`0 .. P-1` pass to the models contain every vertex of every model exactly once, and task `t`
covers exactly the vertices whose global index lies in `[t*ceil(N/P), min((t+1)*ceil(N/P), N))`,
each once and no index outside the models. -/
theorem TransformMeshes_partition_exact (numVertices : List Nat) (taskCount : Nat)
    (hP : 1 ≤ taskCount) (hpos : ∀ n ∈ numVertices, 1 ≤ n)
    (hfit : numVertices.sum + taskCount ≤ 2147483648) :
    (∀ ss v, ss < numVertices.length → v < numVertices.getD ss 0 →
      Finset.sum (Finset.range taskCount) (fun taskId =>
        timesCovered (TransformMeshes numVertices.sum numVertices taskId taskCount) ss v) = 1) ∧
    (∀ taskId ss v, taskId < taskCount →
      timesCovered (TransformMeshes numVertices.sum numVertices taskId taskCount) ss v =
        if v < numVertices.getD ss 0 ∧
            taskId * ((numVertices.sum + taskCount - 1) / taskCount) ≤
              globalIndex numVertices ss v ∧
            globalIndex numVertices ss v <
              min ((taskId + 1) * ((numVertices.sum + taskCount - 1) / taskCount))
                numVertices.sum
        then 1 else 0) := by
  have hceil := verticesPerTask_eq_ceil numVertices.sum taskCount hP (by omega)
  have key : ∀ taskId ss v, taskId < taskCount →
      timesCovered (TransformMeshes numVertices.sum numVertices taskId taskCount) ss v =
        if v < numVertices.getD ss 0 ∧
            taskId * ((numVertices.sum + taskCount - 1) / taskCount) ≤
              globalIndex numVertices ss v ∧
            globalIndex numVertices ss v <
              min ((taskId + 1) * ((numVertices.sum + taskCount - 1) / taskCount))
                numVertices.sum
        then 1 else 0 := by
    intro taskId ss v ht
    by_cases hne : numVertices = []
    · subst hne
      simp [TransformMeshes, surfaceLoop, timesCovered]
    have hN : 1 ≤ numVertices.sum := sum_pos_of_ne_nil _ hpos hne
    simp only [TransformMeshes, hceil]
    apply timesCovered_task numVertices _ taskId hpos (ceil_pos _ _ hP hN) (by omega)
    have h1 := ceil_mul_lt numVertices.sum taskCount hP
    have h2 : (taskId + 1) * ((numVertices.sum + taskCount - 1) / taskCount) ≤
        (numVertices.sum + taskCount - 1) / taskCount * taskCount := by
      rw [Nat.mul_comm]
      exact Nat.mul_le_mul_left _ ht
    omega
  constructor
  · intro ss v hss hv
    have hg := sum_take_add_lt numVertices ss v hv
    have hN : 1 ≤ numVertices.sum := by omega
    rw [Finset.sum_congr rfl (fun t ht => key t ss v (Finset.mem_range.1 ht))]
    simp only [hv, true_and]
    exact sum_range_indicator taskCount _ (globalIndex numVertices ss v) numVertices.sum
      (ceil_pos _ _ hP hN) hg (ceil_mul_ge _ _ hP)
  · exact key

/-- Instance of C1: three models with 2, 1 and 10 vertices, five tasks. -/
theorem TransformMeshes_partition_exact_witness :
    (1 ≤ 5 ∧ (∀ n ∈ [2, 1, 10], 1 ≤ n) ∧ ([2, 1, 10] : List Nat).sum + 5 ≤ 2147483648) ∧
    (∀ ss v, ss < [2, 1, 10].length → v < [2, 1, 10].getD ss 0 →
      Finset.sum (Finset.range 5) (fun taskId =>
        timesCovered (TransformMeshes ([2, 1, 10] : List Nat).sum [2, 1, 10] taskId 5) ss v) = 1) ∧
    (∀ taskId ss v, taskId < 5 →
      timesCovered (TransformMeshes ([2, 1, 10] : List Nat).sum [2, 1, 10] taskId 5) ss v =
        if v < [2, 1, 10].getD ss 0 ∧
            taskId * ((([2, 1, 10] : List Nat).sum + 5 - 1) / 5) ≤
              globalIndex [2, 1, 10] ss v ∧
            globalIndex [2, 1, 10] ss v <
              min ((taskId + 1) * ((([2, 1, 10] : List Nat).sum + 5 - 1) / 5))
                ([2, 1, 10] : List Nat).sum
        then 1 else 0) :=
  ⟨⟨by decide, by decide, by decide⟩,
    TransformMeshes_partition_exact [2, 1, 10] 5 (by decide) (by decide) (by decide)⟩


/-- C1, counterexample to the claim as written (no bound on the vertex count).  One model of
4000000000 vertices and four tasks: `(int)startIndex` of task 3 is negative, so task 3 hands
out `[0, 999999999]` again; vertex 0 is handed out twice and vertex 3000000000 never.  Just
above `2^31`: models of 2147483649 and 1 vertices and one task; `(int)runningVertexCount` is
negative at the second model, which is handed the empty range `[2147483647, 0]`, so its only
vertex is never handed out. -/
theorem TransformMeshes_partition_exact_counterexample :
    (1 ≤ 4 ∧ (∀ n ∈ [4000000000], 1 ≤ n) ∧ ([4000000000] : List Nat).sum = 4000000000) ∧
    TransformMeshes 4000000000 [4000000000] 3 4 = [SurfaceCall.mk 0 0 999999999] ∧
    Finset.sum (Finset.range 4) (fun taskId =>
      timesCovered (TransformMeshes 4000000000 [4000000000] taskId 4) 0 0) = 2 ∧
    Finset.sum (Finset.range 4) (fun taskId =>
      timesCovered (TransformMeshes 4000000000 [4000000000] taskId 4) 0 3000000000) = 0 ∧
    (1 ≤ 1 ∧ (∀ n ∈ [2147483649, 1], 1 ≤ n) ∧
      ([2147483649, 1] : List Nat).sum = 2147483650) ∧
    TransformMeshes 2147483650 [2147483649, 1] 0 1 =
      [SurfaceCall.mk 0 0 2147483648, SurfaceCall.mk 1 2147483647 0] ∧
    Finset.sum (Finset.range 1) (fun taskId =>
      timesCovered (TransformMeshes 2147483650 [2147483649, 1] taskId 1) 1 0) = 0 := by
  decide

/-- The code's `trianglesPerTask` is the ceiling of `N / P` rounded up to a multiple of 4. -/
theorem trianglesPerTask_eq (N P : Nat) (hP : 1 ≤ P) (hfit : N + P ≤ 2147483648) :
    trianglesPerTask N P = (N + P - 1) / P + (4 - (N + P - 1) / P % 4) % 4 := by
  have h1 : toUINT ((N : Int) + P - 1) = N + P - 1 := by
    rw [toUINT_of_nonneg_lt (by omega) (by omega)]; omega
  have hq : (N + P - 1) / P ≤ N + P - 1 := Nat.div_le_self _ _
  simp only [trianglesPerTask, h1, SSE]
  generalize (N + P - 1) / P = q at *
  rw [toUINT_of_nonneg_lt (by split <;> omega) (by split <;> omega)]
  split <;> omega

theorem trianglesPerTask_bounds (N P : Nat) (hP : 1 ≤ P) (hfit : N + P ≤ 2147483648) :
    (N + P - 1) / P ≤ trianglesPerTask N P ∧ trianglesPerTask N P ≤ (N + P - 1) / P + 3 ∧
      trianglesPerTask N P % 4 = 0 := by
  rw [trianglesPerTask_eq N P hP hfit]
  omega

/-- C2 (as amended). Triangle partition is exact.  For every task count `P >= 1` and every list of models
with at least one triangle each, whose total `N` satisfies `N + 4*P <= 2^31` (so that the
32-bit arithmetic of the source does not wrap), the inclusive sub-ranges that the tasks
`0 .. P-1` pass to `BinTransformedTrianglesMT` contain every triangle of every model exactly
once, and no task passes an index outside a model. -/
theorem BinTransformedMeshes_partition_exact (numTriangles : List Nat) (taskCount : Nat)
    (hP : 1 ≤ taskCount) (hpos : ∀ n ∈ numTriangles, 1 ≤ n)
    (hfit : numTriangles.sum + 4 * taskCount ≤ 2147483648) :
    (∀ ss v, ss < numTriangles.length → v < numTriangles.getD ss 0 →
      Finset.sum (Finset.range taskCount) (fun taskId =>
        timesCovered (BinTransformedMeshes numTriangles.sum numTriangles taskId taskCount) ss v)
        = 1) ∧
    (∀ taskId ss v, taskId < taskCount → ¬ v < numTriangles.getD ss 0 →
      timesCovered (BinTransformedMeshes numTriangles.sum numTriangles taskId taskCount) ss v
        = 0) := by
  obtain ⟨hb1, hb2, -⟩ := trianglesPerTask_bounds numTriangles.sum taskCount hP (by omega)
  have key : ∀ taskId ss v, taskId < taskCount →
      timesCovered (BinTransformedMeshes numTriangles.sum numTriangles taskId taskCount) ss v =
        if v < numTriangles.getD ss 0 ∧
            taskId * trianglesPerTask numTriangles.sum taskCount ≤
              globalIndex numTriangles ss v ∧
            globalIndex numTriangles ss v <
              min ((taskId + 1) * trianglesPerTask numTriangles.sum taskCount)
                numTriangles.sum
        then 1 else 0 := by
    intro taskId ss v ht
    by_cases hne : numTriangles = []
    · subst hne
      simp [BinTransformedMeshes, surfaceLoop, timesCovered]
    have hN : 1 ≤ numTriangles.sum := sum_pos_of_ne_nil _ hpos hne
    have hc := ceil_pos _ _ hP hN
    simp only [BinTransformedMeshes]
    apply timesCovered_task numTriangles _ taskId hpos (by omega) (by omega)
    have h1 := ceil_mul_lt numTriangles.sum taskCount hP
    have h2 : (taskId + 1) * trianglesPerTask numTriangles.sum taskCount ≤
        taskCount * trianglesPerTask numTriangles.sum taskCount :=
      Nat.mul_le_mul_right _ ht
    have h3 : taskCount * trianglesPerTask numTriangles.sum taskCount ≤
        taskCount * ((numTriangles.sum + taskCount - 1) / taskCount + 3) :=
      Nat.mul_le_mul_left _ hb2
    have h4 : taskCount * ((numTriangles.sum + taskCount - 1) / taskCount + 3) =
        (numTriangles.sum + taskCount - 1) / taskCount * taskCount + 3 * taskCount := by ring
    omega
  constructor
  · intro ss v hss hv
    have hg := sum_take_add_lt numTriangles ss v hv
    have hN : 1 ≤ numTriangles.sum := by omega
    have hc := ceil_pos _ _ hP hN
    rw [Finset.sum_congr rfl (fun t ht => key t ss v (Finset.mem_range.1 ht))]
    simp only [hv, true_and]
    refine sum_range_indicator taskCount _ (globalIndex numTriangles ss v) numTriangles.sum
      (by omega) hg ?_
    calc numTriangles.sum ≤ (numTriangles.sum + taskCount - 1) / taskCount * taskCount :=
          ceil_mul_ge _ _ hP
      _ ≤ trianglesPerTask numTriangles.sum taskCount * taskCount :=
          Nat.mul_le_mul_right _ hb1
  · intro taskId ss v ht hv
    rw [key taskId ss v ht, if_neg (fun h => hv h.1)]


/-- Instance of C2: three models with 2, 1 and 10 triangles, three tasks. -/
theorem BinTransformedMeshes_partition_exact_witness :
    (1 ≤ 3 ∧ (∀ n ∈ [2, 1, 10], 1 ≤ n) ∧ ([2, 1, 10] : List Nat).sum + 4 * 3 ≤ 2147483648) ∧
    (∀ ss v, ss < [2, 1, 10].length → v < [2, 1, 10].getD ss 0 →
      Finset.sum (Finset.range 3) (fun taskId =>
        timesCovered (BinTransformedMeshes ([2, 1, 10] : List Nat).sum [2, 1, 10] taskId 3) ss v)
        = 1) ∧
    (∀ taskId ss v, taskId < 3 → ¬ v < [2, 1, 10].getD ss 0 →
      timesCovered (BinTransformedMeshes ([2, 1, 10] : List Nat).sum [2, 1, 10] taskId 3) ss v
        = 0) :=
  ⟨⟨by decide, by decide, by decide⟩,
    BinTransformedMeshes_partition_exact [2, 1, 10] 3 (by decide) (by decide) (by decide)⟩

/-- C2, counterexample to the claim as written (no bound on the triangle count).  One model
of 4294967295 triangles and two tasks: `mNumTriangles1 + taskCount - 1` wraps to 0, the budget
`trianglesPerTask` is 0 and both tasks hand the model the range `[0, 4294967295]`; triangle 0
is binned twice.  Just above `2^31`: models of 2147483649 and 1 triangles and one task;
`(int)runningTriangleCount` is negative at the second model, which is handed the empty range
`[2147483647, 0]`, so its only triangle is missed. -/
theorem BinTransformedMeshes_partition_exact_counterexample :
    (1 ≤ 2 ∧ (∀ n ∈ [4294967295], 1 ≤ n) ∧ ([4294967295] : List Nat).sum = 4294967295) ∧
    trianglesPerTask 4294967295 2 = 0 ∧
    BinTransformedMeshes 4294967295 [4294967295] 0 2 = [SurfaceCall.mk 0 0 4294967295] ∧
    BinTransformedMeshes 4294967295 [4294967295] 1 2 = [SurfaceCall.mk 0 0 4294967295] ∧
    Finset.sum (Finset.range 2) (fun taskId =>
      timesCovered (BinTransformedMeshes 4294967295 [4294967295] taskId 2) 0 0) = 2 ∧
    (1 ≤ 1 ∧ (∀ n ∈ [2147483649, 1], 1 ≤ n) ∧
      ([2147483649, 1] : List Nat).sum = 2147483650) ∧
    BinTransformedMeshes 2147483650 [2147483649, 1] 0 1 =
      [SurfaceCall.mk 0 0 2147483648, SurfaceCall.mk 1 2147483647 0] ∧
    Finset.sum (Finset.range 1) (fun taskId =>
      timesCovered (BinTransformedMeshes 2147483650 [2147483649, 1] taskId 1) 1 0) = 0 := by
  decide
/-! ## Theorems: bitwise facts -/

theorem lor_neg_iff (a b : Int) : Int.lor a b < 0 ↔ a < 0 ∨ b < 0 := by
  cases a <;> cases b <;> simp [Int.lor, Int.negSucc_lt_zero]
  omega

theorem land_neg_one (m : Int) : Int.land m (-1) = m := by
  cases m with
  | ofNat m =>
    show Int.land (Int.ofNat m) (Int.negSucc 0) = _
    simp only [Int.land]
    have : Nat.ldiff m 0 = m := by
      apply Nat.eq_of_testBit_eq; intro i; simp [Nat.testBit_ldiff]
    rw [this]; rfl
  | negSucc m => show Int.land (Int.negSucc m) (Int.negSucc 0) = _; simp [Int.land]

theorem land_zero_right (m : Int) : Int.land m 0 = 0 := by
  cases m with
  | ofNat m => show Int.land (Int.ofNat m) (Int.ofNat 0) = _; simp [Int.land]
  | negSucc m =>
    show Int.land (Int.negSucc m) (Int.ofNat 0) = _
    simp only [Int.land]
    have : Nat.ldiff 0 m = 0 := by
      apply Nat.eq_of_testBit_eq; intro i; simp [Nat.testBit_ldiff]
    rw [this]; rfl

/-- Clearing bit 0: `x & ~1` is `x` rounded down to an even number. -/
theorem land_neg_two (x : Int) : Int.land x (-2) = 2 * (x / 2) := by
  conv_lhs => rw [← Int.bit_decomp x, show (-2 : Int) = Int.bit false (-1) by rfl, Int.land_bit]
  rw [land_neg_one, Int.bit_val, Int.div2_val]; simp

/-- Bit 0: `x & 1` is the parity of `x`. -/
theorem land_one_right (x : Int) : Int.land x 1 = x % 2 := by
  conv_lhs => rw [← Int.bit_decomp x, show (1 : Int) = Int.bit true 0 by rfl, Int.land_bit]
  rw [land_zero_right, Int.bit_val]
  have := Int.bodd_add_div2 x
  cases h : Int.bodd x <;> simp [h] at this ⊢ <;> omega

/-! ## Theorems: the quad step as a merge of samples -/

section RasterLemmas

variable {K : Type} [LinearOrderedField K]

theorem maxWrite_comm (buf : Int → K) (f g : Int × K) :
    maxWrite (maxWrite buf f) g = maxWrite (maxWrite buf g) f := by
  funext s
  simp only [maxWrite]
  split_ifs <;> first | rfl | exact max_left_comm _ _ _

theorem finRange_four : List.finRange 4 = [0, 1, 2, 3] := by decide

/-- Value of a slot after merging a list of samples. -/
theorem foldl_maxWrite_apply (frags : List (Int × K)) (buf : Int → K) (s : Int) :
    frags.foldl maxWrite buf s =
      ((frags.filter (fun f => decide (f.1 = s))).map Prod.snd).foldl max (buf s) := by
  induction frags generalizing buf with
  | nil => rfl
  | cons f rest ih =>
    rw [List.foldl_cons, ih]
    by_cases h : f.1 = s
    · simp only [List.filter_cons, h, decide_True, if_true, List.map_cons, List.foldl_cons,
        maxWrite]
      rw [max_comm]
    · simp only [List.filter_cons, h, decide_False, maxWrite]
      rw [if_neg (fun e => h e.symm)]
      rfl

/-- The body of the column loop merges exactly the samples of the quad. -/
theorem quadStep_eq_foldl (zz : Fin 3 → K) (buf : Int → K) (q : Quad) :
    quadStep zz buf q = (quadFragments zz q).foldl maxWrite buf := by
  funext s
  rw [foldl_maxWrite_apply]
  simp only [quadStep, quadFragments]
  by_cases hneg : is_all_negative (quadMask q) = true
  · simp [hneg]
  · simp only [hneg, Bool.false_eq_true, if_false]
    have c0 : (((0 : Fin 4).val : Nat) : Int) = 0 := rfl
    have c1 : (((1 : Fin 4).val : Nat) : Int) = 1 := rfl
    have c2 : (((2 : Fin 4).val : Nat) : Int) = 2 := rfl
    have c3 : (((3 : Fin 4).val : Nat) : Int) = 3 := rfl
    simp only [store, select, vmax, load, finRange_four, List.filterMap_cons,
      List.filterMap_nil, c0, c1, c2, c3, add_zero]
    by_cases e0 : s = q.idx
    · subst e0
      by_cases h0 : quadMask q 0 < 0 <;> by_cases h1 : quadMask q 1 < 0 <;>
        by_cases h2 : quadMask q 2 < 0 <;> by_cases h3 : quadMask q 3 < 0 <;>
        simp [h0, h1, h2, h3, List.filter_cons, max_comm]
    by_cases e1 : s = q.idx + 1
    · subst e1
      by_cases h0 : quadMask q 0 < 0 <;> by_cases h1 : quadMask q 1 < 0 <;>
        by_cases h2 : quadMask q 2 < 0 <;> by_cases h3 : quadMask q 3 < 0 <;>
        simp [h0, h1, h2, h3, List.filter_cons, max_comm]
    by_cases e2 : s = q.idx + 2
    · subst e2
      by_cases h0 : quadMask q 0 < 0 <;> by_cases h1 : quadMask q 1 < 0 <;>
        by_cases h2 : quadMask q 2 < 0 <;> by_cases h3 : quadMask q 3 < 0 <;>
        simp [h0, h1, h2, h3, List.filter_cons, max_comm]
    by_cases e3 : s = q.idx + 3
    · subst e3
      by_cases h0 : quadMask q 0 < 0 <;> by_cases h1 : quadMask q 1 < 0 <;>
        by_cases h2 : quadMask q 2 < 0 <;> by_cases h3 : quadMask q 3 < 0 <;>
        simp [h0, h1, h2, h3, List.filter_cons, max_comm]
    have e0r : ¬ q.idx = s := fun h => e0 h.symm
    have e1r : ¬ q.idx + 1 = s := fun h => e1 h.symm
    have e2r : ¬ q.idx + 2 = s := fun h => e2 h.symm
    have e3r : ¬ q.idx + 3 = s := fun h => e3 h.symm
    by_cases h0 : quadMask q 0 < 0 <;> by_cases h1 : quadMask q 1 < 0 <;>
      by_cases h2 : quadMask q 2 < 0 <;> by_cases h3 : quadMask q 3 < 0 <;>
      simp [h0, h1, h2, h3, e0, e1, e2, e3, e0r, e1r, e2r, e3r, List.filter_cons]

end RasterLemmas
/-! ## Theorems: the gather loop delivers the bins in order -/

theorem binEntriesFrom_zero (bin binIndex : Nat) : binEntriesFrom bin binIndex 0 = [] := rfl

theorem binEntriesFrom_succ (bin binIndex n : Nat) :
    binEntriesFrom bin binIndex (n + 1) =
      { bin := bin, binIndex := binIndex } :: binEntriesFrom bin (binIndex + 1) n := by
  simp only [binEntriesFrom, List.range_succ_eq_map, List.map_cons, List.map_map, Nat.add_zero]
  congr 1
  apply List.map_congr_left
  intro i _
  simp only [Function.comp, Nat.succ_eq_add_one]
  congr 1
  omega

/-- The bin-skipping loop keeps the pending entries, and stops either on a non-empty bin
inside the range or past the last bin. -/
theorem skipEmptyBins_spec (N : Nat) (nt : Nat → Nat) :
    ∀ (fuel : Nat) (s : GatherState), N < s.bin + fuel → (N ≤ s.bin → s.numTrisInBin = 0) →
      pending N nt (skipEmptyBins N nt fuel s) = pending N nt s ∧
      ((skipEmptyBins N nt fuel s).numTrisInBin = 0 → N ≤ (skipEmptyBins N nt fuel s).bin) ∧
      (N ≤ (skipEmptyBins N nt fuel s).bin → (skipEmptyBins N nt fuel s).numTrisInBin = 0) := by
  intro fuel
  induction fuel with
  | zero =>
    intro s h1 h2
    rw [skipEmptyBins]
    exact ⟨rfl, fun _ => by omega, h2⟩
  | succ fuel ih =>
    intro s h1 h2
    rw [skipEmptyBins]
    by_cases hn : s.numTrisInBin ≤ 0
    · rw [if_pos hn]
      have hn0 : s.numTrisInBin = 0 := by omega
      by_cases hb : s.bin + 1 ≥ N
      · rw [if_pos hb]
        refine ⟨?_, fun _ => by simpa using hb, fun _ => hn0⟩
        simp only [pending, hn0, binEntriesFrom_zero, List.nil_append]
        rw [show N - (s.bin + 1 + 1) = 0 by omega, show N - (s.bin + 1) = 0 by omega]
        rfl
      · rw [if_neg hb]
        have := ih (GatherState.mk (s.bin + 1) 0 (nt (s.bin + 1)))
          (by simp only; omega) (by simp only; omega)
        refine ⟨?_, this.2⟩
        rw [this.1]
        simp only [pending, hn0, binEntriesFrom_zero, List.nil_append]
        obtain ⟨m, hm⟩ : ∃ m, N - (s.bin + 1) = m + 1 := ⟨N - (s.bin + 1) - 1, by omega⟩
        rw [hm, show N - (s.bin + 1 + 1) = m by omega]
        rfl
    · rw [if_neg hn]
      exact ⟨rfl, fun h => by omega, h2⟩

/-- The lane-filling loop appends the next `n` pending entries. -/
theorem gatherLoop_spec (N : Nat) (nt : Nat → Nat) :
    ∀ (n : Nat) (s : GatherState) (lanes : List BinEntry),
      (N ≤ s.bin → s.numTrisInBin = 0) →
      (gatherLoop N nt n s lanes).2 = lanes ++ (pending N nt s).take n ∧
      pending N nt (gatherLoop N nt n s lanes).1 = (pending N nt s).drop n ∧
      (N ≤ (gatherLoop N nt n s lanes).1.bin → (gatherLoop N nt n s lanes).1.numTrisInBin = 0) ∧
      ((pending N nt s).length < n → N ≤ (gatherLoop N nt n s lanes).1.bin) := by
  intro n
  induction n with
  | zero =>
    intro s lanes h
    rw [gatherLoop]
    refine ⟨by simp, by simp, h, fun h => absurd h (Nat.not_lt_zero _)⟩
  | succ n ih =>
    intro s lanes h
    rw [gatherLoop]
    have hs := skipEmptyBins_spec N nt (N + 1) s (by omega) h
    generalize skipEmptyBins N nt (N + 1) s = s1 at hs
    obtain ⟨hp, h0, hN⟩ := hs
    by_cases hz : s1.numTrisInBin = 0
    · simp only [if_pos hz]
      have hb := h0 hz
      have hnil : pending N nt s1 = [] := by
        simp only [pending, hz, binEntriesFrom_zero, List.nil_append]
        rw [show N - (s1.bin + 1) = 0 by omega]
        rfl
      rw [← hp, hnil]
      refine ⟨by simp, by simp [hnil], fun _ => hz, fun _ => hb⟩
    · simp only [if_neg hz]
      obtain ⟨m, hm⟩ : ∃ m, s1.numTrisInBin = m + 1 := ⟨s1.numTrisInBin - 1, by omega⟩
      have hlt : s1.bin < N := by
        by_contra hc
        exact hz (hN (by omega))
      have hcons : pending N nt s1 = BinEntry.mk s1.bin s1.binIndex ::
          pending N nt (GatherState.mk s1.bin (s1.binIndex + 1) (s1.numTrisInBin - 1)) := by
        simp only [pending, hm, binEntriesFrom_succ, List.cons_append, Nat.add_sub_cancel]
      have := ih (GatherState.mk s1.bin (s1.binIndex + 1) (s1.numTrisInBin - 1))
        (lanes ++ [BinEntry.mk s1.bin s1.binIndex]) (by simp only; omega)
      obtain ⟨i1, i2, i3, i4⟩ := this
      rw [← hp, hcons]
      refine ⟨?_, ?_, i3, ?_⟩
      · rw [i1]; simp
      · rw [i2]; simp
      · intro hl
        apply i4
        simp only [List.length_cons] at hl
        omega

/-- The `while(!done)` loop delivers exactly the pending entries, given enough iterations. -/
theorem gatherGroups_flatten (N : Nat) (nt : Nat → Nat) :
    ∀ (fuel : Nat) (s : GatherState) (allBinsEmpty : Bool),
      (N ≤ s.bin → s.numTrisInBin = 0) → (pending N nt s).length < fuel →
      (gatherGroups N nt fuel s allBinsEmpty).flatten = pending N nt s := by
  intro fuel
  induction fuel with
  | zero => intro s a _ h; exact absurd h (Nat.not_lt_zero _)
  | succ fuel ih =>
    intro s a hinv hfuel
    rw [gatherGroups]
    obtain ⟨g1, g2, g3, g4⟩ := gatherLoop_spec N nt SSE s [] hinv
    generalize gatherLoop N nt SSE s [] = r at g1 g2 g3 g4
    rw [List.nil_append] at g1
    by_cases he : (a && r.2.isEmpty) = true
    · rw [if_pos he]
      simp only [Bool.and_eq_true, List.isEmpty_iff] at he
      have h2 := he.2
      rw [g1] at h2
      have : pending N nt s = [] := by
        cases hp : pending N nt s with
        | nil => rfl
        | cons x xs => rw [hp] at h2; simp [SSE] at h2
      rw [this]; rfl
    · rw [if_neg he, List.flatten_cons]
      by_cases hd : r.1.bin ≥ N
      · rw [if_pos hd, List.flatten_nil, List.append_nil, g1]
        have hnil : pending N nt r.1 = [] := by
          simp only [pending, g3 hd, binEntriesFrom_zero, List.nil_append]
          rw [show N - (r.1.bin + 1) = 0 by omega]
          rfl
        rw [hnil] at g2
        have := List.take_append_drop SSE (pending N nt s)
        rw [← g2, List.append_nil] at this
        exact this
      · rw [if_neg hd]
        have hlen : ¬ (pending N nt s).length < SSE := fun h => hd (g4 h)
        have hfuel2 : (pending N nt r.1).length < fuel := by
          rw [g2, List.length_drop]
          simp only [SSE] at hlen ⊢
          omega
        rw [ih r.1 _ g3 hfuel2, g1, g2]
        exact List.take_append_drop SSE (pending N nt s)

theorem restEntries_eq_flatMap (nt : Nat → Nat) :
    ∀ (count b : Nat), restEntries nt count b =
      (List.range count).flatMap (fun j => binEntriesFrom (b + j) 0 (nt (b + j))) := by
  intro count
  induction count with
  | zero => intro b; rfl
  | succ c ih =>
    intro b
    rw [restEntries, ih, List.range_succ_eq_map, List.flatMap_cons, List.flatMap_map]
    simp only [Nat.add_zero]
    congr 1
    apply List.flatMap_congr
    intro j _
    simp only [Function.comp, Nat.succ_eq_add_one]
    rw [show b + 1 + j = b + (j + 1) by omega]

theorem restEntries_zero_eq (N : Nat) (nt : Nat → Nat) :
    restEntries nt N 0 = binnedEntries N nt := by
  rw [restEntries_eq_flatMap]
  simp only [binnedEntries, binEntriesFrom, Nat.zero_add]

theorem length_binnedEntries (N : Nat) (nt : Nat → Nat) :
    (binnedEntries N nt).length = numTrisUpTo nt N := by
  induction N with
  | zero => rfl
  | succ n ih =>
    have : binnedEntries (n + 1) nt = binnedEntries n nt ++
        (List.range (nt n)).map (fun binIndex => BinEntry.mk n binIndex) := by
      simp only [binnedEntries, List.range_succ, List.flatMap_append, List.flatMap_cons,
        List.flatMap_nil, List.append_nil]
    rw [this, List.length_append, ih, List.length_map, List.length_range, numTrisUpTo]

/-- The tile task gathers the entries of its bins, bin after bin, each once. -/
theorem gatheredEntries_eq {K : Type} (k : Constants) (bins : Bins K) (taskId : Nat)
    (hN : 1 ≤ k.NUM_XFORMVERTS_TASKS) :
    gatheredEntries k bins taskId =
      binnedEntries k.NUM_XFORMVERTS_TASKS (numTrisOf k bins taskId) := by
  have hp : pending k.NUM_XFORMVERTS_TASKS (numTrisOf k bins taskId)
      (GatherState.mk 0 0 (numTrisOf k bins taskId 0)) =
      binnedEntries k.NUM_XFORMVERTS_TASKS (numTrisOf k bins taskId) := by
    rw [← restEntries_zero_eq]
    obtain ⟨m, hm⟩ : ∃ m, k.NUM_XFORMVERTS_TASKS = m + 1 :=
      ⟨k.NUM_XFORMVERTS_TASKS - 1, by omega⟩
    simp only [pending, hm, Nat.zero_add, Nat.add_sub_cancel]
    rfl
  simp only [gatheredEntries, gatheredGroups]
  rw [gatherGroups_flatten _ _ _ _ _ (by simp only; omega), hp]
  rw [hp, length_binnedEntries]
  omega

/-! ## Theorems: the depth buffer as a pointwise maximum -/

section MaxMerge

variable {K : Type} [LinearOrderedField K]

theorem foldl_flatMap_eq {α β γ : Type} (f : α → List β) (g : γ → β → γ) :
    ∀ (l : List α) (b : γ), (l.flatMap f).foldl g b = l.foldl (fun b x => (f x).foldl g b) b := by
  intro l
  induction l with
  | nil => intro b; rfl
  | cons x xs ih => intro b; rw [List.flatMap_cons, List.foldl_append, ih, List.foldl_cons]

theorem foldl_flatten_eq {β γ : Type} (g : γ → β → γ) :
    ∀ (l : List (List β)) (b : γ), l.flatten.foldl g b = l.foldl (fun b x => x.foldl g b) b := by
  intro l
  induction l with
  | nil => intro b; rfl
  | cons x xs ih => intro b; rw [List.flatten_cons, List.foldl_append, ih, List.foldl_cons]

theorem le_foldl_max (D : List K) : ∀ x : K, x ≤ D.foldl max x := by
  induction D with
  | nil => intro x; exact le_refl x
  | cons d rest ih => intro x; exact le_trans (le_max_left x d) (ih (max x d))

theorem mem_le_foldl_max (D : List K) : ∀ (x d : K), d ∈ D → d ≤ D.foldl max x := by
  induction D with
  | nil => intro x d h; simp at h
  | cons e rest ih =>
    intro x d h
    rcases List.mem_cons.1 h with h | h
    · subst h; exact le_trans (le_max_right x d) (le_foldl_max rest (max x d))
    · exact ih (max x e) d h

theorem foldl_max_of_le (D : List K) : ∀ x : K, (∀ d ∈ D, d ≤ x) → D.foldl max x = x := by
  induction D with
  | nil => intro x _; rfl
  | cons e rest ih =>
    intro x h
    rw [List.foldl_cons, max_eq_left (h e (List.mem_cons_self _ _))]
    exact ih x (fun d hd => h d (List.mem_cons_of_mem _ hd))

/-- Rasterizing a triangle merges its samples into the buffer. -/
theorem rasterizeTriangle_eq_foldl (k : Constants) (tile : Tile) (buf : Int → K)
    (t : Triangle K) :
    rasterizeTriangle k tile buf t = (triangleFragments k tile t).foldl maxWrite buf := by
  simp only [rasterizeTriangle, triangleFragments]
  rw [foldl_flatMap_eq]
  congr 1
  funext b q
  exact quadStep_eq_foldl _ b q

/-- The tile task merges the samples of the triangles it gathers. -/
theorem Rasterize_eq_foldl (k : Constants) (bins : Bins K) (taskId : Nat) (buf : Int → K) :
    RasterizeBinnedTrianglesToDepthBuffer k bins taskId buf =
      (taskFragments k bins taskId).foldl maxWrite buf := by
  simp only [RasterizeBinnedTrianglesToDepthBuffer, taskFragments, gatheredTriangles,
    gatheredEntries]
  rw [foldl_flatMap_eq, List.foldl_map, foldl_flatten_eq]
  congr 1
  funext b lanes
  congr 1
  funext b e
  exact rasterizeTriangle_eq_foldl _ _ b _

theorem taskFragments_eq (k : Constants) (bins : Bins K) (taskId : Nat)
    (hN : 1 ≤ k.NUM_XFORMVERTS_TASKS) :
    taskFragments k bins taskId = binnedFragments k bins taskId := by
  simp only [taskFragments, binnedFragments, gatheredTriangles, binnedTriangles,
    gatheredEntries_eq k bins taskId hN]

/-- Merging samples in two orders that are permutations of each other gives the same
buffer. -/
theorem foldl_maxWrite_perm {F G : List (Int × K)} (h : List.Perm F G) (buf : Int → K) :
    F.foldl maxWrite buf = G.foldl maxWrite buf := by
  induction h generalizing buf with
  | nil => rfl
  | cons x _ ih => exact ih (maxWrite buf x)
  | swap x y l => simp only [List.foldl_cons]; rw [maxWrite_comm]
  | trans _ _ ih1 ih2 => exact (ih1 buf).trans (ih2 buf)

/-- Merging the same samples a second time changes nothing. -/
theorem foldl_maxWrite_idem (F : List (Int × K)) (buf : Int → K) :
    F.foldl maxWrite (F.foldl maxWrite buf) = F.foldl maxWrite buf := by
  funext s
  rw [foldl_maxWrite_apply, foldl_maxWrite_apply]
  apply foldl_max_of_le
  intro d hd
  exact mem_le_foldl_max _ _ d hd

end MaxMerge
/-! ## Theorems: pointwise maximum, order independence, idempotence -/

section ClaimsMerge

variable {K : Type} [LinearOrderedField K]

/-- C5. Order independence.  Rasterizing two triangles into a tile gives the same depth buffer
in either order, and two bin contents of a tile that hold the same triangles up to a
permutation give the same final depth buffer. -/
theorem rasterization_order_independent (k : Constants) (hN : 1 ≤ k.NUM_XFORMVERTS_TASKS) :
    (∀ (tile : Tile) (pDepthBuffer : Int → K) (t1 t2 : Triangle K),
      rasterizeTriangle k tile (rasterizeTriangle k tile pDepthBuffer t1) t2 =
        rasterizeTriangle k tile (rasterizeTriangle k tile pDepthBuffer t2) t1) ∧
    (∀ (taskId : Nat) (bins1 bins2 : Bins K) (pDepthBuffer : Int → K),
      List.Perm (binnedTriangles k bins1 taskId) (binnedTriangles k bins2 taskId) →
      RasterizeBinnedTrianglesToDepthBuffer k bins1 taskId pDepthBuffer =
        RasterizeBinnedTrianglesToDepthBuffer k bins2 taskId pDepthBuffer) := by
  constructor
  · intro tile buf t1 t2
    simp only [rasterizeTriangle_eq_foldl]
    rw [← List.foldl_append, ← List.foldl_append]
    exact foldl_maxWrite_perm List.perm_append_comm buf
  · intro taskId bins1 bins2 buf hperm
    rw [Rasterize_eq_foldl, Rasterize_eq_foldl, taskFragments_eq k bins1 taskId hN,
      taskFragments_eq k bins2 taskId hN]
    exact foldl_maxWrite_perm (List.Perm.flatMap_right _ hperm) buf

/-- C6. Idempotence.  Rasterizing the same triangle into a tile twice gives exactly the depth
buffer obtained by rasterizing it once. -/
theorem rasterization_idempotent (k : Constants) (tile : Tile) (pDepthBuffer : Int → K)
    (t : Triangle K) :
    rasterizeTriangle k tile (rasterizeTriangle k tile pDepthBuffer t) t =
      rasterizeTriangle k tile pDepthBuffer t := by
  simp only [rasterizeTriangle_eq_foldl]
  exact foldl_maxWrite_idem _ _

end ClaimsMerge

theorem binnedTriangles_sampleBins :
    binnedTriangles sampleConstants sampleBins 0 = [sampleTriangle, sampleTriangle2] := by
  rfl

theorem binnedTriangles_sampleBinsSwapped :
    binnedTriangles sampleConstants sampleBinsSwapped 0 = [sampleTriangle2, sampleTriangle] := by
  rfl

/-- Instance of C5: the bins `sampleBins` and the same bins with the two triangles
exchanged. -/
theorem rasterization_order_independent_witness :
    1 ≤ sampleConstants.NUM_XFORMVERTS_TASKS ∧
    List.Perm (binnedTriangles sampleConstants sampleBins 0)
      (binnedTriangles sampleConstants sampleBinsSwapped 0) ∧
    RasterizeBinnedTrianglesToDepthBuffer sampleConstants sampleBins 0 zeroBuffer =
      RasterizeBinnedTrianglesToDepthBuffer sampleConstants sampleBinsSwapped 0 zeroBuffer :=
  have hperm : List.Perm (binnedTriangles sampleConstants sampleBins 0)
      (binnedTriangles sampleConstants sampleBinsSwapped 0) := by
    rw [binnedTriangles_sampleBins, binnedTriangles_sampleBinsSwapped]
    exact List.Perm.swap _ _ _
  ⟨by decide, hperm,
    (rasterization_order_independent sampleConstants (by decide)).2 0 sampleBins
      sampleBinsSwapped zeroBuffer hperm⟩

/-! ## Theorems: 32-bit arithmetic modulo `2^32` -/

theorem wrapINT_range (x : Int) : -2147483648 ≤ wrapINT x ∧ wrapINT x < 2147483648 := by
  simp only [wrapINT]; omega

/-- A wrapped result is congruent to the exact result modulo `2^32`. -/
theorem wrapINT_cast (x : Int) :
    ((wrapINT x : Int) : ZMod 4294967296) = (x : ZMod 4294967296) := by
  have h : wrapINT x = x + 4294967296 * (-((x + 2147483648) / 4294967296)) := by
    simp only [wrapINT]; omega
  rw [h]
  push_cast
  have : ((4294967296 : Nat) : ZMod 4294967296) = 0 := ZMod.natCast_self 4294967296
  have h2 : (4294967296 : ZMod 4294967296) = 0 := by exact_mod_cast this
  rw [h2]
  ring

/-- Two integers in the 32-bit signed range that are congruent modulo `2^32` are equal. -/
theorem eq_of_cast_eq {a b : Int} (ha : -2147483648 ≤ a ∧ a < 2147483648)
    (hb : -2147483648 ≤ b ∧ b < 2147483648)
    (h : (a : ZMod 4294967296) = (b : ZMod 4294967296)) : a = b := by
  have h1 := (ZMod.intCast_eq_intCast_iff a b 4294967296).1 h
  have h2 : a % 4294967296 = b % 4294967296 := h1
  omega

theorem wrapINT_eq_of_cast_eq {a b : Int}
    (h : (a : ZMod 4294967296) = (b : ZMod 4294967296)) : wrapINT a = wrapINT b := by
  apply eq_of_cast_eq (wrapINT_range a) (wrapINT_range b)
  rw [wrapINT_cast, wrapINT_cast, h]

/-! ## Theorems: invariants of the quad traversal -/

/-- Every quad of the column loop is reached after some number `n` of steps from the start
state, with origin, index and edge values stepped `n` times. -/
theorem colLoop_mem (endXx : Int) (i0 i1 i2 : Vec4 Int) (r : Int) :
    ∀ (fuel : Nat) (c idx : Int) (a b g : Vec4 Int) (q : Quad),
      q ∈ colLoop endXx i0 i1 i2 r fuel c idx a b g →
      ∃ n : Nat, q.c = c + 2 * n ∧ q.c < endXx ∧ q.r = r ∧ q.idx = idx + 4 * n ∧
        (∀ l, ((q.alpha l : Int) : ZMod 4294967296) = a l + n * i0 l) ∧
        (∀ l, ((q.beta l : Int) : ZMod 4294967296) = b l + n * i1 l) ∧
        (∀ l, ((q.gama l : Int) : ZMod 4294967296) = g l + n * i2 l) := by
  intro fuel
  induction fuel with
  | zero => intro c idx a b g q h; simp [colLoop] at h
  | succ fuel ih =>
    intro c idx a b g q h
    rw [colLoop] at h
    by_cases hc : c < endXx
    · rw [if_pos hc] at h
      rcases List.mem_cons.1 h with h | h
      · subst h
        exact ⟨0, by simp, hc, rfl, by simp, by simp, by simp, by simp⟩
      · obtain ⟨n, h1, h2, h3, h4, h5, h6, h7⟩ := ih _ _ _ _ _ q h
        refine ⟨n + 1, by rw [h1]; push_cast; ring, h2, h3, by rw [h4]; push_cast; ring,
          ?_, ?_, ?_⟩
        · intro l; rw [h5 l]; simp only [vadd, wrapINT_cast]; push_cast; ring
        · intro l; rw [h6 l]; simp only [vadd, wrapINT_cast]; push_cast; ring
        · intro l; rw [h7 l]; simp only [vadd, wrapINT_cast]; push_cast; ring
    · rw [if_neg hc] at h
      simp at h

/-- The column loop visits every even offset of the row up to `endXx`. -/
theorem colLoop_complete (endXx : Int) (i0 i1 i2 : Vec4 Int) (r : Int) :
    ∀ (fuel : Nat) (c idx : Int) (a b g : Vec4 Int) (n : Nat),
      c + 2 * n < endXx → n < fuel →
      ∃ q ∈ colLoop endXx i0 i1 i2 r fuel c idx a b g, q.c = c + 2 * n := by
  intro fuel
  induction fuel with
  | zero => intro c idx a b g n _ h; exact absurd h (Nat.not_lt_zero _)
  | succ fuel ih =>
    intro c idx a b g n hlt hf
    rw [colLoop]
    have hc : c < endXx := by omega
    rw [if_pos hc]
    cases n with
    | zero => exact ⟨_, List.mem_cons_self _ _, by simp⟩
    | succ n =>
      obtain ⟨q, hq, hqc⟩ := ih (c + 2) (idx + 4) (vadd a i0) (vadd b i1) (vadd g i2) n
        (by push_cast at hlt; omega) (by omega)
      exact ⟨q, List.mem_cons_of_mem _ hq, by rw [hqc]; push_cast; ring⟩

/-- Every quad of the row loop is reached after `m` row steps and `n` column steps. -/
theorem rowLoop_mem (W startXx endXx endYy : Int) (i0 i1 i2 j0 j1 j2 : Vec4 Int) :
    ∀ (fuel : Nat) (r rowIdx : Int) (a b g : Vec4 Int) (q : Quad),
      q ∈ rowLoop W startXx endXx endYy i0 i1 i2 j0 j1 j2 fuel r rowIdx a b g →
      ∃ m n : Nat, q.r = r + 2 * m ∧ q.r < endYy ∧ q.c = startXx + 2 * n ∧ q.c < endXx ∧
        q.idx = rowIdx + 2 * W * m + 4 * n ∧
        (∀ l, ((q.alpha l : Int) : ZMod 4294967296) = a l + m * j0 l + n * i0 l) ∧
        (∀ l, ((q.beta l : Int) : ZMod 4294967296) = b l + m * j1 l + n * i1 l) ∧
        (∀ l, ((q.gama l : Int) : ZMod 4294967296) = g l + m * j2 l + n * i2 l) := by
  intro fuel
  induction fuel with
  | zero => intro r rowIdx a b g q h; simp [rowLoop] at h
  | succ fuel ih =>
    intro r rowIdx a b g q h
    rw [rowLoop] at h
    by_cases hr : r < endYy
    · rw [if_pos hr] at h
      rcases List.mem_append.1 h with h | h
      · obtain ⟨n, h1, h2, h3, h4, h5, h6, h7⟩ := colLoop_mem _ _ _ _ _ _ _ _ _ _ _ q h
        refine ⟨0, n, by rw [h3]; simp, by rw [h3]; exact hr, h1, h2, by rw [h4]; simp,
          ?_, ?_, ?_⟩
        · intro l; rw [h5 l]; simp
        · intro l; rw [h6 l]; simp
        · intro l; rw [h7 l]; simp
      · obtain ⟨m, n, h1, h2, h3, h4, h5, h6, h7, h8⟩ := ih _ _ _ _ _ q h
        refine ⟨m + 1, n, by rw [h1]; push_cast; ring, h2, h3, h4,
          by rw [h5]; push_cast; ring, ?_, ?_, ?_⟩
        · intro l; rw [h6 l]; simp only [vadd, wrapINT_cast]; push_cast; ring
        · intro l; rw [h7 l]; simp only [vadd, wrapINT_cast]; push_cast; ring
        · intro l; rw [h8 l]; simp only [vadd, wrapINT_cast]; push_cast; ring
    · rw [if_neg hr] at h
      simp at h

/-- The row loop visits every quad origin of the clipped bounding box. -/
theorem rowLoop_complete (W startXx endXx endYy : Int) (i0 i1 i2 j0 j1 j2 : Vec4 Int) :
    ∀ (fuel : Nat) (r rowIdx : Int) (a b g : Vec4 Int) (m n : Nat),
      r + 2 * m < endYy → m < fuel → startXx + 2 * n < endXx →
      ∃ q ∈ rowLoop W startXx endXx endYy i0 i1 i2 j0 j1 j2 fuel r rowIdx a b g,
        q.r = r + 2 * m ∧ q.c = startXx + 2 * n := by
  intro fuel
  induction fuel with
  | zero => intro r rowIdx a b g m n _ h; exact absurd h (Nat.not_lt_zero _)
  | succ fuel ih =>
    intro r rowIdx a b g m n hlt hf hx
    rw [rowLoop]
    have hr : r < endYy := by omega
    rw [if_pos hr]
    cases m with
    | zero =>
      obtain ⟨q, hq, hqc⟩ := colLoop_complete endXx i0 i1 i2 r (endXx - startXx).toNat
        startXx rowIdx a b g n hx (by omega)
      obtain ⟨_, _, _, h3, _⟩ := colLoop_mem _ _ _ _ _ _ _ _ _ _ _ q hq
      exact ⟨q, List.mem_append_left _ hq, by rw [h3]; simp, hqc⟩
    | succ m =>
      obtain ⟨q, hq, hqr, hqc⟩ := ih (r + 2) (rowIdx + 2 * W) (vadd a j0) (vadd b j1)
        (vadd g j2) m n (by push_cast at hlt; omega) (by omega) hx
      exact ⟨q, List.mem_append_right _ hq, by rw [hqr]; push_cast; ring, hqc⟩

theorem colLoop_range (endXx : Int) (i0 i1 i2 : Vec4 Int) (r : Int) :
    ∀ (fuel : Nat) (c idx : Int) (a b g : Vec4 Int) (q : Quad),
      (∀ l, -2147483648 ≤ a l ∧ a l < 2147483648) →
      (∀ l, -2147483648 ≤ b l ∧ b l < 2147483648) →
      (∀ l, -2147483648 ≤ g l ∧ g l < 2147483648) →
      q ∈ colLoop endXx i0 i1 i2 r fuel c idx a b g →
      (∀ l, -2147483648 ≤ q.alpha l ∧ q.alpha l < 2147483648) ∧
      (∀ l, -2147483648 ≤ q.beta l ∧ q.beta l < 2147483648) ∧
      (∀ l, -2147483648 ≤ q.gama l ∧ q.gama l < 2147483648) := by
  intro fuel
  induction fuel with
  | zero => intro c idx a b g q _ _ _ h; simp [colLoop] at h
  | succ fuel ih =>
    intro c idx a b g q ha hb hg h
    rw [colLoop] at h
    by_cases hc : c < endXx
    · rw [if_pos hc] at h
      rcases List.mem_cons.1 h with h | h
      · subst h; exact ⟨ha, hb, hg⟩
      · exact ih _ _ _ _ _ q (fun l => wrapINT_range _) (fun l => wrapINT_range _)
          (fun l => wrapINT_range _) h
    · rw [if_neg hc] at h
      simp at h

theorem rowLoop_range (W startXx endXx endYy : Int) (i0 i1 i2 j0 j1 j2 : Vec4 Int) :
    ∀ (fuel : Nat) (r rowIdx : Int) (a b g : Vec4 Int) (q : Quad),
      (∀ l, -2147483648 ≤ a l ∧ a l < 2147483648) →
      (∀ l, -2147483648 ≤ b l ∧ b l < 2147483648) →
      (∀ l, -2147483648 ≤ g l ∧ g l < 2147483648) →
      q ∈ rowLoop W startXx endXx endYy i0 i1 i2 j0 j1 j2 fuel r rowIdx a b g →
      (∀ l, -2147483648 ≤ q.alpha l ∧ q.alpha l < 2147483648) ∧
      (∀ l, -2147483648 ≤ q.beta l ∧ q.beta l < 2147483648) ∧
      (∀ l, -2147483648 ≤ q.gama l ∧ q.gama l < 2147483648) := by
  intro fuel
  induction fuel with
  | zero => intro r rowIdx a b g q _ _ _ h; simp [rowLoop] at h
  | succ fuel ih =>
    intro r rowIdx a b g q ha hb hg h
    rw [rowLoop] at h
    by_cases hr : r < endYy
    · rw [if_pos hr] at h
      rcases List.mem_append.1 h with h | h
      · exact colLoop_range _ _ _ _ _ _ _ _ _ _ _ q ha hb hg h
      · exact ih _ _ _ _ _ q (fun l => wrapINT_range _) (fun l => wrapINT_range _)
          (fun l => wrapINT_range _) h
    · rw [if_neg hr] at h
      simp at h


/-- What holds of every quad the rasterizer visits for a triangle: its origin lies on the even
grid of the clipped bounding box, its buffer index is `r * SCREENW + 2 * c`, and each lane of
each edge vector is the edge function at the lane's pixel, modulo `2^32`. -/
theorem traverse_mem {K : Type} (k : Constants) (tile : Tile) (t : Triangle K) (q : Quad)
    (h : q ∈ traverse k tile t) :
    (∃ m n : Nat, q.r = startY tile t + 2 * m ∧ q.c = startX tile t + 2 * n) ∧
    q.r < endY tile t ∧ q.c < endX tile t ∧
    q.idx = q.r * k.SCREENW + 2 * q.c ∧
    (∀ l, ((q.alpha l : Int) : ZMod 4294967296) =
      (A0 t : Int) * (q.c + colOffset l) + (B0 t : Int) * (q.r + rowOffset l) + (C0 t : Int)) ∧
    (∀ l, ((q.beta l : Int) : ZMod 4294967296) =
      (A1 t : Int) * (q.c + colOffset l) + (B1 t : Int) * (q.r + rowOffset l) + (C1 t : Int)) ∧
    (∀ l, ((q.gama l : Int) : ZMod 4294967296) =
      (A2 t : Int) * (q.c + colOffset l) + (B2 t : Int) * (q.r + rowOffset l) + (C2 t : Int)) := by
  simp only [traverse] at h
  obtain ⟨m, n, h1, h2, h3, h4, h5, h6, h7, h8⟩ := rowLoop_mem _ _ _ _ _ _ _ _ _ _ _ _ _ _ _ _ q h
  refine ⟨⟨m, n, h1, h3⟩, h2, h4, by rw [h5, h1, h3]; ring, ?_, ?_, ?_⟩
  · intro l
    rw [h6 l, h1, h3]
    simp only [vadd, vmul, splat, shiftl1]
    push_cast [wrapINT_cast]
    ring
  · intro l
    rw [h7 l, h1, h3]
    simp only [vadd, vmul, splat, shiftl1]
    push_cast [wrapINT_cast]
    ring
  · intro l
    rw [h8 l, h1, h3]
    simp only [vadd, vmul, splat, shiftl1]
    push_cast [wrapINT_cast]
    ring

/-- Edge values are 32-bit integers. -/
theorem traverse_range {K : Type} (k : Constants) (tile : Tile) (t : Triangle K) (q : Quad)
    (h : q ∈ traverse k tile t) :
    (∀ l, -2147483648 ≤ q.alpha l ∧ q.alpha l < 2147483648) ∧
    (∀ l, -2147483648 ≤ q.beta l ∧ q.beta l < 2147483648) ∧
    (∀ l, -2147483648 ≤ q.gama l ∧ q.gama l < 2147483648) := by
  simp only [traverse] at h
  exact rowLoop_range _ _ _ _ _ _ _ _ _ _ _ _ _ _ _ _ q (fun l => wrapINT_range _)
    (fun l => wrapINT_range _) (fun l => wrapINT_range _) h

/-- Every quad origin on the even grid of the clipped bounding box is visited. -/
theorem traverse_complete {K : Type} (k : Constants) (tile : Tile) (t : Triangle K) (m n : Nat)
    (hy : startY tile t + 2 * m < endY tile t) (hx : startX tile t + 2 * n < endX tile t) :
    ∃ q ∈ traverse k tile t, q.r = startY tile t + 2 * m ∧ q.c = startX tile t + 2 * n := by
  simp only [traverse]
  exact rowLoop_complete _ _ _ _ _ _ _ _ _ _ _ _ _ _ _ _ m n hy (by omega) hx



theorem colOffset_cases (l : Fin 4) : colOffset l = (l.val % 2 : Nat) := by
  fin_cases l <;> rfl

theorem rowOffset_cases (l : Fin 4) : rowOffset l = (l.val / 2 : Nat) := by
  fin_cases l <;> rfl

theorem slotOf_even_origin (W c r : Int) (l : Fin 4) (hc : c % 2 = 0) (hr : r % 2 = 0) :
    slotOf W (c + colOffset l) (r + rowOffset l) = r * W + 2 * c + (l.val : Int) := by
  have hl := l.isLt
  rw [colOffset_cases, rowOffset_cases]
  simp only [slotOf, land_neg_two, land_one_right]
  have e1 : 2 * ((r + ((l.val / 2 : Nat) : Int)) / 2) = r := by omega
  have e2 : 2 * ((c + ((l.val % 2 : Nat) : Int)) / 2) = c := by omega
  have e3 : (r + ((l.val / 2 : Nat) : Int)) % 2 = ((l.val / 2 : Nat) : Int) := by omega
  have e4 : (c + ((l.val % 2 : Nat) : Int)) % 2 = ((l.val % 2 : Nat) : Int) := by omega
  rw [e1, e2, e3, e4]
  have e5 : (l.val : Int) = 2 * ((l.val / 2 : Nat) : Int) + ((l.val % 2 : Nat) : Int) := by
    omega
  rw [e5]
  push_cast
  ring

theorem startX_even {K : Type} (tile : Tile) (t : Triangle K) : startX tile t % 2 = 0 := by
  simp only [startX, land_neg_two]; omega

theorem startY_even {K : Type} (tile : Tile) (t : Triangle K) : startY tile t % 2 = 0 := by
  simp only [startY, land_neg_two]; omega

/-- Even origin and slot of every lane of a visited quad. -/
theorem quad_layout_aux {K : Type} (k : Constants) (tile : Tile) (t : Triangle K)
    (q : Quad) (l : Fin 4) (hq : q ∈ traverse k tile t) :
    q.c % 2 = 0 ∧ q.r % 2 = 0 ∧
    q.idx + (l.val : Int) = slotOf k.SCREENW (q.c + colOffset l) (q.r + rowOffset l) := by
  obtain ⟨⟨m, n, hr, hc⟩, -, -, hidx, -⟩ := traverse_mem k tile t q hq
  have hce : q.c % 2 = 0 := by have := startX_even tile t; omega
  have hre : q.r % 2 = 0 := by have := startY_even tile t; omega
  refine ⟨hce, hre, ?_⟩
  rw [slotOf_even_origin _ _ _ l hce hre, hidx]

/-- C9. Quad-contiguous layout.  Every quad the rasterizer visits has an even origin `(c, r)`,
and the buffer index `idx + l` that its 4-wide load and store touch in lane `l` is the slot
`((y & ~1) * W + 2*(x & ~1)) + 2*(y & 1) + (x & 1)` of the pixel
`(x, y) = (c + colOffset[l], r + rowOffset[l])`, with `W = SCREENW`. -/
theorem quad_contiguous_layout {K : Type} (k : Constants) (tile : Tile) (t : Triangle K)
    (q : Quad) (l : Fin 4) :
    q ∈ traverse k tile t →
      q.c % 2 = 0 ∧ q.r % 2 = 0 ∧
      (colOffset l, rowOffset l) = (![(0, 0), (1, 0), (0, 1), (1, 1)] : Fin 4 → Int × Int) l ∧
      q.idx + (l.val : Int) =
        slotOf k.SCREENW (q.c + colOffset l) (q.r + rowOffset l) := by
  intro hq
  obtain ⟨h1, h2, h3⟩ := quad_layout_aux k tile t q l hq
  refine ⟨h1, h2, ?_, h3⟩
  fin_cases l <;> rfl

/-- Instance of C9: lane 3 of the first quad visited for `sampleTriangle` in tile 0. -/
theorem quad_contiguous_layout_witness :
    ∃ q ∈ traverse sampleConstants (tileOf sampleConstants 0) sampleTriangle,
      q.c % 2 = 0 ∧ q.r % 2 = 0 ∧
      (colOffset 3, rowOffset 3) = (![(0, 0), (1, 0), (0, 1), (1, 1)] : Fin 4 → Int × Int) 3 ∧
      q.idx + ((3 : Fin 4).val : Int) =
        slotOf sampleConstants.SCREENW (q.c + colOffset 3) (q.r + rowOffset 3) := by
  have hy : startY (tileOf sampleConstants 0) sampleTriangle + 2 * (0 : Nat) <
      endY (tileOf sampleConstants 0) sampleTriangle := by
    simp only [startY, endY, land_neg_two]
    decide
  have hx : startX (tileOf sampleConstants 0) sampleTriangle + 2 * (0 : Nat) <
      endX (tileOf sampleConstants 0) sampleTriangle := by
    simp only [startX, endX, land_neg_two]
    decide
  obtain ⟨q, hq, -⟩ := traverse_complete sampleConstants (tileOf sampleConstants 0)
    sampleTriangle 0 0 hy hx
  exact ⟨q, hq, quad_contiguous_layout sampleConstants (tileOf sampleConstants 0)
    sampleTriangle q 3 hq⟩

/-! ## Theorems: tile ownership -/

/-- Quads stay inside a tile whose bounds are even. -/
theorem traverse_in_tile {K : Type} (k : Constants) (tile : Tile) (t : Triangle K) (q : Quad)
    (hsx : tile.tileStartX % 2 = 0) (hex : tile.tileEndX % 2 = 0)
    (hsy : tile.tileStartY % 2 = 0) (hey : tile.tileEndY % 2 = 0)
    (h : q ∈ traverse k tile t) :
    tile.tileStartX ≤ q.c ∧ q.c + 1 < tile.tileEndX ∧
    tile.tileStartY ≤ q.r ∧ q.r + 1 < tile.tileEndY := by
  obtain ⟨⟨m, n, hr, hc⟩, hry, hcx, -⟩ := traverse_mem k tile t q h
  have hce : q.c % 2 = 0 := by have := startX_even tile t; omega
  have hre : q.r % 2 = 0 := by have := startY_even tile t; omega
  have h1 : tile.tileStartX ≤ startX tile t := by
    simp only [startX, land_neg_two]; omega
  have h2 : tile.tileStartY ≤ startY tile t := by
    simp only [startY, land_neg_two]; omega
  have h3 : endX tile t ≤ tile.tileEndX := by
    simp only [endX]; exact min_le_right _ _
  have h4 : endY tile t ≤ tile.tileEndY := by
    simp only [endY]; exact min_le_right _ _
  refine ⟨by omega, by omega, by omega, by omega⟩

theorem mem_quadStores (q : Quad) (s : Int) (h : s ∈ quadStores q) :
    ∃ l : Fin 4, s = q.idx + (l.val : Int) := by
  simp only [quadStores] at h
  split at h
  · simp at h
  · simp only [List.mem_cons, List.mem_singleton, List.not_mem_nil, or_false] at h
    rcases h with h | h | h | h
    · exact ⟨0, by rw [h]; simp⟩
    · exact ⟨1, by rw [h]; rfl⟩
    · exact ⟨2, by rw [h]; rfl⟩
    · exact ⟨3, by rw [h]; rfl⟩

theorem quadFragments_subset_stores {K : Type} [LinearOrderedField K] (zz : Fin 3 → K)
    (q : Quad) (f : Int × K) (h : f ∈ quadFragments zz q) : f.1 ∈ quadStores q := by
  simp only [quadFragments, quadStores] at h ⊢
  split
  · rename_i hneg; rw [if_pos hneg] at h; simp at h
  · rename_i hneg
    rw [if_neg hneg] at h
    simp only [List.mem_filterMap] at h
    obtain ⟨l, -, hl⟩ := h
    split at hl
    · simp at hl
    · simp only [Option.some.injEq] at hl
      rw [← hl]
      fin_cases l <;> simp

/-- The slot map is injective on pixels of a screen of even width. -/
theorem slotOf_injective (W x1 y1 x2 y2 : Int) (hW : W % 2 = 0)
    (hx1 : 0 ≤ x1 ∧ x1 < W) (hx2 : 0 ≤ x2 ∧ x2 < W)
    (h : slotOf W x1 y1 = slotOf W x2 y2) : x1 = x2 ∧ y1 = y2 := by
  simp only [slotOf, land_neg_two, land_one_right] at h
  have key : y1 / 2 = y2 / 2 := by
    by_contra hne
    rcases lt_or_gt_of_ne hne with hlt | hgt
    · have : (y1 / 2 + 1) * W ≤ (y2 / 2) * W :=
        mul_le_mul_of_nonneg_right (by omega) (by omega)
      have e1 : (y1 / 2 + 1) * W = y1 / 2 * W + W := by ring
      have e2 : 2 * (y1 / 2) * W = 2 * (y1 / 2 * W) := by ring
      have e3 : 2 * (y2 / 2) * W = 2 * (y2 / 2 * W) := by ring
      rw [e2, e3] at h
      omega
    · have : (y2 / 2 + 1) * W ≤ (y1 / 2) * W :=
        mul_le_mul_of_nonneg_right (by omega) (by omega)
      have e1 : (y2 / 2 + 1) * W = y2 / 2 * W + W := by ring
      have e2 : 2 * (y1 / 2) * W = 2 * (y1 / 2 * W) := by ring
      have e3 : 2 * (y2 / 2) * W = 2 * (y2 / 2 * W) := by ring
      rw [e2, e3] at h
      omega
  rw [key] at h
  constructor <;> omega

/-- Bounds of the tile of a task on a screen that the tile width divides. -/
theorem tileOf_bounds (k : Constants) (taskId : Nat) (hTW : 0 < k.TILE_WIDTH_IN_PIXELS)
    (hSW : 0 < k.SCREENW) (hdvd : k.TILE_WIDTH_IN_PIXELS ∣ k.SCREENW)
    (hW2 : k.TILE_WIDTH_IN_PIXELS % 2 = 0) (hH2 : k.TILE_HEIGHT_IN_PIXELS % 2 = 0) :
    (tileOf k taskId).tileStartX % 2 = 0 ∧ (tileOf k taskId).tileEndX % 2 = 0 ∧
    (tileOf k taskId).tileStartY % 2 = 0 ∧ (tileOf k taskId).tileEndY % 2 = 0 ∧
    0 ≤ (tileOf k taskId).tileStartX ∧ (tileOf k taskId).tileEndX ≤ k.SCREENW := by
  obtain ⟨n, hn⟩ := hdvd
  have hn0 : 0 < n := by
    rcases Nat.eq_zero_or_pos n with h | h
    · rw [h] at hn; omega
    · exact h
  have hdiv : k.SCREENW / k.TILE_WIDTH_IN_PIXELS = n := by
    rw [hn]; exact Nat.mul_div_cancel_left n hTW
  have hx : tileX k taskId < n := by
    simp only [tileX, hdiv]; exact Nat.mod_lt _ hn0
  have hxw : (tileX k taskId + 1) * k.TILE_WIDTH_IN_PIXELS ≤ k.SCREENW := by
    rw [hn, Nat.mul_comm k.TILE_WIDTH_IN_PIXELS n]
    exact Nat.mul_le_mul_right _ hx
  have e1 : (tileX k taskId * k.TILE_WIDTH_IN_PIXELS) % 2 = 0 := by
    rw [Nat.mul_mod, hW2]; simp
  have e2 : (tileY k taskId * k.TILE_HEIGHT_IN_PIXELS) % 2 = 0 := by
    rw [Nat.mul_mod, hH2]; simp
  have e3 : (tileX k taskId + 1) * k.TILE_WIDTH_IN_PIXELS =
      tileX k taskId * k.TILE_WIDTH_IN_PIXELS + k.TILE_WIDTH_IN_PIXELS := by ring
  simp only [tileOf]
  refine ⟨by omega, by omega, by omega, by omega, by omega, by omega⟩

/-- A pixel lies in the tile of at most one task. -/
theorem tileOf_disjoint (k : Constants) (taskId1 taskId2 : Nat) (x y : Int)
    (h1x : (tileOf k taskId1).tileStartX ≤ x ∧ x < (tileOf k taskId1).tileEndX)
    (h1y : (tileOf k taskId1).tileStartY ≤ y ∧ y < (tileOf k taskId1).tileEndY)
    (h2x : (tileOf k taskId2).tileStartX ≤ x ∧ x < (tileOf k taskId2).tileEndX)
    (h2y : (tileOf k taskId2).tileStartY ≤ y ∧ y < (tileOf k taskId2).tileEndY) :
    taskId1 = taskId2 := by
  simp only [tileOf] at h1x h1y h2x h2y
  have hxeq : tileX k taskId1 = tileX k taskId2 := by
    by_contra hne
    rcases Nat.lt_or_gt_of_ne hne with hlt | hgt
    · have : (tileX k taskId1 + 1) * k.TILE_WIDTH_IN_PIXELS ≤
          tileX k taskId2 * k.TILE_WIDTH_IN_PIXELS := Nat.mul_le_mul_right _ hlt
      have e : (tileX k taskId1 + 1) * k.TILE_WIDTH_IN_PIXELS =
          tileX k taskId1 * k.TILE_WIDTH_IN_PIXELS + k.TILE_WIDTH_IN_PIXELS := by ring
      omega
    · have : (tileX k taskId2 + 1) * k.TILE_WIDTH_IN_PIXELS ≤
          tileX k taskId1 * k.TILE_WIDTH_IN_PIXELS := Nat.mul_le_mul_right _ hgt
      have e : (tileX k taskId2 + 1) * k.TILE_WIDTH_IN_PIXELS =
          tileX k taskId2 * k.TILE_WIDTH_IN_PIXELS + k.TILE_WIDTH_IN_PIXELS := by ring
      omega
  have hyeq : tileY k taskId1 = tileY k taskId2 := by
    by_contra hne
    rcases Nat.lt_or_gt_of_ne hne with hlt | hgt
    · have : (tileY k taskId1 + 1) * k.TILE_HEIGHT_IN_PIXELS ≤
          tileY k taskId2 * k.TILE_HEIGHT_IN_PIXELS := Nat.mul_le_mul_right _ hlt
      have e : (tileY k taskId1 + 1) * k.TILE_HEIGHT_IN_PIXELS =
          tileY k taskId1 * k.TILE_HEIGHT_IN_PIXELS + k.TILE_HEIGHT_IN_PIXELS := by ring
      omega
    · have : (tileY k taskId2 + 1) * k.TILE_HEIGHT_IN_PIXELS ≤
          tileY k taskId1 * k.TILE_HEIGHT_IN_PIXELS := Nat.mul_le_mul_right _ hgt
      have e : (tileY k taskId2 + 1) * k.TILE_HEIGHT_IN_PIXELS =
          tileY k taskId2 * k.TILE_HEIGHT_IN_PIXELS + k.TILE_HEIGHT_IN_PIXELS := by ring
      omega
  simp only [tileX, tileY] at hxeq hyeq
  have a1 := Nat.div_add_mod taskId1 (k.SCREENW / k.TILE_WIDTH_IN_PIXELS)
  have a2 := Nat.div_add_mod taskId2 (k.SCREENW / k.TILE_WIDTH_IN_PIXELS)
  rw [← a1, ← a2, hxeq, hyeq]

/-- Every slot a tile task stores to is a lane of a quad visited for one of its triangles. -/
theorem mem_taskStores {K : Type} [LinearOrderedField K] (k : Constants) (bins : Bins K)
    (taskId : Nat) (s : Int) (h : s ∈ taskStores k bins taskId) :
    ∃ t : Triangle K, ∃ q ∈ traverse k (tileOf k taskId) t, ∃ l : Fin 4,
      s = q.idx + (l.val : Int) := by
  simp only [taskStores, triangleStores, List.mem_flatMap] at h
  obtain ⟨t, -, q, hq, hs⟩ := h
  obtain ⟨l, hl⟩ := mem_quadStores q s hs
  exact ⟨t, q, hq, l, hl⟩

/-- Every slot a tile task stores to is the slot of a pixel of its tile. -/
theorem taskStores_in_tile {K : Type} [LinearOrderedField K] (k : Constants) (bins : Bins K)
    (taskId : Nat) (hTW : 0 < k.TILE_WIDTH_IN_PIXELS)
    (hSW : 0 < k.SCREENW) (hdvd : k.TILE_WIDTH_IN_PIXELS ∣ k.SCREENW)
    (hW2 : k.TILE_WIDTH_IN_PIXELS % 2 = 0) (hH2 : k.TILE_HEIGHT_IN_PIXELS % 2 = 0)
    (s : Int) (h : s ∈ taskStores k bins taskId) :
    ∃ x y : Int,
      ((tileOf k taskId).tileStartX ≤ x ∧ x < (tileOf k taskId).tileEndX) ∧
      ((tileOf k taskId).tileStartY ≤ y ∧ y < (tileOf k taskId).tileEndY) ∧
      s = slotOf k.SCREENW x y := by
  obtain ⟨t, q, hq, l, hl⟩ := mem_taskStores k bins taskId s h
  obtain ⟨b1, b2, b3, b4, -, -⟩ := tileOf_bounds k taskId hTW hSW hdvd hW2 hH2
  obtain ⟨c1, c2, c3, c4⟩ := traverse_in_tile k (tileOf k taskId) t q b1 b2 b3 b4 hq
  obtain ⟨hce, hre, hslot⟩ := quad_layout_aux k (tileOf k taskId) t q l hq
  have hco : colOffset l = 0 ∨ colOffset l = 1 := by fin_cases l <;> simp [colOffset]
  have hro : rowOffset l = 0 ∨ rowOffset l = 1 := by fin_cases l <;> simp [rowOffset]
  refine ⟨q.c + colOffset l, q.r + rowOffset l, ⟨by omega, by omega⟩, ⟨by omega, by omega⟩, ?_⟩
  rw [hl, hslot]

/-- C3. Tile ownership.  When the tile width and height are even and the tile width divides
the screen width, every depth-buffer slot that the tile task `taskId` stores to (all four
lanes of every quad it does not skip, for any triangles in its bins) is the slot of a pixel
inside the tile of that task; two tasks with different `taskId` never store to the same slot;
and slots the task does not store to keep their value. -/
theorem tile_ownership {K : Type} [LinearOrderedField K] (k : Constants)
    (hTW : 0 < k.TILE_WIDTH_IN_PIXELS)
    (hSW : 0 < k.SCREENW) (hdvd : k.TILE_WIDTH_IN_PIXELS ∣ k.SCREENW)
    (hW2 : k.TILE_WIDTH_IN_PIXELS % 2 = 0) (hH2 : k.TILE_HEIGHT_IN_PIXELS % 2 = 0) :
    (∀ (bins : Bins K) (taskId : Nat) (s : Int), s ∈ taskStores k bins taskId →
      ∃ x y : Int,
        ((tileOf k taskId).tileStartX ≤ x ∧ x < (tileOf k taskId).tileEndX) ∧
        ((tileOf k taskId).tileStartY ≤ y ∧ y < (tileOf k taskId).tileEndY) ∧
        s = slotOf k.SCREENW x y) ∧
    (∀ (bins1 bins2 : Bins K) (taskId1 taskId2 : Nat) (s : Int), taskId1 ≠ taskId2 →
      s ∈ taskStores k bins1 taskId1 → s ∉ taskStores k bins2 taskId2) ∧
    (∀ (bins : Bins K) (taskId : Nat) (pDepthBuffer : Int → K) (s : Int),
      s ∉ taskStores k bins taskId →
      RasterizeBinnedTrianglesToDepthBuffer k bins taskId pDepthBuffer s = pDepthBuffer s) := by
  refine ⟨fun bins taskId s h => taskStores_in_tile k bins taskId hTW hSW hdvd hW2 hH2 s h,
    ?_, ?_⟩
  · intro bins1 bins2 taskId1 taskId2 s hne h1 h2
    obtain ⟨x1, y1, hx1, hy1, e1⟩ := taskStores_in_tile k bins1 taskId1 hTW hSW hdvd hW2 hH2 s h1
    obtain ⟨x2, y2, hx2, hy2, e2⟩ := taskStores_in_tile k bins2 taskId2 hTW hSW hdvd hW2 hH2 s h2
    obtain ⟨-, -, -, -, p1, p2⟩ := tileOf_bounds k taskId1 hTW hSW hdvd hW2 hH2
    obtain ⟨-, -, -, -, p3, p4⟩ := tileOf_bounds k taskId2 hTW hSW hdvd hW2 hH2
    have hWeven : (k.SCREENW : Int) % 2 = 0 := by
      obtain ⟨n, hn⟩ := hdvd
      have : k.SCREENW % 2 = 0 := by rw [hn, Nat.mul_mod, hW2]; simp
      omega
    obtain ⟨ex, ey⟩ := slotOf_injective k.SCREENW x1 y1 x2 y2 hWeven
      ⟨by omega, by omega⟩ ⟨by omega, by omega⟩ (by rw [← e1, ← e2])
    subst ex ey
    exact hne (tileOf_disjoint k taskId1 taskId2 x1 y1 hx1 hy1 hx2 hy2)
  · intro bins taskId buf s hs
    rw [Rasterize_eq_foldl, foldl_maxWrite_apply]
    have : (taskFragments k bins taskId).filter (fun f => decide (f.1 = s)) = [] := by
      rw [List.filter_eq_nil_iff]
      intro f hf
      simp only [decide_eq_true_eq]
      intro hfs
      apply hs
      simp only [taskFragments, triangleFragments, List.mem_flatMap] at hf
      obtain ⟨t, ht, q, hq, hfq⟩ := hf
      simp only [taskStores, triangleStores, List.mem_flatMap]
      exact ⟨t, ht, q, hq, hfs ▸ quadFragments_subset_stores _ q f hfq⟩
    rw [this]
    rfl

/-- Instance of C3: the tile tasks 0 and 1 of `sampleConstants` share no stored slot. -/
theorem tile_ownership_witness :
    (0 < sampleConstants.TILE_WIDTH_IN_PIXELS ∧ 0 < sampleConstants.SCREENW ∧
      sampleConstants.TILE_WIDTH_IN_PIXELS ∣ sampleConstants.SCREENW ∧
      sampleConstants.TILE_WIDTH_IN_PIXELS % 2 = 0 ∧
      sampleConstants.TILE_HEIGHT_IN_PIXELS % 2 = 0) ∧
    (∀ s : Int, s ∈ taskStores sampleConstants sampleBins 0 →
      s ∉ taskStores sampleConstants sampleBins 1) :=
  ⟨⟨by decide, by decide, by decide, by decide, by decide⟩,
    fun s => (tile_ownership sampleConstants (by decide) (by decide) (by decide) (by decide)
      (by decide)).2.1 sampleBins sampleBins 0 1 s (by decide)⟩

/-! ## Theorems: the coverage rule of the quad loop -/

theorem quadMask_neg_iff (q : Quad) (l : Fin 4) :
    quadMask q l < 0 ↔ (q.alpha l < 0 ∨ q.beta l < 0 ∨ q.gama l < 0) := by
  simp only [quadMask, vor, lor_neg_iff, or_assoc]

theorem is_all_negative_iff (v : Vec4 Int) : is_all_negative v = true ↔ ∀ l : Fin 4, v l < 0 := by
  simp only [is_all_negative, decide_eq_true_eq]

/-- Value stored in lane `l` of a quad that is not skipped. -/
theorem quadStep_lane {K : Type} [LinearOrderedField K] (zz : Fin 3 → K) (buf : Int → K)
    (q : Quad) (l : Fin 4) (h : is_all_negative (quadMask q) = false) :
    quadStep zz buf q (q.idx + (l.val : Int)) =
      if quadMask q l < 0 then buf (q.idx + (l.val : Int))
      else max (quadDepth zz q l) (buf (q.idx + (l.val : Int))) := by
  simp only [quadStep, h, Bool.false_eq_true, if_false, store, select, vmax, load]
  fin_cases l
  · simp
  · simp
  · simp
  · simp; rfl

/-- C10 (as amended). Coverage rule.  With `m = alpha | beta | gama` computed lane-wise, the
sign bit of `m` is set in a lane exactly when one of the three edge values is negative there;
a quad is skipped, without load or store, exactly when the sign bit of `m` is set in all four
lanes; and in a quad that is not skipped a lane receives the merged depth
`max(depth, previous)` exactly when the sign bit of `m` is clear in that lane, the lanes with
the sign bit set keeping their previous value. -/
theorem coverage_rule {K : Type} [LinearOrderedField K] (zz : Fin 3 → K)
    (pDepthBuffer : Int → K) (q : Quad) :
    (∀ l : Fin 4, quadMask q l < 0 ↔ (q.alpha l < 0 ∨ q.beta l < 0 ∨ q.gama l < 0)) ∧
    (is_all_negative (quadMask q) = true ↔ ∀ l : Fin 4, quadMask q l < 0) ∧
    (is_all_negative (quadMask q) = true →
      quadStep zz pDepthBuffer q = pDepthBuffer ∧ quadStores q = []) ∧
    (is_all_negative (quadMask q) = false →
      quadStores q = [q.idx, q.idx + 1, q.idx + 2, q.idx + 3] ∧
      ∀ l : Fin 4, quadStep zz pDepthBuffer q (q.idx + (l.val : Int)) =
        if quadMask q l < 0 then pDepthBuffer (q.idx + (l.val : Int))
        else max (quadDepth zz q l) (pDepthBuffer (q.idx + (l.val : Int)))) := by
  refine ⟨quadMask_neg_iff q, is_all_negative_iff _, ?_, ?_⟩
  · intro h
    simp only [quadStep, quadStores, h, if_true, and_self]
  · intro h
    refine ⟨by simp only [quadStores, h, Bool.false_eq_true, if_false], ?_⟩
    intro l
    exact quadStep_lane zz pDepthBuffer q l h
/-! ## Theorems: edge values at the vertices of a triangle -/

/-- Modulo `2^32`, the three edge functions at vertex `i` are `triArea` for edge `i` and zero
for the two other edges. -/
theorem edge_at_vertex {K : Type} (t : Triangle K) (i : Fin 3) :
    (((A0 t : Int) : ZMod 4294967296) * (t.X i : Int) + (B0 t : Int) * (t.Y i : Int)
        + (C0 t : Int) = ((if i = 0 then triArea t else 0 : Int) : ZMod 4294967296)) ∧
    (((A1 t : Int) : ZMod 4294967296) * (t.X i : Int) + (B1 t : Int) * (t.Y i : Int)
        + (C1 t : Int) = ((if i = 1 then triArea t else 0 : Int) : ZMod 4294967296)) ∧
    (((A2 t : Int) : ZMod 4294967296) * (t.X i : Int) + (B2 t : Int) * (t.Y i : Int)
        + (C2 t : Int) = ((if i = 2 then triArea t else 0 : Int) : ZMod 4294967296)) := by
  fin_cases i
  · refine ⟨?_, ?_, ?_⟩ <;>
      simp only [A0, A1, A2, B0, B1, B2, C0, C1, C2, triArea] <;>
      push_cast [wrapINT_cast] <;> ring
  · refine ⟨?_, ?_, ?_⟩ <;>
      simp only [A0, A1, A2, B0, B1, B2, C0, C1, C2, triArea] <;>
      push_cast [wrapINT_cast] <;> ring
  · refine ⟨?_, ?_, ?_⟩ <;>
      simp only [A0, A1, A2, B0, B1, B2, C0, C1, C2, triArea] <;>
      push_cast [wrapINT_cast] <;> ring

theorem min3_le (f : Fin 3 → Int) (i : Fin 3) :
    min (min (f 0) (f 1)) (f 2) ≤ f i ∧ f i ≤ max (max (f 0) (f 1)) (f 2) := by
  fin_cases i <;> simp

/-- The quad and lane of a vertex whose pixel lies inside the tile: the quad is visited, and
the three edge values of the lane are `triArea` for the edge of that vertex, zero for the two
others. -/
theorem vertex_pixel_quad {K : Type} (k : Constants) (tile : Tile) (t : Triangle K)
    (i : Fin 3) (h0x : 0 ≤ tile.tileStartX) (h0y : 0 ≤ tile.tileStartY)
    (hX : ∀ j, t.X j < 2147483647) (hY : ∀ j, t.Y j < 2147483647)
    (hinx : tile.tileStartX ≤ t.X i ∧ t.X i < tile.tileEndX)
    (hiny : tile.tileStartY ≤ t.Y i ∧ t.Y i < tile.tileEndY) :
    ∃ q ∈ traverse k tile t, ∃ l : Fin 4,
      q.c + colOffset l = t.X i ∧ q.r + rowOffset l = t.Y i ∧
      q.alpha l = (if i = 0 then triArea t else 0) ∧
      q.beta l = (if i = 1 then triArea t else 0) ∧
      q.gama l = (if i = 2 then triArea t else 0) := by
  obtain ⟨hminx, hmaxx⟩ := min3_le t.X i
  obtain ⟨hminy, hmaxy⟩ := min3_le t.Y i
  have hMx : max (max (t.X 0) (t.X 1)) (t.X 2) < 2147483647 := by
    have a := hX 0; have b := hX 1; have c := hX 2; omega
  have hMy : max (max (t.Y 0) (t.Y 1)) (t.Y 2) < 2147483647 := by
    have a := hY 0; have b := hY 1; have c := hY 2; omega
  have hsx : startX tile t ≤ t.X i := by
    simp only [startX, land_neg_two]; omega
  have hsy : startY tile t ≤ t.Y i := by
    simp only [startY, land_neg_two]; omega
  have hex : t.X i < endX tile t := by
    simp only [endX]
    rw [wrapINT_of_range (by omega) (by omega)]
    omega
  have hey : t.Y i < endY tile t := by
    simp only [endY]
    rw [wrapINT_of_range (by omega) (by omega)]
    omega
  have hxe := startX_even tile t
  have hye := startY_even tile t
  obtain ⟨q, hq, hqr, hqc⟩ := traverse_complete k tile t
    ((t.Y i - startY tile t) / 2).toNat ((t.X i - startX tile t) / 2).toNat
    (by omega) (by omega)
  have hdx : t.X i - q.c = 0 ∨ t.X i - q.c = 1 := by omega
  have hdy : t.Y i - q.r = 0 ∨ t.Y i - q.r = 1 := by omega
  have hl : ((t.X i - q.c) + 2 * (t.Y i - q.r)).toNat < 4 := by omega
  refine ⟨q, hq, ⟨((t.X i - q.c) + 2 * (t.Y i - q.r)).toNat, hl⟩, ?_⟩
  have hco : q.c + colOffset ⟨((t.X i - q.c) + 2 * (t.Y i - q.r)).toNat, hl⟩ = t.X i := by
    rw [colOffset_cases]; simp only; omega
  have hro : q.r + rowOffset ⟨((t.X i - q.c) + 2 * (t.Y i - q.r)).toNat, hl⟩ = t.Y i := by
    rw [rowOffset_cases]; simp only; omega
  obtain ⟨-, -, -, -, ha, hb, hg⟩ := traverse_mem k tile t q hq
  obtain ⟨ra, rb, rg⟩ := traverse_range k tile t q hq
  obtain ⟨e0, e1, e2⟩ := edge_at_vertex t i
  have htri := wrapINT_range (wrapINT (B2 t * A1 t) - wrapINT (B1 t * A2 t))
  have hrange : ∀ j : Fin 3, -2147483648 ≤ (if i = j then triArea t else 0) ∧
      (if i = j then triArea t else 0) < 2147483648 := by
    intro j
    split
    · exact htri
    · omega
  refine ⟨hco, hro, ?_, ?_, ?_⟩
  · apply eq_of_cast_eq (ra _) (hrange 0)
    rw [ha, ← Int.cast_add, ← Int.cast_add, hco, hro]
    exact e0
  · apply eq_of_cast_eq (rb _) (hrange 1)
    rw [hb, ← Int.cast_add, ← Int.cast_add, hco, hro]
    exact e1
  · apply eq_of_cast_eq (rg _) (hrange 2)
    rw [hg, ← Int.cast_add, ← Int.cast_add, hco, hro]
    exact e2


/-- Modulo `2^32`, the three edge values of a lane sum to `triArea`. -/
theorem edge_sum {K : Type} (k : Constants) (tile : Tile) (t : Triangle K) (q : Quad)
    (h : q ∈ traverse k tile t) (l : Fin 4) :
    wrapINT (q.alpha l + q.beta l + q.gama l) = triArea t := by
  obtain ⟨-, -, -, -, ha, hb, hg⟩ := traverse_mem k tile t q h
  apply eq_of_cast_eq (wrapINT_range _)
    (wrapINT_range (wrapINT (B2 t * A1 t) - wrapINT (B1 t * A2 t)))
  rw [wrapINT_cast]
  push_cast
  rw [ha, hb, hg]
  simp only [A0, A1, A2, B0, B1, B2, C0, C1, C2, triArea]
  push_cast [wrapINT_cast]
  ring

/-- A triangle with two coincident vertices has fixed-point area zero. -/
theorem triArea_of_coincident {K : Type} (t : Triangle K) (i j : Fin 3) (hij : i ≠ j)
    (hx : t.X i = t.X j) (hy : t.Y i = t.Y j) : triArea t = 0 := by
  apply eq_of_cast_eq (wrapINT_range (wrapINT (B2 t * A1 t) - wrapINT (B1 t * A2 t)))
    (by omega)
  simp only [A1, A2, B1, B2, triArea]
  push_cast [wrapINT_cast]
  fin_cases i <;> fin_cases j <;> first
    | exact absurd rfl hij
    | (simp only [Fin.zero_eta, Fin.mk_one, Fin.reduceFinMk] at hx hy
       rw [hx, hy]; ring)

section VertexClaims

variable {K : Type} [LinearOrderedField K]

theorem mem_quadFragments (zz : Fin 3 → K) (q : Quad) (l : Fin 4) (h : ¬ quadMask q l < 0) :
    (q.idx + (l.val : Int), quadDepth zz q l) ∈ quadFragments zz q := by
  have hneg : ¬ is_all_negative (quadMask q) = true := fun h2 =>
    h ((is_all_negative_iff _).1 h2 l)
  rw [quadFragments, if_neg hneg, List.mem_filterMap]
  exact ⟨l, List.mem_finRange l, by rw [if_neg h]⟩

/-- A sample of a binned triangle bounds the final value of its slot from below. -/
theorem fragment_le_Rasterize (k : Constants) (bins : Bins K) (taskId : Nat)
    (hN : 1 ≤ k.NUM_XFORMVERTS_TASKS) (buf : Int → K) (f : Int × K)
    (hf : f ∈ binnedFragments k bins taskId) :
    f.2 ≤ RasterizeBinnedTrianglesToDepthBuffer k bins taskId buf f.1 := by
  rw [Rasterize_eq_foldl, taskFragments_eq k bins taskId hN, foldl_maxWrite_apply]
  apply mem_le_foldl_max
  simp only [List.mem_map, List.mem_filter, decide_eq_true_eq]
  exact ⟨f, ⟨hf, rfl⟩, rfl⟩

/-- Interpolated depth at a lane whose edge values are those of vertex `i`. -/
theorem quadDepth_at_vertex (t : Triangle K) (q : Quad) (l : Fin 4) (i : Fin 3)
    (harea : triArea t ≠ 0)
    (hb : q.beta l = (if i = 1 then triArea t else 0))
    (hg : q.gama l = (if i = 2 then triArea t else 0)) :
    quadDepth (zPlane t) q l = t.Z i := by
  have hne : (triArea t : K) ≠ 0 := Int.cast_ne_zero.2 harea
  simp only [quadDepth, itof, hb, hg, zPlane, oneOverTriArea]
  fin_cases i
  · simp
  · simp
    field_simp
  · simp
    field_simp

end VertexClaims

/-- A vertex inside the tile of a triangle whose area is not negative: its quad is visited and
not skipped, its lane is covered, and its slot is stored to. -/
theorem vertex_covered {K : Type} (k : Constants) (tile : Tile) (t : Triangle K) (i : Fin 3)
    (harea : 0 ≤ triArea t) (h0x : 0 ≤ tile.tileStartX) (h0y : 0 ≤ tile.tileStartY)
    (hX : ∀ j, t.X j < 2147483647) (hY : ∀ j, t.Y j < 2147483647)
    (hinx : tile.tileStartX ≤ t.X i ∧ t.X i < tile.tileEndX)
    (hiny : tile.tileStartY ≤ t.Y i ∧ t.Y i < tile.tileEndY) :
    ∃ q ∈ traverse k tile t, ∃ l : Fin 4,
      (q.c + colOffset l = t.X i ∧ q.r + rowOffset l = t.Y i) ∧
      (q.beta l = (if i = 1 then triArea t else 0) ∧
        q.gama l = (if i = 2 then triArea t else 0)) ∧
      ¬ quadMask q l < 0 ∧ is_all_negative (quadMask q) = false ∧
      q.idx + (l.val : Int) = slotOf k.SCREENW (t.X i) (t.Y i) ∧
      q.idx + (l.val : Int) ∈ triangleStores k tile t := by
  obtain ⟨q, hq, l, hc, hr, ha, hb, hg⟩ := vertex_pixel_quad k tile t i h0x h0y hX hY hinx hiny
  have hmask : ¬ quadMask q l < 0 := by
    rw [quadMask_neg_iff, ha, hb, hg]
    intro h
    rcases h with h | h | h <;> split at h <;> omega
  have hnot : is_all_negative (quadMask q) = false := by
    rw [Bool.eq_false_iff]
    exact fun h => hmask ((is_all_negative_iff _).1 h l)
  obtain ⟨-, -, hslot⟩ := quad_layout_aux k tile t q l hq
  refine ⟨q, hq, l, ⟨hc, hr⟩, ⟨hb, hg⟩, hmask, hnot, by rw [hslot, hc, hr], ?_⟩
  simp only [triangleStores, List.mem_flatMap]
  refine ⟨q, hq, ?_⟩
  simp only [quadStores, hnot, Bool.false_eq_true, if_false]
  fin_cases l <;> simp

section MarkClaims

variable {K : Type} [LinearOrderedField K]

/-- C8. Positive-area triangles leave a mark.  For every binned triangle with positive
fixed-point area whose coordinates stay below `2^31 - 1` and every vertex of it whose pixel
lies inside the tile: the quad of that pixel is visited and not skipped, the lane of the pixel
is covered, the interpolated depth in that lane is the `z` of the vertex, and after the tile
task the slot of the pixel holds a value greater than or equal to it. -/
theorem positive_area_leaves_mark (k : Constants) (bins : Bins K) (taskId : Nat)
    (pDepthBuffer : Int → K) (e : BinEntry) (i : Fin 3)
    (hN : 1 ≤ k.NUM_XFORMVERTS_TASKS)
    (he : e ∈ binnedEntries k.NUM_XFORMVERTS_TASKS (numTrisOf k bins taskId))
    (harea : 0 < triArea (triangleOf k bins taskId e))
    (hX : ∀ j, (triangleOf k bins taskId e).X j < 2147483647)
    (hY : ∀ j, (triangleOf k bins taskId e).Y j < 2147483647)
    (hinx : (tileOf k taskId).tileStartX ≤ (triangleOf k bins taskId e).X i ∧
      (triangleOf k bins taskId e).X i < (tileOf k taskId).tileEndX)
    (hiny : (tileOf k taskId).tileStartY ≤ (triangleOf k bins taskId e).Y i ∧
      (triangleOf k bins taskId e).Y i < (tileOf k taskId).tileEndY) :
    (∃ q ∈ traverse k (tileOf k taskId) (triangleOf k bins taskId e), ∃ l : Fin 4,
      (q.c + colOffset l = (triangleOf k bins taskId e).X i ∧
        q.r + rowOffset l = (triangleOf k bins taskId e).Y i) ∧
      ¬ quadMask q l < 0 ∧ is_all_negative (quadMask q) = false ∧
      quadDepth (zPlane (triangleOf k bins taskId e)) q l = (triangleOf k bins taskId e).Z i ∧
      q.idx + (l.val : Int) = slotOf k.SCREENW ((triangleOf k bins taskId e).X i)
        ((triangleOf k bins taskId e).Y i)) ∧
    (triangleOf k bins taskId e).Z i ≤
      RasterizeBinnedTrianglesToDepthBuffer k bins taskId pDepthBuffer
        (slotOf k.SCREENW ((triangleOf k bins taskId e).X i)
          ((triangleOf k bins taskId e).Y i)) := by
  have h0x : 0 ≤ (tileOf k taskId).tileStartX := by simp only [tileOf]; omega
  have h0y : 0 ≤ (tileOf k taskId).tileStartY := by simp only [tileOf]; omega
  obtain ⟨q, hq, l, hpix, ⟨hb, hg⟩, hmask, hnot, hslot, -⟩ :=
    vertex_covered k (tileOf k taskId) (triangleOf k bins taskId e) i (by omega) h0x h0y
      hX hY hinx hiny
  have hdepth := quadDepth_at_vertex (triangleOf k bins taskId e) q l i (by omega) hb hg
  refine ⟨⟨q, hq, l, hpix, hmask, hnot, hdepth, hslot⟩, ?_⟩
  have hfrag : (q.idx + (l.val : Int), quadDepth (zPlane (triangleOf k bins taskId e)) q l) ∈
      binnedFragments k bins taskId := by
    simp only [binnedFragments, binnedTriangles, triangleFragments, List.mem_flatMap,
      List.mem_map]
    exact ⟨_, ⟨e, he, rfl⟩, q, hq, mem_quadFragments _ q l hmask⟩
  have := fragment_le_Rasterize k bins taskId hN pDepthBuffer _ hfrag
  simp only [hdepth, hslot] at this
  exact this

end MarkClaims

/-- Instance of C8: vertex 1 of `sampleTriangle`, held in bin 0 of tile 0. -/
theorem positive_area_leaves_mark_witness :
    (1 ≤ sampleConstants.NUM_XFORMVERTS_TASKS ∧
      BinEntry.mk 0 0 ∈ binnedEntries sampleConstants.NUM_XFORMVERTS_TASKS
        (numTrisOf sampleConstants sampleBins 0) ∧
      0 < triArea (triangleOf sampleConstants sampleBins 0 (BinEntry.mk 0 0))) ∧
    (triangleOf sampleConstants sampleBins 0 (BinEntry.mk 0 0)).Z 1 ≤
      RasterizeBinnedTrianglesToDepthBuffer sampleConstants sampleBins 0 zeroBuffer
        (slotOf sampleConstants.SCREENW
          ((triangleOf sampleConstants sampleBins 0 (BinEntry.mk 0 0)).X 1)
          ((triangleOf sampleConstants sampleBins 0 (BinEntry.mk 0 0)).Y 1)) :=
  ⟨⟨by decide, by decide, by decide⟩,
    (positive_area_leaves_mark sampleConstants sampleBins 0 zeroBuffer (BinEntry.mk 0 0) 1
      (by decide) (by decide) (by decide) (by decide) (by decide) (by decide) (by decide)).2⟩

/-- C7, counterexample to the claim as stated.  `degenerateTriangle` has its vertices 0 and 1
both at pixel (0,0) of tile 0, so its area is zero; yet the rasterizer visits the quad of that
pixel, does not skip it, treats the lane of the pixel as covered, and the tile task whose
bins hold the triangle stores to its slot. -/
theorem zero_area_rejection_counterexample :
    (degenerateTriangle.X 0 = degenerateTriangle.X 1 ∧
      degenerateTriangle.Y 0 = degenerateTriangle.Y 1) ∧
    triArea degenerateTriangle = 0 ∧
    ∃ q ∈ traverse sampleConstants (tileOf sampleConstants 0) degenerateTriangle,
      ∃ l : Fin 4,
        (q.c + colOffset l = 0 ∧ q.r + rowOffset l = 0) ∧
        ¬ quadMask q l < 0 ∧ is_all_negative (quadMask q) = false ∧
        q.idx + (l.val : Int) ∈ taskStores sampleConstants degenerateBins 0 := by
  refine ⟨⟨by decide, by decide⟩, by decide, ?_⟩
  obtain ⟨q, hq, l, hpix, -, hmask, hnot, -, hst⟩ :=
    vertex_covered sampleConstants (tileOf sampleConstants 0) degenerateTriangle 0
      (by decide) (by decide) (by decide) (by decide) (by decide) (by decide) (by decide)
  refine ⟨q, hq, l, hpix, hmask, hnot, ?_⟩
  have hg : gatheredTriangles sampleConstants degenerateBins 0 = [degenerateTriangle] := by
    simp only [gatheredTriangles, gatheredEntries_eq sampleConstants degenerateBins 0
      (by decide)]
    rfl
  simp only [taskStores, hg, List.flatMap_cons, List.flatMap_nil, List.append_nil]
  exact hst

/-! ## Theorems: gather order and completeness -/

/-- Every group of the `while(!done)` loop holds at most `SSE` entries, and every group but
the last holds exactly `SSE`. -/
theorem gatherGroups_lengths (N : Nat) (nt : Nat → Nat) :
    ∀ (fuel : Nat) (s : GatherState) (allBinsEmpty : Bool),
      (N ≤ s.bin → s.numTrisInBin = 0) →
      (∀ g ∈ gatherGroups N nt fuel s allBinsEmpty, g.length ≤ SSE) ∧
      (∀ g ∈ (gatherGroups N nt fuel s allBinsEmpty).dropLast, g.length = SSE) := by
  intro fuel
  induction fuel with
  | zero => intro s a _; simp [gatherGroups]
  | succ fuel ih =>
    intro s a hinv
    rw [gatherGroups]
    obtain ⟨g1, g2, g3, g4⟩ := gatherLoop_spec N nt SSE s [] hinv
    generalize gatherLoop N nt SSE s [] = r at g1 g2 g3 g4
    rw [List.nil_append] at g1
    have hle : r.2.length ≤ SSE := by
      rw [g1, List.length_take]; exact Nat.min_le_left _ _
    by_cases he : (a && r.2.isEmpty) = true
    · rw [if_pos he]; simp
    · rw [if_neg he]
      by_cases hd : r.1.bin ≥ N
      · rw [if_pos hd]
        constructor
        · intro g hg
          rw [List.mem_singleton] at hg
          rw [hg]; exact hle
        · intro g hg
          simp at hg
      · rw [if_neg hd]
        have hlen : ¬ (pending N nt s).length < SSE := fun h => hd (g4 h)
        have hfull : r.2.length = SSE := by
          rw [g1, List.length_take]; omega
        obtain ⟨i1, i2⟩ := ih r.1 (a && r.2.isEmpty) g3
        constructor
        · intro g hg
          rcases List.mem_cons.1 hg with h | h
          · rw [h]; exact hle
          · exact i1 g h
        · intro g hg
          cases hrec : gatherGroups N nt fuel r.1 (a && r.2.isEmpty) with
          | nil => rw [hrec] at hg; simp at hg
          | cons x xs =>
            rw [hrec, List.dropLast_cons₂] at hg
            rcases List.mem_cons.1 hg with h | h
            · rw [h]; exact hfull
            · rw [hrec] at i2; exact i2 g h

theorem count_binEntries_map (n m : Nat) (e : BinEntry) :
    ((List.range m).map (fun binIndex => BinEntry.mk n binIndex)).count e =
      if e.bin = n ∧ e.binIndex < m then 1 else 0 := by
  have hnd : ((List.range m).map (fun binIndex => BinEntry.mk n binIndex)).Nodup := by
    apply List.Nodup.map _ (List.nodup_range m)
    intro a b h
    exact (BinEntry.mk.injEq _ _ _ _ ▸ h).2
  rw [List.count_eq_of_nodup hnd]
  congr 1
  apply propext
  simp only [List.mem_map, List.mem_range]
  constructor
  · rintro ⟨i, hi, rfl⟩; exact ⟨rfl, hi⟩
  · rintro ⟨h1, h2⟩; exact ⟨e.binIndex, h2, by cases e; simp only at h1; rw [h1]⟩

/-- Every entry of every bin occurs exactly once among the binned entries. -/
theorem count_binnedEntries (N : Nat) (nt : Nat → Nat) (e : BinEntry) :
    (binnedEntries N nt).count e = if e.bin < N ∧ e.binIndex < nt e.bin then 1 else 0 := by
  induction N with
  | zero => simp [binnedEntries]
  | succ n ih =>
    have : binnedEntries (n + 1) nt = binnedEntries n nt ++
        (List.range (nt n)).map (fun binIndex => BinEntry.mk n binIndex) := by
      simp only [binnedEntries, List.range_succ, List.flatMap_append, List.flatMap_cons,
        List.flatMap_nil, List.append_nil]
    rw [this, List.count_append, ih, count_binEntries_map]
    by_cases h1 : e.bin < n
    · have h2 : ¬ e.bin = n := by omega
      have h3 : e.bin < n + 1 := by omega
      simp only [h1, h2, h3, true_and, false_and, if_false, Nat.add_zero]
    · by_cases h2 : e.bin = n
      · have h3 : e.bin < n + 1 := by omega
        simp only [h1, h2, h3, true_and, false_and, if_false, Nat.zero_add]
        simp
      · have h3 : ¬ e.bin < n + 1 := by omega
        simp only [h1, h2, h3, false_and, if_false]

section GatherClaim

variable {K : Type} [LinearOrderedField K]

/-- The tile task rasterizes the binned triangles, in bin order, and nothing else. -/
theorem Rasterize_eq_foldl_binned (k : Constants) (bins : Bins K) (taskId : Nat)
    (hN : 1 ≤ k.NUM_XFORMVERTS_TASKS) (buf : Int → K) :
    RasterizeBinnedTrianglesToDepthBuffer k bins taskId buf =
      (binnedTriangles k bins taskId).foldl (rasterizeTriangle k (tileOf k taskId)) buf := by
  simp only [RasterizeBinnedTrianglesToDepthBuffer, binnedTriangles]
  rw [← gatheredEntries_eq k bins taskId hN, gatheredEntries, List.foldl_map, foldl_flatten_eq]

/-- C11. Gather order and completeness.  For every tile and every assignment of counts to its
producer bins (at least one bin), the sequence of entries `(bin, binIndex)` that the tile task
gathers is the concatenation, in bin order, of the entries `0 .. count[bin]-1` of each bin, so
that every binned triangle is gathered exactly once; every group holds at most four entries
and every group except the last holds exactly four; and the task rasterizes exactly the
gathered triangles in that order, the lanes of a group beyond `numSimdTris` contributing
nothing. -/
theorem gather_order_and_completeness (k : Constants) (bins : Bins K) (taskId : Nat)
    (hN : 1 ≤ k.NUM_XFORMVERTS_TASKS) :
    gatheredEntries k bins taskId =
      (List.range k.NUM_XFORMVERTS_TASKS).flatMap (fun bin =>
        (List.range (numTrisOf k bins taskId bin)).map (fun binIndex =>
          BinEntry.mk bin binIndex)) ∧
    (∀ e : BinEntry, (gatheredEntries k bins taskId).count e =
      if e.bin < k.NUM_XFORMVERTS_TASKS ∧ e.binIndex < numTrisOf k bins taskId e.bin
      then 1 else 0) ∧
    (∀ g ∈ gatheredGroups k bins taskId, g.length ≤ 4) ∧
    (∀ g ∈ (gatheredGroups k bins taskId).dropLast, g.length = 4) ∧
    (∀ pDepthBuffer : Int → K,
      RasterizeBinnedTrianglesToDepthBuffer k bins taskId pDepthBuffer =
        ((gatheredEntries k bins taskId).map (triangleOf k bins taskId)).foldl
          (rasterizeTriangle k (tileOf k taskId)) pDepthBuffer) := by
  have hlen := gatherGroups_lengths k.NUM_XFORMVERTS_TASKS (numTrisOf k bins taskId)
    (numTrisUpTo (numTrisOf k bins taskId) k.NUM_XFORMVERTS_TASKS + 2)
    (GatherState.mk 0 0 (numTrisOf k bins taskId 0)) true (by simp only; omega)
  refine ⟨?_, ?_, hlen.1, hlen.2, ?_⟩
  · rw [gatheredEntries_eq k bins taskId hN]; rfl
  · intro e
    rw [gatheredEntries_eq k bins taskId hN]
    exact count_binnedEntries _ _ e
  · intro buf
    rw [Rasterize_eq_foldl_binned k bins taskId hN, binnedTriangles,
      gatheredEntries_eq k bins taskId hN]

/-- Instance of C11: the bins `sampleBins` of tile 0. -/
theorem gather_order_and_completeness_witness :
    1 ≤ sampleConstants.NUM_XFORMVERTS_TASKS ∧
    gatheredEntries sampleConstants sampleBins 0 = [BinEntry.mk 0 0, BinEntry.mk 2 0] :=
  ⟨by decide, (gather_order_and_completeness sampleConstants sampleBins 0 (by decide)).1⟩

end GatherClaim
/-! ## Theorems: how much a task hands out -/

/-- One step of the surface loop on a surface without elements that is not skipped: the end
index wraps around to `2^32 - 1`, the budget is not touched. -/
theorem surfaceLoop_cons_empty (S : Nat) (rest : List Nat) (ss0 R rem : Nat)
    (hS : S < 2147483648) (hR : R < 2147483648) (hrem : 1 ≤ rem) (hrem2 : rem < 4294967296)
    (hskip : ¬ R < S) :
    surfaceLoop S (0 :: rest) ss0 R rem =
      SurfaceCall.mk ss0 0 4294967295 :: surfaceLoop S rest (ss0 + 1) R rem := by
  have hnew : toUINT ((R : Int) + (0 : Nat)) = R := by
    rw [toUINT_of_nonneg_lt (by omega) (by omega)]; omega
  have hst : toUINT (max 0 (wrapINT (toINT S - toINT R))) = 0 := by
    rw [thisSurfaceStartIndex_eq hS hR]; omega
  have h1 : toUINT (((0 : Nat) : Int) + rem) = rem := by
    rw [toUINT_of_nonneg_lt (by omega) (by omega)]; omega
  have hen : toUINT ((min rem 0 : Nat) - 1) = 4294967295 := by
    simp only [toUINT]; omega
  have h2 : toUINT (((4294967295 : Nat) : Int) + 1) = 0 := by
    simp only [toUINT]; omega
  have h3 : toUINT (((0 : Nat) : Int) - (0 : Nat)) = 0 := by
    simp only [toUINT]; omega
  have hrm : toUINT ((rem : Int) - (0 : Nat)) = rem := by
    rw [toUINT_of_nonneg_lt (by omega) (by omega)]; omega
  rw [surfaceLoop]
  simp only [hnew, if_neg hskip, hst, h1, hen, h2, h3, hrm]
  rw [if_neg (by omega)]

theorem handedOut_cons (c : SurfaceCall) (cs : List SurfaceCall) :
    handedOut (c :: cs) = c.size + handedOut cs := by
  simp [handedOut]

/-- What the surface loop hands out: the part of the task's global range that lies in the
remaining surfaces, plus `2^32` for every surface without elements it passes to a model. -/
theorem handedOut_surfaceLoop (S hi : Nat) (hhi : hi ≤ 2147483648) :
    ∀ (L : List Nat) (ss0 R rem : Nat),
      R + L.sum < 2147483648 → 1 ≤ rem → rem + max R S = hi →
      ∃ z : Nat, handedOut (surfaceLoop S L ss0 R rem) =
          (min hi (R + L.sum) - max R S) + 4294967296 * z ∧
        ((∀ c ∈ L, 1 ≤ c) → z = 0) := by
  intro L
  induction L with
  | nil =>
    intro ss0 R rem _ _ hinv
    refine ⟨0, ?_, fun _ => rfl⟩
    simp only [surfaceLoop, handedOut, List.map_nil, List.sum_nil, Nat.add_zero, Nat.mul_zero]
    omega
  | cons cnt rest ih =>
    intro ss0 R rem hsum hrem hinv
    simp only [List.sum_cons] at hsum ⊢
    by_cases hskip : R + cnt < S
    · rw [surfaceLoop_cons_skip S cnt rest ss0 R rem (by omega) hskip]
      obtain ⟨z, hz, hz0⟩ := ih (ss0 + 1) (R + cnt) rem (by omega) hrem (by omega)
      refine ⟨z, ?_, fun h => hz0 (fun c hc => h c (List.mem_cons_of_mem _ hc))⟩
      rw [hz]
      have e1 : max (R + cnt) S = max R S := by omega
      rw [e1, Nat.add_assoc]
    · rcases Nat.eq_zero_or_pos cnt with h0 | hpos
      · subst h0
        rw [surfaceLoop_cons_empty S rest ss0 R rem (by omega) (by omega) hrem (by omega)
          (by omega), handedOut_cons]
        obtain ⟨z, hz, -⟩ := ih (ss0 + 1) R rem (by omega) hrem hinv
        refine ⟨z + 1, ?_, fun h => absurd (h 0 (List.mem_cons_self _ _)) (by omega)⟩
        rw [hz]
        simp only [SurfaceCall.size, Nat.zero_add]
        omega
      · rw [surfaceLoop_cons_process S hi hhi cnt rest ss0 R rem hpos (by omega) hrem hinv
          hskip, handedOut_cons]
        by_cases hb : hi ≤ R + cnt
        · rw [if_pos hb]
          refine ⟨0, ?_, fun _ => rfl⟩
          simp only [SurfaceCall.size, handedOut, List.map_nil, List.sum_nil]
          omega
        · rw [if_neg hb]
          obtain ⟨z, hz, hz0⟩ := ih (ss0 + 1) (R + cnt) (hi - (R + cnt)) (by omega)
            (by omega) (by omega)
          refine ⟨z, ?_, fun h => hz0 (fun c hc => h c (List.mem_cons_of_mem _ hc))⟩
          rw [hz]
          simp only [SurfaceCall.size]
          omega

/-- With no budget at all (no element in the scene) the loop stops after the first model. -/
theorem surfaceLoop_no_budget (cnt : Nat) (rest : List Nat) (ss0 : Nat)
    (hcnt : cnt < 2147483648) :
    surfaceLoop 0 (cnt :: rest) ss0 0 0 = [SurfaceCall.mk ss0 0 4294967295] := by
  have hnew : toUINT (((0 : Nat) : Int) + cnt) = cnt := by
    rw [toUINT_of_nonneg_lt (by omega) (by omega)]; omega
  have hst : toUINT (max 0 (wrapINT (toINT 0 - toINT 0))) = 0 := by
    simp [toUINT, toINT, wrapINT]
  have h1 : toUINT (((0 : Nat) : Int) + (0 : Nat)) = 0 := by
    simp [toUINT]
  have hen : toUINT ((min 0 cnt : Nat) - 1) = 4294967295 := by
    simp only [toUINT]; omega
  have h2 : toUINT (((4294967295 : Nat) : Int) + 1) = 0 := by
    simp only [toUINT]; omega
  have h3 : toUINT (((0 : Nat) : Int) - (0 : Nat)) = 0 := by
    simp only [toUINT]; omega
  rw [surfaceLoop]
  simp only [hnew, hst, h1, hen, h2, h3]
  rw [if_neg (by omega), if_pos (by omega)]

/-- What a task of the partition with budget `c` hands out when its global range
`[taskId * c, (taskId + 1) * c)` ends at or before the total `N`: the budget `c`, plus `2^32`
for every model without elements that it passes. -/
theorem handedOut_task (counts : List Nat) (c taskId : Nat)
    (hsum : counts.sum < 2147483648) (hend : (taskId + 1) * c ≤ counts.sum) :
    ∃ z : Nat, handedOut (surfaceLoop (toUINT ((taskId : Int) * c)) counts 0 0 c) =
        c + 4294967296 * z ∧ (1 ≤ c → (∀ n ∈ counts, 1 ≤ n) → z = 0) := by
  have hexp : (taskId + 1) * c = taskId * c + c := by ring
  have hS : toUINT ((taskId : Int) * c) = taskId * c := by
    have : (taskId : Int) * c = ((taskId * c : Nat) : Int) := by push_cast; rfl
    rw [this]
    apply toUINT_natCast
    omega
  rw [hS]
  rcases Nat.eq_zero_or_pos c with h0 | hc
  · subst h0
    rw [Nat.mul_zero]
    cases counts with
    | nil => exact ⟨0, rfl, fun _ _ => rfl⟩
    | cons cnt rest =>
      simp only [List.sum_cons] at hsum
      rw [surfaceLoop_no_budget cnt rest 0 (by omega)]
      exact ⟨1, rfl, fun h => absurd h (by omega)⟩
  · obtain ⟨z, hz, hz0⟩ := handedOut_surfaceLoop (taskId * c) ((taskId + 1) * c) (by omega)
      counts 0 0 c (by omega) hc (by omega)
    refine ⟨z, ?_, fun _ => hz0⟩
    rw [hz]
    omega

/-- The elements counted by `SurfaceCall.elements` are the elements the call covers. -/
theorem elements_eq_countP (c : SurfaceCall) : ∀ n : Nat,
    (List.range n).countP (fun v => c.covers c.ss v) = c.elements n := by
  intro n
  induction n with
  | zero => simp [SurfaceCall.elements]
  | succ n ih =>
    rw [List.range_succ, List.countP_append, ih]
    simp only [SurfaceCall.elements, SurfaceCall.covers, List.countP_cons, List.countP_nil,
      beq_self_eq_true, Bool.true_and, Bool.and_eq_true, decide_eq_true_eq]
    split <;> omega

theorem handedElements_cons (counts : List Nat) (c : SurfaceCall) (cs : List SurfaceCall) :
    handedElements counts (c :: cs) = c.elements (counts.getD c.ss 0) + handedElements counts cs := by
  simp [handedElements]

/-- The elements the surface loop hands out: the part of the task's global range
`[max R S, hi)` that lies in the remaining surfaces.  Surfaces without elements receive a
range but no element. -/
theorem handedElements_surfaceLoop (S hi : Nat) (hhi : hi ≤ 2147483648) (counts : List Nat) :
    ∀ (L : List Nat) (ss0 R rem : Nat),
      (∀ j, counts.getD (ss0 + j) 0 = L.getD j 0) →
      R + L.sum < 2147483648 → 1 ≤ rem → rem + max R S = hi →
      handedElements counts (surfaceLoop S L ss0 R rem) = min hi (R + L.sum) - max R S := by
  intro L
  induction L with
  | nil =>
    intro ss0 R rem _ _ _ hinv
    simp only [surfaceLoop, handedElements, List.map_nil, List.sum_nil, Nat.add_zero]
    omega
  | cons cnt rest ih =>
    intro ss0 R rem hcounts hsum hrem hinv
    have hhead : counts.getD ss0 0 = cnt := by
      have := hcounts 0
      simpa using this
    have htail : ∀ j, counts.getD (ss0 + 1 + j) 0 = rest.getD j 0 := by
      intro j
      have := hcounts (j + 1)
      rw [List.getD_cons_succ] at this
      rw [← this]
      congr 1
      omega
    simp only [List.sum_cons] at hsum ⊢
    by_cases hskip : R + cnt < S
    · rw [surfaceLoop_cons_skip S cnt rest ss0 R rem (by omega) hskip,
        ih (ss0 + 1) (R + cnt) rem htail (by omega) hrem (by omega)]
      omega
    · rcases Nat.eq_zero_or_pos cnt with h0 | hpos
      · subst h0
        rw [surfaceLoop_cons_empty S rest ss0 R rem (by omega) (by omega) hrem (by omega)
          (by omega), handedElements_cons, ih (ss0 + 1) R rem htail (by omega) hrem hinv]
        simp only [SurfaceCall.elements, hhead]
        omega
      · rw [surfaceLoop_cons_process S hi hhi cnt rest ss0 R rem hpos (by omega) hrem hinv
          hskip, handedElements_cons]
        simp only [SurfaceCall.elements, hhead]
        by_cases hb : hi ≤ R + cnt
        · rw [if_pos hb]
          simp only [handedElements, List.map_nil, List.sum_nil]
          omega
        · rw [if_neg hb, ih (ss0 + 1) (R + cnt) (hi - (R + cnt)) htail (by omega)
            (by omega) (by omega)]
          omega

/-- The elements a task of the partition with budget `c` hands out: the part of its global
range `[taskId * c, (taskId + 1) * c)` below the total. -/
theorem handedElements_task (counts : List Nat) (c taskId : Nat)
    (hc : 1 ≤ c ∨ counts.sum = 0) (hsum : counts.sum < 2147483648)
    (hhi : (taskId + 1) * c ≤ 2147483648) :
    handedElements counts (surfaceLoop (toUINT ((taskId : Int) * c)) counts 0 0 c) =
      min ((taskId + 1) * c) counts.sum - taskId * c := by
  have hexp : (taskId + 1) * c = taskId * c + c := by ring
  have hS : toUINT ((taskId : Int) * c) = taskId * c := by
    have : (taskId : Int) * c = ((taskId * c : Nat) : Int) := by push_cast; rfl
    rw [this]
    apply toUINT_natCast
    omega
  rw [hS]
  rcases Nat.eq_zero_or_pos c with h0 | hc1
  · subst h0
    have hz : counts.sum = 0 := by omega
    rw [Nat.mul_zero]
    cases counts with
    | nil => simp [surfaceLoop, handedElements]
    | cons cnt rest =>
      simp only [List.sum_cons] at hz
      rw [surfaceLoop_no_budget cnt rest 0 (by omega)]
      simp only [handedElements, List.map_cons, List.map_nil, List.sum_cons, List.sum_nil,
        SurfaceCall.elements, List.getD_cons_zero]
      omega
  · rw [handedElements_surfaceLoop (taskId * c) ((taskId + 1) * c) hhi counts counts 0 0 c
      (fun j => by rw [Nat.zero_add]) (by omega) hc1 (by omega)]
    omega

/-- The code's `trianglesPerTask` is a multiple of 4 whatever the counts: the reduction modulo
`2^32` keeps multiples of 4. -/
theorem trianglesPerTask_mod_four (N P : Nat) : trianglesPerTask N P % 4 = 0 := by
  simp only [trianglesPerTask, SSE]
  generalize toUINT ((N : Int) + P - 1) / P = q
  simp only [toUINT]
  split <;> omega

/-- The code's `trianglesPerTask` is at least `ceil(N/P)` as long as the sum
`mNumTriangles1 + taskCount - 1` and the rounding up to a multiple of 4 stay below `2^32`. -/
theorem trianglesPerTask_ge_ceil (N P : Nat) (hP : 1 ≤ P) (hfit : N + P + 3 ≤ 4294967296) :
    (N + P - 1) / P ≤ trianglesPerTask N P := by
  have h1 : toUINT ((N : Int) + P - 1) = N + P - 1 := by
    rw [toUINT_of_nonneg_lt (by omega) (by omega)]; omega
  have hq : (N + P - 1) / P ≤ N := by
    rcases Nat.eq_zero_or_pos N with h0 | hpos
    · subst h0
      have : (0 + P - 1) / P = 0 := Nat.div_eq_of_lt (by omega)
      omega
    · apply Nat.div_le_of_le_mul
      have h2 : P - 1 ≤ (P - 1) * N := Nat.le_mul_of_pos_right _ hpos
      have h3 : P * N = (P - 1) * N + N := by
        have hP' : P = (P - 1) + 1 := by omega
        conv_lhs => rw [hP']
        ring
      omega
  simp only [trianglesPerTask, h1, SSE]
  generalize (N + P - 1) / P = q at *
  rw [toUINT_of_nonneg_lt (by split <;> omega) (by split <;> omega)]
  split <;> omega

/-- C14 (as amended). Binner range alignment.  For every list of models with `N` triangles in
total, every task count `P >= 1` and every `taskId`: `trianglesPerTask` is a multiple of 4 and
the task's global start index `taskId * trianglesPerTask` is a multiple of 4; when
`N + P + 3 <= 2^32`, `trianglesPerTask` is at least `ceil(N/P)`; and when `N + 4*P <= 2^31`
and the task's range ends at or before the end of the global triangle list, the number of
triangles in the sub-ranges it hands to the models is `trianglesPerTask`, a multiple of 4.
The number of indices in these sub-ranges is then a multiple of 4 as well, and is
`trianglesPerTask` when no model is empty. -/
theorem binner_range_alignment (numTriangles : List Nat) (taskCount taskId : Nat)
    (hP : 1 ≤ taskCount) :
    trianglesPerTask numTriangles.sum taskCount % 4 = 0 ∧
    toUINT ((taskId : Int) * trianglesPerTask numTriangles.sum taskCount) % 4 = 0 ∧
    (numTriangles.sum + taskCount + 3 ≤ 4294967296 →
      (numTriangles.sum + taskCount - 1) / taskCount ≤
        trianglesPerTask numTriangles.sum taskCount) ∧
    (numTriangles.sum + 4 * taskCount ≤ 2147483648 →
      (taskId + 1) * trianglesPerTask numTriangles.sum taskCount ≤ numTriangles.sum →
      handedElements numTriangles
          (BinTransformedMeshes numTriangles.sum numTriangles taskId taskCount) =
        trianglesPerTask numTriangles.sum taskCount ∧
      handedElements numTriangles
          (BinTransformedMeshes numTriangles.sum numTriangles taskId taskCount) % 4 = 0 ∧
      handedOut (BinTransformedMeshes numTriangles.sum numTriangles taskId taskCount) % 4 = 0 ∧
      ((∀ n ∈ numTriangles, 1 ≤ n) →
        handedOut (BinTransformedMeshes numTriangles.sum numTriangles taskId taskCount) =
          trianglesPerTask numTriangles.sum taskCount)) := by
  have hb3 := trianglesPerTask_mod_four numTriangles.sum taskCount
  refine ⟨hb3, ?_, fun h => trianglesPerTask_ge_ceil _ _ hP h, ?_⟩
  · obtain ⟨m, hm⟩ : ∃ m, trianglesPerTask numTriangles.sum taskCount = 4 * m :=
      ⟨trianglesPerTask numTriangles.sum taskCount / 4, by omega⟩
    rw [hm]
    have : (taskId : Int) * ((4 * m : Nat) : Int) = 4 * ((taskId : Int) * m) := by
      push_cast; ring
    rw [this]
    simp only [toUINT]
    omega
  · intro hfit hend
    obtain ⟨hb1, hb2, -⟩ := trianglesPerTask_bounds numTriangles.sum taskCount hP (by omega)
    have hexp : (taskId + 1) * trianglesPerTask numTriangles.sum taskCount =
        taskId * trianglesPerTask numTriangles.sum taskCount +
          trianglesPerTask numTriangles.sum taskCount := by ring
    have hc : 1 ≤ trianglesPerTask numTriangles.sum taskCount ∨ numTriangles.sum = 0 := by
      rcases Nat.eq_zero_or_pos numTriangles.sum with h | h
      · exact Or.inr h
      · have := ceil_pos _ _ hP h
        exact Or.inl (by omega)
    have hel : handedElements numTriangles
        (BinTransformedMeshes numTriangles.sum numTriangles taskId taskCount) =
        trianglesPerTask numTriangles.sum taskCount := by
      simp only [BinTransformedMeshes]
      rw [handedElements_task numTriangles _ taskId hc (by omega) (by omega)]
      omega
    obtain ⟨z, hz, hz0⟩ := handedOut_task numTriangles
      (trianglesPerTask numTriangles.sum taskCount) taskId (by omega) hend
    refine ⟨hel, by rw [hel]; exact hb3, ?_, ?_⟩
    · simp only [BinTransformedMeshes]
      rw [hz]
      omega
    · intro hpos
      simp only [BinTransformedMeshes]
      rw [hz]
      by_cases hne : numTriangles = []
      · subst hne
        simp only [List.sum_nil] at hend hb2 hexp ⊢
        simp only [surfaceLoop, handedOut, List.map_nil, List.sum_nil] at hz
        omega
      · have hN : 1 ≤ numTriangles.sum := sum_pos_of_ne_nil _ hpos hne
        have hcp := ceil_pos _ _ hP hN
        rw [hz0 (by omega) hpos]
        omega

/-- Instance of C14 (as amended): three models with 2, 1 and 10 triangles, two tasks, task 0,
which hands out its budget of 8 triangles. -/
theorem binner_range_alignment_witness :
    1 ≤ 2 ∧
    trianglesPerTask ([2, 1, 10] : List Nat).sum 2 = 8 ∧
    trianglesPerTask ([2, 1, 10] : List Nat).sum 2 % 4 = 0 ∧
    handedElements [2, 1, 10] (BinTransformedMeshes ([2, 1, 10] : List Nat).sum [2, 1, 10] 0 2)
      = trianglesPerTask ([2, 1, 10] : List Nat).sum 2 :=
  ⟨by decide, by decide,
    (binner_range_alignment [2, 1, 10] 2 0 (by decide)).1,
    ((binner_range_alignment [2, 1, 10] 2 0 (by decide)).2.2.2 (by decide) (by decide)).1⟩

/-- C14, counterexample to the claim as written (no bound on the triangle count).  With
4294967295 triangles in one model and two tasks, `mNumTriangles1 + taskCount - 1` wraps to 0
and `trianglesPerTask` is 0, below `ceil(N/P) = 2147483648`; task 0, whose range `[0, 0)`
ends before the end of the triangle list, hands the model the range `[0, 4294967295]` and so
hands out all 4294967295 triangles, not a multiple of 4.  Just above `2^31`, the bound of the
amended count is needed as well: with models of 2147483649 and 3 triangles and one task, whose
range is `[0, 2147483652)`, the second model is handed the empty range `[2147483647, 2]` and
the task hands out 2147483649 triangles, not `trianglesPerTask = 2147483652`. -/
theorem binner_range_alignment_counterexample :
    (1 ≤ 2 ∧ trianglesPerTask 4294967295 2 = 0 ∧ (4294967295 + 2 - 1) / 2 = 2147483648 ∧
      ¬ (4294967295 + 2 - 1) / 2 ≤ trianglesPerTask 4294967295 2) ∧
    ((0 + 1) * trianglesPerTask 4294967295 2 < 4294967295 ∧
      BinTransformedMeshes 4294967295 [4294967295] 0 2 = [SurfaceCall.mk 0 0 4294967295] ∧
      handedElements [4294967295] (BinTransformedMeshes 4294967295 [4294967295] 0 2)
        = 4294967295 ∧
      4294967295 % 4 = 3) ∧
    (([2147483649, 3] : List Nat).sum = 2147483652 ∧
      trianglesPerTask 2147483652 1 = 2147483652 ∧
      (0 + 1) * trianglesPerTask 2147483652 1 ≤ 2147483652 ∧
      BinTransformedMeshes 2147483652 [2147483649, 3] 0 1 =
        [SurfaceCall.mk 0 0 2147483648, SurfaceCall.mk 1 2147483647 2] ∧
      handedElements [2147483649, 3] (BinTransformedMeshes 2147483652 [2147483649, 3] 0 1)
        = 2147483649 ∧
      handedOut (BinTransformedMeshes 2147483652 [2147483649, 3] 0 1) = 2147483649) := by
  decide

/-- The range an empty model receives.  With an empty model followed by a model of three
vertices and a single task, `TransformMeshes(0, 1)` hands the empty model the inclusive range
`[0, 4294967295]` (the unsigned `min(..) - 1` wraps around), which holds none of its vertices,
before it hands the second model its three vertices. -/
theorem TransformMeshes_empty_model_range :
    TransformMeshes 3 [0, 3] 0 1 = [SurfaceCall.mk 0 0 4294967295, SurfaceCall.mk 1 0 2] ∧
    handedOut (TransformMeshes 3 [0, 3] 0 1) = 4294967299 ∧
    handedElements [0, 3] (TransformMeshes 3 [0, 3] 0 1) = 3 := by
  decide

/-- C17 (as amended). Load balance.  For every list of models with `N` vertices in total (models without
vertices included), every task count `P >= 1` with `N + P <= 2^31` and every `taskId < P`,
the total number of vertices in the sub-ranges `TransformMeshes(taskId, P)` hands out is at
most `ceil(N/P)`, and equals `ceil(N/P)` for every task whose global range ends at or before
`N`.  When no model is empty this is also the number of indices in the sub-ranges. -/
theorem TransformMeshes_load_balance (numVertices : List Nat) (taskCount taskId : Nat)
    (hP : 1 ≤ taskCount) (ht : taskId < taskCount)
    (hfit : numVertices.sum + taskCount ≤ 2147483648) :
    handedElements numVertices (TransformMeshes numVertices.sum numVertices taskId taskCount) ≤
      (numVertices.sum + taskCount - 1) / taskCount ∧
    ((taskId + 1) * ((numVertices.sum + taskCount - 1) / taskCount) ≤ numVertices.sum →
      handedElements numVertices
          (TransformMeshes numVertices.sum numVertices taskId taskCount) =
        (numVertices.sum + taskCount - 1) / taskCount) ∧
    ((∀ n ∈ numVertices, 1 ≤ n) →
      handedOut (TransformMeshes numVertices.sum numVertices taskId taskCount) =
        handedElements numVertices
          (TransformMeshes numVertices.sum numVertices taskId taskCount)) := by
  have hceil := verticesPerTask_eq_ceil numVertices.sum taskCount hP (by omega)
  have h1 := ceil_mul_lt numVertices.sum taskCount hP
  have h2 : (taskId + 1) * ((numVertices.sum + taskCount - 1) / taskCount) ≤
      (numVertices.sum + taskCount - 1) / taskCount * taskCount := by
    rw [Nat.mul_comm]
    exact Nat.mul_le_mul_left _ ht
  have hexp : (taskId + 1) * ((numVertices.sum + taskCount - 1) / taskCount) =
      taskId * ((numVertices.sum + taskCount - 1) / taskCount) +
        (numVertices.sum + taskCount - 1) / taskCount := by ring
  have hc : 1 ≤ (numVertices.sum + taskCount - 1) / taskCount ∨ numVertices.sum = 0 := by
    rcases Nat.eq_zero_or_pos numVertices.sum with h | h
    · exact Or.inr h
    · exact Or.inl (ceil_pos _ _ hP h)
  have hel : handedElements numVertices
      (TransformMeshes numVertices.sum numVertices taskId taskCount) =
      min ((taskId + 1) * ((numVertices.sum + taskCount - 1) / taskCount)) numVertices.sum -
        taskId * ((numVertices.sum + taskCount - 1) / taskCount) := by
    simp only [TransformMeshes, hceil]
    exact handedElements_task numVertices _ taskId hc (by omega) (by omega)
  refine ⟨by rw [hel]; omega, fun hend => by rw [hel]; omega, ?_⟩
  intro hpos
  rw [hel]
  simp only [TransformMeshes, hceil]
  by_cases hne : numVertices = []
  · subst hne
    simp [surfaceLoop, handedOut]
  have hN : 1 ≤ numVertices.sum := sum_pos_of_ne_nil _ hpos hne
  have hcp := ceil_pos _ _ hP hN
  have hS : toUINT ((taskId : Int) * ((numVertices.sum + taskCount - 1) / taskCount : Nat)) =
      taskId * ((numVertices.sum + taskCount - 1) / taskCount) := by
    have : (taskId : Int) * ((numVertices.sum + taskCount - 1) / taskCount : Nat) =
        ((taskId * ((numVertices.sum + taskCount - 1) / taskCount) : Nat) : Int) := by
      push_cast; rfl
    rw [this]
    apply toUINT_natCast
    omega
  rw [hS]
  obtain ⟨z, hz, hz0⟩ := handedOut_surfaceLoop
    (taskId * ((numVertices.sum + taskCount - 1) / taskCount))
    ((taskId + 1) * ((numVertices.sum + taskCount - 1) / taskCount)) (by omega)
    numVertices 0 0 ((numVertices.sum + taskCount - 1) / taskCount) (by omega) hcp (by omega)
  rw [hz, hz0 hpos]
  omega

/-- Instance of C17: models with 0, 3 and 4 vertices, two tasks of budget 4; task 0 gets the
three vertices of model 1 and one of model 2. -/
theorem TransformMeshes_load_balance_witness :
    (1 ≤ 2 ∧ 0 < 2 ∧ ([0, 3, 4] : List Nat).sum + 2 ≤ 2147483648) ∧
    handedElements [0, 3, 4] (TransformMeshes ([0, 3, 4] : List Nat).sum [0, 3, 4] 0 2) ≤
      (([0, 3, 4] : List Nat).sum + 2 - 1) / 2 :=
  ⟨⟨by decide, by decide, by decide⟩,
    (TransformMeshes_load_balance [0, 3, 4] 2 0 (by decide) (by decide) (by decide)).1⟩

/-- C17, counterexample to the claim as written (no bound on the vertex count).  Models of
2147483658 and 5 vertices and one task, whose range `[0, N)` ends at `N = 2147483663`:
`(int)runningVertexCount` is negative at the second model, which is handed the empty range
`[2147483638, 4]`; the task hands out 2147483658 vertices, fewer than `ceil(N/P) = N`. -/
theorem TransformMeshes_load_balance_counterexample :
    (1 ≤ 1 ∧ 0 < 1 ∧ ([2147483658, 5] : List Nat).sum = 2147483663) ∧
    (2147483663 + 1 - 1) / 1 = 2147483663 ∧ (0 + 1) * 2147483663 ≤ 2147483663 ∧
    TransformMeshes 2147483663 [2147483658, 5] 0 1 =
      [SurfaceCall.mk 0 0 2147483657, SurfaceCall.mk 1 2147483638 4] ∧
    handedElements [2147483658, 5] (TransformMeshes 2147483663 [2147483658, 5] 0 1)
      = 2147483658 ∧
    handedOut (TransformMeshes 2147483663 [2147483658, 5] 0 1) = 2147483658 := by
  decide
/-! ## Theorems: edge values of the visited quads -/

/-- The code's area is the exact area reduced modulo `2^32`. -/
theorem triArea_eq_wrap {K : Type} (t : Triangle K) : triArea t = wrapINT (areaExact t) := by
  simp only [triArea]
  apply wrapINT_eq_of_cast_eq
  simp only [A1, A2, B1, B2, areaExact]
  push_cast [wrapINT_cast]
  ring

/-- The three edge values of a lane of a visited quad are the exact edge functions at the
pixel of the lane, reduced modulo `2^32`. -/
theorem lane_eq_wrap {K : Type} (k : Constants) (tile : Tile) (t : Triangle K) (q : Quad)
    (h : q ∈ traverse k tile t) (l : Fin 4) :
    q.alpha l = wrapINT (edgeExact t 0 (q.c + colOffset l) (q.r + rowOffset l)) ∧
    q.beta l = wrapINT (edgeExact t 1 (q.c + colOffset l) (q.r + rowOffset l)) ∧
    q.gama l = wrapINT (edgeExact t 2 (q.c + colOffset l) (q.r + rowOffset l)) := by
  obtain ⟨-, -, -, -, ha, hb, hg⟩ := traverse_mem k tile t q h
  obtain ⟨ra, rb, rg⟩ := traverse_range k tile t q h
  refine ⟨?_, ?_, ?_⟩
  · apply eq_of_cast_eq (ra l) (wrapINT_range _)
    rw [ha l, wrapINT_cast]
    simp only [A0, B0, C0, edgeExact, Matrix.cons_val_zero]
    push_cast [wrapINT_cast]
    ring
  · apply eq_of_cast_eq (rb l) (wrapINT_range _)
    rw [hb l, wrapINT_cast]
    simp only [A1, B1, C1, edgeExact, Matrix.cons_val_one, Matrix.head_cons]
    push_cast [wrapINT_cast]
    ring
  · apply eq_of_cast_eq (rg l) (wrapINT_range _)
    rw [hg l, wrapINT_cast]
    simp only [A2, B2, C2, edgeExact, Matrix.cons_val_two, Matrix.tail_cons, Matrix.head_cons]
    push_cast [wrapINT_cast]
    ring

theorem edgeExact_sum {K : Type} (t : Triangle K) (x y : Int) :
    edgeExact t 0 x y + edgeExact t 1 x y + edgeExact t 2 x y = areaExact t := by
  simp only [edgeExact, areaExact, Matrix.cons_val_zero, Matrix.cons_val_one,
    Matrix.cons_val_two, Matrix.tail_cons, Matrix.head_cons]
  ring

/-- Without overflow the edge values of a lane are the exact edge functions. -/
theorem lane_eq_exact {K : Type} (k : Constants) (tile : Tile) (t : Triangle K) (q : Quad)
    (h : q ∈ traverse k tile t) (l : Fin 4)
    (hfit : ∀ e : Fin 3, fits32 (edgeExact t e (q.c + colOffset l) (q.r + rowOffset l))) :
    q.alpha l = edgeExact t 0 (q.c + colOffset l) (q.r + rowOffset l) ∧
    q.beta l = edgeExact t 1 (q.c + colOffset l) (q.r + rowOffset l) ∧
    q.gama l = edgeExact t 2 (q.c + colOffset l) (q.r + rowOffset l) := by
  obtain ⟨ha, hb, hg⟩ := lane_eq_wrap k tile t q h l
  rw [ha, hb, hg]
  exact ⟨wrapINT_of_range (hfit 0).1 (hfit 0).2, wrapINT_of_range (hfit 1).1 (hfit 1).2,
    wrapINT_of_range (hfit 2).1 (hfit 2).2⟩

/-- C18. Incremental edge evaluation is exact.  For every triangle and every quad visited at
`(c, r)`, lane `l` of `alpha`, `beta` and `gama` equals
`A_e*(c + colOffset[l]) + B_e*(r + rowOffset[l]) + C_e` for edge `e = 0, 1, 2` respectively,
as 32-bit integers modulo `2^32`: the stepping by `shiftl<1>(A)` per two columns and
`shiftl<1>(B)` per two rows agrees with direct evaluation of the edge function. -/
theorem incremental_edge_evaluation_exact {K : Type} (k : Constants) (tile : Tile)
    (t : Triangle K) (q : Quad) (l : Fin 4) :
    q ∈ traverse k tile t →
      q.alpha l = directEdge (A0 t) (B0 t) (C0 t) q.c q.r l ∧
      q.beta l = directEdge (A1 t) (B1 t) (C1 t) q.c q.r l ∧
      q.gama l = directEdge (A2 t) (B2 t) (C2 t) q.c q.r l := by
  intro h
  obtain ⟨-, -, -, -, ha, hb, hg⟩ := traverse_mem k tile t q h
  obtain ⟨ra, rb, rg⟩ := traverse_range k tile t q h
  refine ⟨?_, ?_, ?_⟩
  · apply eq_of_cast_eq (ra l) (wrapINT_range _)
    rw [ha l, wrapINT_cast]
    push_cast
    ring
  · apply eq_of_cast_eq (rb l) (wrapINT_range _)
    rw [hb l, wrapINT_cast]
    push_cast
    ring
  · apply eq_of_cast_eq (rg l) (wrapINT_range _)
    rw [hg l, wrapINT_cast]
    push_cast
    ring

/-- Instance of C18: lane 3 of the quad at the second row and second column of quads visited
for `sampleTriangle` in tile 0. -/
theorem incremental_edge_evaluation_exact_witness :
    ∃ q ∈ traverse sampleConstants (tileOf sampleConstants 0) sampleTriangle,
      q.r = 2 ∧ q.c = 2 ∧
      q.alpha 3 = directEdge (A0 sampleTriangle) (B0 sampleTriangle) (C0 sampleTriangle)
        q.c q.r 3 ∧
      q.beta 3 = directEdge (A1 sampleTriangle) (B1 sampleTriangle) (C1 sampleTriangle)
        q.c q.r 3 ∧
      q.gama 3 = directEdge (A2 sampleTriangle) (B2 sampleTriangle) (C2 sampleTriangle)
        q.c q.r 3 := by
  have hy : startY (tileOf sampleConstants 0) sampleTriangle + 2 * (1 : Nat) <
      endY (tileOf sampleConstants 0) sampleTriangle := by
    simp only [startY, endY, land_neg_two]
    decide
  have hx : startX (tileOf sampleConstants 0) sampleTriangle + 2 * (1 : Nat) <
      endX (tileOf sampleConstants 0) sampleTriangle := by
    simp only [startX, endX, land_neg_two]
    decide
  have sy : startY (tileOf sampleConstants 0) sampleTriangle = 0 := by
    simp only [startY, land_neg_two]
    decide
  have sx : startX (tileOf sampleConstants 0) sampleTriangle = 0 := by
    simp only [startX, land_neg_two]
    decide
  obtain ⟨q, hq, hr, hc⟩ := traverse_complete sampleConstants (tileOf sampleConstants 0)
    sampleTriangle 1 1 hy hx
  rw [sy] at hr
  rw [sx] at hc
  exact ⟨q, hq, hr, hc, incremental_edge_evaluation_exact sampleConstants
    (tileOf sampleConstants 0) sampleTriangle q 3 hq⟩

/-- C19. Negative-area rejection.  For every triangle whose fixed-point area
`triArea = B2*A1 - B1*A2` is negative, the edge values not overflowing 32 bits: at every pixel
of every visited quad `alpha + beta + gama = triArea`, so at least one edge value is negative
in every lane, every quad is skipped, nothing is stored, and the rasterizer leaves the depth
buffer unchanged. -/
theorem negative_area_rejection {K : Type} [LinearOrderedField K] (k : Constants) (tile : Tile)
    (t : Triangle K) (harea : triArea t < 0) (hfit : EdgesFit k tile t) :
    (∀ q ∈ traverse k tile t, ∀ l : Fin 4,
      q.alpha l + q.beta l + q.gama l = triArea t ∧
      (q.alpha l < 0 ∨ q.beta l < 0 ∨ q.gama l < 0)) ∧
    (∀ q ∈ traverse k tile t, is_all_negative (quadMask q) = true) ∧
    triangleStores k tile t = [] ∧
    (∀ pDepthBuffer : Int → K, rasterizeTriangle k tile pDepthBuffer t = pDepthBuffer) := by
  have hsum : ∀ q ∈ traverse k tile t, ∀ l : Fin 4,
      q.alpha l + q.beta l + q.gama l = triArea t := by
    intro q hq l
    obtain ⟨ha, hb, hg⟩ := lane_eq_exact k tile t q hq l (hfit.2 q hq l)
    rw [ha, hb, hg, edgeExact_sum, triArea_eq_wrap, wrapINT_of_range hfit.1.1 hfit.1.2]
  have hneg : ∀ q ∈ traverse k tile t, ∀ l : Fin 4,
      q.alpha l < 0 ∨ q.beta l < 0 ∨ q.gama l < 0 := by
    intro q hq l
    have := hsum q hq l
    omega
  have hskip : ∀ q ∈ traverse k tile t, is_all_negative (quadMask q) = true := by
    intro q hq
    rw [is_all_negative_iff]
    intro l
    exact (quadMask_neg_iff q l).2 (hneg q hq l)
  refine ⟨fun q hq l => ⟨hsum q hq l, hneg q hq l⟩, hskip, ?_, ?_⟩
  · simp only [triangleStores, List.flatMap_eq_nil_iff]
    intro q hq
    simp only [quadStores, hskip q hq, if_true]
  · intro buf
    simp only [rasterizeTriangle]
    have hgen : ∀ (L : List Quad), (∀ q ∈ L, is_all_negative (quadMask q) = true) →
        ∀ b : Int → K, L.foldl (quadStep (zPlane t)) b = b := by
      intro L
      induction L with
      | nil => intro _ b; rfl
      | cons q L ih =>
        intro hL b
        rw [List.foldl_cons]
        have hq : quadStep (zPlane t) b q = b := by
          simp only [quadStep, hL q (List.mem_cons_self _ _), if_true]
        rw [hq]
        exact ih (fun q2 h2 => hL q2 (List.mem_cons_of_mem _ h2)) b
    exact hgen _ hskip buf

/-- The edge values of `negativeTriangle` in tile 0 do not overflow. -/
theorem EdgesFit_negativeTriangle :
    EdgesFit sampleConstants (tileOf sampleConstants 0) negativeTriangle := by
  refine ⟨by decide, ?_⟩
  intro q hq l e
  obtain ⟨⟨m, n, hr, hc⟩, hry, hcx, -⟩ :=
    traverse_mem sampleConstants (tileOf sampleConstants 0) negativeTriangle q hq
  have sy : startY (tileOf sampleConstants 0) negativeTriangle = 0 := by
    simp only [startY, land_neg_two]
    decide
  have sx : startX (tileOf sampleConstants 0) negativeTriangle = 0 := by
    simp only [startX, land_neg_two]
    decide
  have ey : endY (tileOf sampleConstants 0) negativeTriangle = 4 := by decide
  have ex : endX (tileOf sampleConstants 0) negativeTriangle = 4 := by decide
  rw [sy] at hr
  rw [sx] at hc
  rw [ey] at hry
  rw [ex] at hcx
  have hco := colOffset_cases l
  have hro := rowOffset_cases l
  have hl := l.isLt
  simp only [fits32]
  fin_cases e <;>
    simp [edgeExact, negativeTriangle] <;>
    omega

/-- Instance of C19: `negativeTriangle` in tile 0 leaves the empty depth buffer unchanged. -/
theorem negative_area_rejection_witness :
    triArea negativeTriangle < 0 ∧
    EdgesFit sampleConstants (tileOf sampleConstants 0) negativeTriangle ∧
    (traverse sampleConstants (tileOf sampleConstants 0) negativeTriangle ≠ [] ∧
      rasterizeTriangle sampleConstants (tileOf sampleConstants 0) zeroBuffer negativeTriangle =
        zeroBuffer) := by
  have harea : triArea negativeTriangle < 0 := by decide
  refine ⟨harea, EdgesFit_negativeTriangle, ?_, ?_⟩
  · have hy : startY (tileOf sampleConstants 0) negativeTriangle + 2 * (0 : Nat) <
        endY (tileOf sampleConstants 0) negativeTriangle := by
      simp only [startY, endY, land_neg_two]
      decide
    have hx : startX (tileOf sampleConstants 0) negativeTriangle + 2 * (0 : Nat) <
        endX (tileOf sampleConstants 0) negativeTriangle := by
      simp only [startX, endX, land_neg_two]
      decide
    obtain ⟨q, hq, -⟩ := traverse_complete sampleConstants (tileOf sampleConstants 0)
      negativeTriangle 0 0 hy hx
    exact List.ne_nil_of_mem hq
  · exact (negative_area_rejection sampleConstants (tileOf sampleConstants 0) negativeTriangle
      harea EdgesFit_negativeTriangle).2.2.2 zeroBuffer

/-! ## Theorems: the traversal covers the triangle exactly -/

/-- The column loop visits strictly increasing columns of one row. -/
theorem colLoop_pairwise (endXx : Int) (i0 i1 i2 : Vec4 Int) (r : Int) :
    ∀ (fuel : Nat) (c idx : Int) (a b g : Vec4 Int),
      (colLoop endXx i0 i1 i2 r fuel c idx a b g).Pairwise
        (fun p q => p.r = q.r ∧ p.c < q.c) := by
  intro fuel
  induction fuel with
  | zero => intro c idx a b g; simp [colLoop]
  | succ fuel ih =>
    intro c idx a b g
    rw [colLoop]
    by_cases hc : c < endXx
    · rw [if_pos hc, List.pairwise_cons]
      refine ⟨?_, ih _ _ _ _ _⟩
      intro q hq
      obtain ⟨n, h1, -, h3, -⟩ := colLoop_mem _ _ _ _ _ _ _ _ _ _ _ q hq
      exact ⟨h3.symm, by simp only; omega⟩
    · rw [if_neg hc]
      exact List.Pairwise.nil

/-- The row loop visits the quads in strictly increasing order of (row, column). -/
theorem rowLoop_pairwise (W startXx endXx endYy : Int) (i0 i1 i2 j0 j1 j2 : Vec4 Int) :
    ∀ (fuel : Nat) (r rowIdx : Int) (a b g : Vec4 Int),
      (rowLoop W startXx endXx endYy i0 i1 i2 j0 j1 j2 fuel r rowIdx a b g).Pairwise
        (fun p q => p.r < q.r ∨ (p.r = q.r ∧ p.c < q.c)) := by
  intro fuel
  induction fuel with
  | zero => intro r rowIdx a b g; simp [rowLoop]
  | succ fuel ih =>
    intro r rowIdx a b g
    rw [rowLoop]
    by_cases hr : r < endYy
    · rw [if_pos hr, List.pairwise_append]
      refine ⟨(colLoop_pairwise _ _ _ _ _ _ _ _ _ _ _).imp (fun h => Or.inr h), ih _ _ _ _ _, ?_⟩
      intro p hp q hq
      obtain ⟨n, -, -, h3, -⟩ := colLoop_mem _ _ _ _ _ _ _ _ _ _ _ p hp
      obtain ⟨m, n2, h1, -⟩ := rowLoop_mem _ _ _ _ _ _ _ _ _ _ _ _ _ _ _ _ q hq
      exact Or.inl (by omega)
    · rw [if_neg hr]
      exact List.Pairwise.nil

theorem traverse_pairwise {K : Type} (k : Constants) (tile : Tile) (t : Triangle K) :
    (traverse k tile t).Pairwise (fun p q => p.r < q.r ∨ (p.r = q.r ∧ p.c < q.c)) := by
  simp only [traverse]
  exact rowLoop_pairwise _ _ _ _ _ _ _ _ _ _ _ _ _ _ _ _

/-- A predicate that no two related elements of a pairwise related list both satisfy holds of
at most one element of the list. -/
theorem countP_le_one_of_pairwise {α : Type} (R : α → α → Prop) (p : α → Bool) :
    ∀ (L : List α), L.Pairwise R → (∀ a ∈ L, ∀ b ∈ L, R a b → p a = true → p b = true → False) →
      L.countP p ≤ 1 := by
  intro L
  induction L with
  | nil => intro _ _; simp
  | cons a L ih =>
    intro hP hex
    rw [List.pairwise_cons] at hP
    have ihL := ih hP.2 (fun x hx y hy => hex x (List.mem_cons_of_mem _ hx) y
      (List.mem_cons_of_mem _ hy))
    rw [List.countP_cons]
    by_cases hpa : p a = true
    · have hz : L.countP p = 0 := by
        rw [List.countP_eq_zero]
        intro b hb hpb
        exact hex a (List.mem_cons_self _ _) b (List.mem_cons_of_mem _ hb) (hP.1 b hb) hpa hpb
      simp [hz, hpa]
    · simp only [hpa, Bool.false_eq_true, if_false]
      omega

/-- The clipped bounding box in exact terms: a pixel of the tile between the least and the
greatest vertex coordinate lies between `start` and `end` of the loops. -/
theorem bbox_clip {K : Type} (tile : Tile) (t : Triangle K) (hc : CoordsFit t) (x y : Int)
    (hx : min (min (t.X 0) (t.X 1)) (t.X 2) ≤ x ∧ x ≤ max (max (t.X 0) (t.X 1)) (t.X 2))
    (hy : min (min (t.Y 0) (t.Y 1)) (t.Y 2) ≤ y ∧ y ≤ max (max (t.Y 0) (t.Y 1)) (t.Y 2))
    (htx : tile.tileStartX ≤ x ∧ x < tile.tileEndX)
    (hty : tile.tileStartY ≤ y ∧ y < tile.tileEndY) :
    (startX tile t ≤ x ∧ x < endX tile t) ∧ (startY tile t ≤ y ∧ y < endY tile t) := by
  have c0 := hc 0
  have c1 := hc 1
  have c2 := hc 2
  simp only [fits32] at c0 c1 c2
  refine ⟨⟨?_, ?_⟩, ⟨?_, ?_⟩⟩
  · simp only [startX, land_neg_two]; omega
  · simp only [endX]
    rw [wrapINT_of_range (by omega) (by omega)]
    omega
  · simp only [startY, land_neg_two]; omega
  · simp only [endY]
    rw [wrapINT_of_range (by omega) (by omega)]
    omega

/-- Every pixel between `start` and `end` of the loops is a lane of a visited quad. -/
theorem pixel_quad {K : Type} (k : Constants) (tile : Tile) (t : Triangle K) (x y : Int)
    (hx : startX tile t ≤ x ∧ x < endX tile t) (hy : startY tile t ≤ y ∧ y < endY tile t) :
    ∃ q ∈ traverse k tile t, ∃ l : Fin 4,
      q.c + colOffset l = x ∧ q.r + rowOffset l = y := by
  have hxe := startX_even tile t
  have hye := startY_even tile t
  obtain ⟨q, hq, hqr, hqc⟩ := traverse_complete k tile t
    ((y - startY tile t) / 2).toNat ((x - startX tile t) / 2).toNat
    (by omega) (by omega)
  have hdx : x - q.c = 0 ∨ x - q.c = 1 := by omega
  have hdy : y - q.r = 0 ∨ y - q.r = 1 := by omega
  have hl : ((x - q.c) + 2 * (y - q.r)).toNat < 4 := by omega
  refine ⟨q, hq, ⟨((x - q.c) + 2 * (y - q.r)).toNat, hl⟩, ?_, ?_⟩
  · rw [colOffset_cases]; simp only; omega
  · rw [rowOffset_cases]; simp only; omega

/-- The pixel of a lane lies in the quad, and a pixel of the quad is the pixel of a lane. -/
theorem inQuad_iff (q : Quad) (x y : Int) :
    inQuad q x y = true ↔ ∃ l : Fin 4, q.c + colOffset l = x ∧ q.r + rowOffset l = y := by
  simp only [inQuad, decide_eq_true_eq]
  constructor
  · intro h
    have hl : ((x - q.c) + 2 * (y - q.r)).toNat < 4 := by omega
    refine ⟨⟨((x - q.c) + 2 * (y - q.r)).toNat, hl⟩, ?_, ?_⟩
    · rw [colOffset_cases]; simp only; omega
    · rw [rowOffset_cases]; simp only; omega
  · rintro ⟨l, h1, h2⟩
    have hco := colOffset_cases l
    have hro := rowOffset_cases l
    have hl := l.isLt
    omega

/-- A pixel lies in at most one visited quad. -/
theorem countP_inQuad_le_one {K : Type} (k : Constants) (tile : Tile) (t : Triangle K)
    (x y : Int) : (traverse k tile t).countP (fun q => inQuad q x y) ≤ 1 := by
  apply countP_le_one_of_pairwise _ _ _ (traverse_pairwise k tile t)
  intro a ha b hb hR hpa hpb
  obtain ⟨ae1, ae2, -⟩ := quad_layout_aux k tile t a 0 ha
  obtain ⟨be1, be2, -⟩ := quad_layout_aux k tile t b 0 hb
  simp only [inQuad, decide_eq_true_eq] at hpa hpb
  omega

/-- A pixel between `start` and `end` of the loops lies in exactly one visited quad. -/
theorem countP_inQuad_eq_one {K : Type} (k : Constants) (tile : Tile) (t : Triangle K)
    (x y : Int) (hx : startX tile t ≤ x ∧ x < endX tile t)
    (hy : startY tile t ≤ y ∧ y < endY tile t) :
    (traverse k tile t).countP (fun q => inQuad q x y) = 1 := by
  have h1 := countP_inQuad_le_one k tile t x y
  obtain ⟨q, hq, l, hl⟩ := pixel_quad k tile t x y hx hy
  have h2 : 0 < (traverse k tile t).countP (fun q => inQuad q x y) := by
    rw [List.countP_pos_iff]
    exact ⟨q, hq, (inQuad_iff q x y).2 ⟨l, hl⟩⟩
  omega

/-- The exact edge functions weigh the vertices: `area * x` is the sum of the edge values
times the vertex abscissas, and likewise for the ordinates. -/
theorem edgeExact_barycentric {K : Type} (t : Triangle K) (x y : Int) :
    areaExact t * x =
      edgeExact t 0 x y * t.X 0 + edgeExact t 1 x y * t.X 1 + edgeExact t 2 x y * t.X 2 ∧
    areaExact t * y =
      edgeExact t 0 x y * t.Y 0 + edgeExact t 1 x y * t.Y 1 + edgeExact t 2 x y * t.Y 2 := by
  simp only [edgeExact, areaExact, Matrix.cons_val_zero, Matrix.cons_val_one,
    Matrix.cons_val_two, Matrix.tail_cons, Matrix.head_cons]
  constructor <;> ring

/-- A convex combination with non-negative integer weights of positive total lies between
the least and the greatest of the three values. -/
theorem weighted_between (w0 w1 w2 s v : Int) (f : Fin 3 → Int) (h0 : 0 ≤ w0) (h1 : 0 ≤ w1)
    (h2 : 0 ≤ w2) (hs : w0 + w1 + w2 = s) (hpos : 0 < s)
    (hv : s * v = w0 * f 0 + w1 * f 1 + w2 * f 2) :
    min (min (f 0) (f 1)) (f 2) ≤ v ∧ v ≤ max (max (f 0) (f 1)) (f 2) := by
  obtain ⟨a0, b0⟩ := min3_le f 0
  obtain ⟨a1, b1⟩ := min3_le f 1
  obtain ⟨a2, b2⟩ := min3_le f 2
  constructor
  · have h : 0 ≤ s * (v - min (min (f 0) (f 1)) (f 2)) := by
      have e : s * (v - min (min (f 0) (f 1)) (f 2)) =
          w0 * (f 0 - min (min (f 0) (f 1)) (f 2)) + w1 * (f 1 - min (min (f 0) (f 1)) (f 2))
            + w2 * (f 2 - min (min (f 0) (f 1)) (f 2)) := by
        rw [mul_sub, hv, ← hs]; ring
      rw [e]
      exact add_nonneg (add_nonneg (mul_nonneg h0 (by omega)) (mul_nonneg h1 (by omega)))
        (mul_nonneg h2 (by omega))
    have := nonneg_of_mul_nonneg_right h hpos
    omega
  · have h : 0 ≤ s * (max (max (f 0) (f 1)) (f 2) - v) := by
      have e : s * (max (max (f 0) (f 1)) (f 2) - v) =
          w0 * (max (max (f 0) (f 1)) (f 2) - f 0) + w1 * (max (max (f 0) (f 1)) (f 2) - f 1)
            + w2 * (max (max (f 0) (f 1)) (f 2) - f 2) := by
        rw [mul_sub, hv, ← hs]; ring
      rw [e]
      exact add_nonneg (add_nonneg (mul_nonneg h0 (by omega)) (mul_nonneg h1 (by omega)))
        (mul_nonneg h2 (by omega))
    have := nonneg_of_mul_nonneg_right h hpos
    omega

/-- The pixels of a quad are the pixels of its lanes with the sign bit of the mask clear. -/
theorem mem_quadPixels (q : Quad) (x y : Int) :
    (x, y) ∈ quadPixels q ↔
      ∃ l : Fin 4, ¬ quadMask q l < 0 ∧ q.c + colOffset l = x ∧ q.r + rowOffset l = y := by
  simp only [quadPixels]
  constructor
  · intro h
    split at h
    · simp at h
    · rw [List.mem_filterMap] at h
      obtain ⟨l, -, hl⟩ := h
      split at hl
      · simp at hl
      · rename_i hm
        simp only [Option.some.injEq, Prod.mk.injEq] at hl
        exact ⟨l, hm, hl.1, hl.2⟩
  · rintro ⟨l, hm, h1, h2⟩
    have hneg : ¬ is_all_negative (quadMask q) = true := fun h => hm ((is_all_negative_iff _).1 h l)
    rw [if_neg hneg, List.mem_filterMap]
    exact ⟨l, List.mem_finRange l, by rw [if_neg hm, h1, h2]⟩

theorem mem_updatedPixels {K : Type} (k : Constants) (tile : Tile) (t : Triangle K)
    (x y : Int) :
    (x, y) ∈ updatedPixels k tile t ↔
      ∃ q ∈ traverse k tile t, ∃ l : Fin 4,
        ¬ quadMask q l < 0 ∧ q.c + colOffset l = x ∧ q.r + rowOffset l = y := by
  simp only [updatedPixels, List.mem_flatMap, mem_quadPixels]

/-- The pixels of a quad are pairwise distinct. -/
theorem quadPixels_nodup (q : Quad) : (quadPixels q).Nodup := by
  simp only [quadPixels]
  split
  · exact List.nodup_nil
  · apply List.Nodup.filterMap _ (List.nodup_finRange 4)
    intro a a2 b hb hb2
    split at hb
    · simp at hb
    · split at hb2
      · simp at hb2
      · simp only [Option.mem_def, Option.some.injEq] at hb hb2
        rw [← hb2] at hb
        simp only [Prod.mk.injEq] at hb
        have h1 := colOffset_cases a
        have h2 := rowOffset_cases a
        have h3 := colOffset_cases a2
        have h4 := rowOffset_cases a2
        apply Fin.ext
        omega

/-- No pixel is updated twice while one triangle is rasterized. -/
theorem updatedPixels_nodup {K : Type} (k : Constants) (tile : Tile) (t : Triangle K) :
    (updatedPixels k tile t).Nodup := by
  simp only [updatedPixels]
  rw [List.nodup_flatMap]
  refine ⟨fun q _ => quadPixels_nodup q, ?_⟩
  apply List.Pairwise.imp_of_mem _ (traverse_pairwise k tile t)
  intro a b ha hb hR
  simp only [Function.onFun]
  intro p hpa hpb
  obtain ⟨x, y⟩ := p
  obtain ⟨l1, -, h1, h2⟩ := (mem_quadPixels a x y).1 hpa
  obtain ⟨l2, -, h3, h4⟩ := (mem_quadPixels b x y).1 hpb
  obtain ⟨ae1, ae2, -⟩ := quad_layout_aux k tile t a 0 ha
  obtain ⟨be1, be2, -⟩ := quad_layout_aux k tile t b 0 hb
  have c1 := colOffset_cases l1
  have c2 := rowOffset_cases l1
  have c3 := colOffset_cases l2
  have c4 := rowOffset_cases l2
  omega

/-- The slots of the samples of a triangle are the slots of its updated pixels. -/
theorem triangleFragments_slots {K : Type} [LinearOrderedField K] (k : Constants) (tile : Tile)
    (t : Triangle K) :
    (triangleFragments k tile t).map Prod.fst =
      (updatedPixels k tile t).map (fun p => slotOf k.SCREENW p.1 p.2) := by
  simp only [triangleFragments, updatedPixels, List.map_flatMap]
  apply List.flatMap_congr
  intro q hq
  simp only [quadFragments, quadPixels]
  split
  · rfl
  · rw [List.map_filterMap, List.map_filterMap]
    apply List.filterMap_congr
    intro l _
    split
    · rfl
    · simp only [Option.map_some']
      obtain ⟨-, -, h⟩ := quad_layout_aux k tile t q l hq
      rw [h]

/-- C20. Traversal covers the triangle exactly.  For every triangle with positive fixed-point
area, no 32-bit overflow (`CoordsFit`, `EdgesFit`), and every tile with even bounds: each pixel
of the triangle's bounding box clipped to the tile lies in exactly one visited quad; the pixels
whose slot receives `max(new, old)` are exactly the pixels `(x, y)` of the tile at which all
three edge functions are non-negative; no pixel is updated twice; and the slots of the samples
merged into the depth buffer are the slots of these pixels.  The statement holds for each tile,
so across tiles that partition the screen the pixels updated are the closed triangle
intersected with the screen, without gap or double update on tile boundaries. -/
theorem traversal_covers_triangle_exactly {K : Type} [LinearOrderedField K] (k : Constants)
    (tile : Tile) (t : Triangle K) (harea : 0 < triArea t)
    (hsx : tile.tileStartX % 2 = 0) (hex : tile.tileEndX % 2 = 0)
    (hsy : tile.tileStartY % 2 = 0) (hey : tile.tileEndY % 2 = 0)
    (hcoord : CoordsFit t) (hfit : EdgesFit k tile t) :
    (∀ x y : Int,
      min (min (t.X 0) (t.X 1)) (t.X 2) ≤ x → x ≤ max (max (t.X 0) (t.X 1)) (t.X 2) →
      min (min (t.Y 0) (t.Y 1)) (t.Y 2) ≤ y → y ≤ max (max (t.Y 0) (t.Y 1)) (t.Y 2) →
      tile.tileStartX ≤ x → x < tile.tileEndX → tile.tileStartY ≤ y → y < tile.tileEndY →
      (traverse k tile t).countP (fun q => inQuad q x y) = 1) ∧
    (∀ x y : Int, (x, y) ∈ updatedPixels k tile t ↔
      ((tile.tileStartX ≤ x ∧ x < tile.tileEndX) ∧ (tile.tileStartY ≤ y ∧ y < tile.tileEndY) ∧
        ∀ e : Fin 3, 0 ≤ edgeExact t e x y)) ∧
    (updatedPixels k tile t).Nodup ∧
    (triangleFragments k tile t).map Prod.fst =
      (updatedPixels k tile t).map (fun p => slotOf k.SCREENW p.1 p.2) := by
  have hA : areaExact t = triArea t := by
    rw [triArea_eq_wrap, wrapINT_of_range hfit.1.1 hfit.1.2]
  refine ⟨?_, ?_, updatedPixels_nodup k tile t, triangleFragments_slots k tile t⟩
  · intro x y h1 h2 h3 h4 h5 h6 h7 h8
    obtain ⟨bx, byy⟩ := bbox_clip tile t hcoord x y ⟨h1, h2⟩ ⟨h3, h4⟩ ⟨h5, h6⟩ ⟨h7, h8⟩
    exact countP_inQuad_eq_one k tile t x y bx byy
  · intro x y
    rw [mem_updatedPixels]
    constructor
    · rintro ⟨q, hq, l, hm, hx, hy⟩
      obtain ⟨t1, t2, t3, t4⟩ := traverse_in_tile k tile t q hsx hex hsy hey hq
      obtain ⟨ha, hb, hg⟩ := lane_eq_exact k tile t q hq l (hfit.2 q hq l)
      rw [quadMask_neg_iff] at hm
      have hco := colOffset_cases l
      have hro := rowOffset_cases l
      have hl := l.isLt
      rw [hx, hy] at ha hb hg
      refine ⟨by omega, by omega, ?_⟩
      intro e
      fin_cases e
      · show 0 ≤ edgeExact t 0 x y
        omega
      · show 0 ≤ edgeExact t 1 x y
        omega
      · show 0 ≤ edgeExact t 2 x y
        omega
    · rintro ⟨htx, hty, he⟩
      obtain ⟨bX, bY⟩ := edgeExact_barycentric t x y
      have hs := edgeExact_sum t x y
      have hpos : 0 < areaExact t := by rw [hA]; exact harea
      have hbx := weighted_between _ _ _ _ x t.X (he 0) (he 1) (he 2) hs hpos bX
      have hby := weighted_between _ _ _ _ y t.Y (he 0) (he 1) (he 2) hs hpos bY
      obtain ⟨bx, byy⟩ := bbox_clip tile t hcoord x y hbx hby htx hty
      obtain ⟨q, hq, l, hx, hy⟩ := pixel_quad k tile t x y bx byy
      refine ⟨q, hq, l, ?_, hx, hy⟩
      obtain ⟨ha, hb, hg⟩ := lane_eq_exact k tile t q hq l (hfit.2 q hq l)
      rw [hx, hy] at ha hb hg
      rw [quadMask_neg_iff]
      have e0 := he 0
      have e1 := he 1
      have e2 := he 2
      omega

/-- The edge values of `sampleTriangle` in tile 0 do not overflow. -/
theorem EdgesFit_sampleTriangle :
    EdgesFit sampleConstants (tileOf sampleConstants 0) sampleTriangle := by
  refine ⟨by decide, ?_⟩
  intro q hq l e
  obtain ⟨⟨m, n, hr, hc⟩, hry, hcx, -⟩ :=
    traverse_mem sampleConstants (tileOf sampleConstants 0) sampleTriangle q hq
  have sy : startY (tileOf sampleConstants 0) sampleTriangle = 0 := by
    simp only [startY, land_neg_two]
    decide
  have sx : startX (tileOf sampleConstants 0) sampleTriangle = 0 := by
    simp only [startX, land_neg_two]
    decide
  have ey : endY (tileOf sampleConstants 0) sampleTriangle = 4 := by decide
  have ex : endX (tileOf sampleConstants 0) sampleTriangle = 4 := by decide
  rw [sy] at hr
  rw [sx] at hc
  rw [ey] at hry
  rw [ex] at hcx
  have hco := colOffset_cases l
  have hro := rowOffset_cases l
  have hl := l.isLt
  simp only [fits32]
  fin_cases e <;>
    simp [edgeExact, sampleTriangle] <;>
    omega

/-- Instance of C20: `sampleTriangle`, with vertices (0,0), (3,0), (0,3), in tile 0: pixel
(1, 2) lies on the edge `x + y = 3` and is updated, pixel (2, 2) lies outside and is not. -/
theorem traversal_covers_triangle_exactly_witness :
    (0 < triArea sampleTriangle ∧
      (tileOf sampleConstants 0).tileStartX % 2 = 0 ∧
      (tileOf sampleConstants 0).tileEndX % 2 = 0 ∧
      (tileOf sampleConstants 0).tileStartY % 2 = 0 ∧
      (tileOf sampleConstants 0).tileEndY % 2 = 0 ∧
      CoordsFit sampleTriangle ∧
      EdgesFit sampleConstants (tileOf sampleConstants 0) sampleTriangle) ∧
    (1, 2) ∈ updatedPixels sampleConstants (tileOf sampleConstants 0) sampleTriangle ∧
    (2, 2) ∉ updatedPixels sampleConstants (tileOf sampleConstants 0) sampleTriangle := by
  have harea : 0 < triArea sampleTriangle := by decide
  have hcoord : CoordsFit sampleTriangle := by
    intro i
    fin_cases i <;> decide
  have h := (traversal_covers_triangle_exactly sampleConstants (tileOf sampleConstants 0)
    sampleTriangle harea (by decide) (by decide) (by decide) (by decide) hcoord
    EdgesFit_sampleTriangle).2.1
  refine ⟨⟨harea, by decide, by decide, by decide, by decide, hcoord,
    EdgesFit_sampleTriangle⟩, ?_, ?_⟩
  · rw [h]
    refine ⟨by decide, by decide, ?_⟩
    intro e
    fin_cases e <;> decide
  · rw [h]
    rintro ⟨-, -, he⟩
    exact absurd (he 0) (by decide)

/-! ## Theorems: the frustum test -/

section Frustum

variable {K : Type} [LinearOrderedField K]

/-- The dot product of the code is the signed distance of the corner it forms. -/
theorem planeDot_eq_signedDistance (box : WorldBBoxPacket K) (pFrustum : CPUTFrustum K)
    (j : Fin 6) (l : Fin 4) :
    planeDot box pFrustum j l =
      signedDistance (pFrustum.mpNormal j) (pFrustum.mPlanes (3 * 8 + j.val))
        (fun c => corner box pFrustum j c l) := by
  simp only [planeDot, signedDistance, planeDist, planeNormal, splat]
  ring

/-- Per component, the corner of the code has the least product with the normal. -/
theorem corner_component_le (n center half : K) (hhalf : 0 ≤ half) (sgn : Bool) :
    n * (center - xorSign half (signBit n)) ≤
      n * (if sgn then center + half else center - half) := by
  simp only [xorSign, signBit]
  by_cases hn : n < 0
  · simp only [hn, decide_True, if_true]
    cases sgn
    · simp only [Bool.false_eq_true, if_false]
      nlinarith [mul_nonneg (le_of_lt (neg_pos.2 hn)) hhalf]
    · simp only [if_true]
      nlinarith [mul_nonneg (le_of_lt (neg_pos.2 hn)) hhalf]
  · simp only [hn, decide_False, Bool.false_eq_true, if_false]
    have hn0 : 0 ≤ n := not_lt.1 hn
    cases sgn
    · simp only [Bool.false_eq_true, if_false]
      exact le_refl _
    · simp only [if_true]
      nlinarith [mul_nonneg hn0 hhalf]

/-- C12 (as amended). Tested corner.  For every box with non-negative half-extents and every
frustum plane, the corner that `CalcInsideViewFrustum` forms by XORing the sign bit of each
plane-normal component into the corresponding half-extent and subtracting the result from the
center is a corner of the box, the dot product computed for it is its signed distance
`n.p + d` to the plane, and it minimizes that signed distance among the eight corners of the
box (exact arithmetic). -/
theorem tested_corner_minimizes (box : WorldBBoxPacket K) (pFrustum : CPUTFrustum K)
    (j : Fin 6) (l : Fin 4) (hhalf : ∀ c : Fin 3, 0 ≤ box.mHalf c l) :
    (∃ sgn : Fin 3 → Bool, (fun c => corner box pFrustum j c l) =
      boxCorner (fun c => box.mCenter c l) (fun c => box.mHalf c l) sgn) ∧
    planeDot box pFrustum j l =
      signedDistance (pFrustum.mpNormal j) (pFrustum.mPlanes (3 * 8 + j.val))
        (fun c => corner box pFrustum j c l) ∧
    ∀ sgn : Fin 3 → Bool,
      signedDistance (pFrustum.mpNormal j) (pFrustum.mPlanes (3 * 8 + j.val))
          (fun c => corner box pFrustum j c l) ≤
        signedDistance (pFrustum.mpNormal j) (pFrustum.mPlanes (3 * 8 + j.val))
          (boxCorner (fun c => box.mCenter c l) (fun c => box.mHalf c l) sgn) := by
  refine ⟨⟨fun c => signBit (pFrustum.mpNormal j c), ?_⟩,
    planeDot_eq_signedDistance box pFrustum j l, ?_⟩
  · funext c
    simp only [corner, halfSign, boxCorner, xorSign, planeNormalSign, planeNormal, splat]
    by_cases h : signBit (pFrustum.mpNormal j c) = true
    · simp [h]
    · simp [h]
  · intro sgn
    simp only [signedDistance, corner, halfSign, boxCorner, planeNormalSign, planeNormal, splat]
    have h0 := corner_component_le (pFrustum.mpNormal j 0) (box.mCenter 0 l) (box.mHalf 0 l)
      (hhalf 0) (sgn 0)
    have h1 := corner_component_le (pFrustum.mpNormal j 1) (box.mCenter 1 l) (box.mHalf 1 l)
      (hhalf 1) (sgn 1)
    have h2 := corner_component_le (pFrustum.mpNormal j 2) (box.mCenter 2 l) (box.mHalf 2 l)
      (hhalf 2) (sgn 2)
    linarith

end Frustum

theorem samplePacket_half (c : Fin 3) : 0 ≤ samplePacket.mHalf c 0 := by
  fin_cases c <;> simp [samplePacket, WorldBBoxPacket.SetLane]

/-- Instance of C12 (as amended): the unit box of `samplePacket` and plane 0 of
`sampleFrustum`. -/
theorem tested_corner_minimizes_witness :
    (∀ c : Fin 3, 0 ≤ samplePacket.mHalf c 0) ∧
    planeDot samplePacket sampleFrustum 0 0 =
      signedDistance (sampleFrustum.mpNormal 0) (sampleFrustum.mPlanes (3 * 8 + (0 : Fin 6).val))
        (fun c => corner samplePacket sampleFrustum 0 c 0) :=
  ⟨samplePacket_half,
    (tested_corner_minimizes samplePacket sampleFrustum 0 0 samplePacket_half).2.1⟩

/-- C12, counterexample to the claim as written.  For the box with center (0, 0, 0) and
half-extents (1, 1, 1) and the plane with normal (1, 0, 0) and distance 0, the corner that the
code forms is (-1, -1, -1), at signed distance -1, while the corner (1, 1, 1) of the box is at
signed distance 1: the corner of the code does not maximize the signed distance. -/
theorem positive_corner_counterexample :
    (∀ c : Fin 3, 0 ≤ samplePacket.mHalf c 0) ∧
    (fun c => corner samplePacket sampleFrustum 0 c 0) = ![-1, -1, -1] ∧
    planeDot samplePacket sampleFrustum 0 0 = -1 ∧
    signedDistance (sampleFrustum.mpNormal 0) (sampleFrustum.mPlanes (3 * 8 + (0 : Fin 6).val))
      (boxCorner (fun c => samplePacket.mCenter c 0) (fun c => samplePacket.mHalf c 0)
        (fun _ => true)) = 1 ∧
    ¬ (∀ sgn : Fin 3 → Bool,
      signedDistance (sampleFrustum.mpNormal 0) (sampleFrustum.mPlanes (3 * 8 + (0 : Fin 6).val))
          (boxCorner (fun c => samplePacket.mCenter c 0) (fun c => samplePacket.mHalf c 0) sgn) ≤
        signedDistance (sampleFrustum.mpNormal 0)
          (sampleFrustum.mPlanes (3 * 8 + (0 : Fin 6).val))
          (fun c => corner samplePacket sampleFrustum 0 c 0)) := by
  have hc : (fun c => corner samplePacket sampleFrustum 0 c 0) = ![-1, -1, -1] := by
    funext c
    fin_cases c <;>
      simp [corner, halfSign, xorSign, planeNormalSign, planeNormal, splat, signBit,
        samplePacket, sampleFrustum, WorldBBoxPacket.SetLane, zeroPacket]
  have hd : planeDot samplePacket sampleFrustum 0 0 = -1 := by
    rw [planeDot_eq_signedDistance, hc]
    simp [signedDistance, sampleFrustum]
  have hb : signedDistance (sampleFrustum.mpNormal 0)
      (sampleFrustum.mPlanes (3 * 8 + (0 : Fin 6).val))
      (boxCorner (fun c => samplePacket.mCenter c 0) (fun c => samplePacket.mHalf c 0)
        (fun _ => true)) = 1 := by
    simp [signedDistance, boxCorner, sampleFrustum, samplePacket, WorldBBoxPacket.SetLane,
      zeroPacket]
  refine ⟨samplePacket_half, hc, hd, hb, ?_⟩
  intro h
  have h1 := h (fun _ => true)
  rw [hb, ← planeDot_eq_signedDistance, hd] at h1
  norm_num at h1


/-- Bit `k` of the integer that `movemask` builds is the sign bit of lane `k`. -/
theorem maskBit_movemask (inMask : Vec4 Bool) (k : Fin 4) :
    maskBit (movemask inMask) k.val = inMask k := by
  simp only [movemask]
  cases h0 : inMask 0 <;> cases h1 : inMask 1 <;> cases h2 : inMask 2 <;>
    cases h3 : inMask 3 <;> fin_cases k <;> simp [h0, h1, h2, h3] <;> decide

/-- The four writes of a packet set flag `i*4 + k` to bit `k` of the packet mask. -/
theorem writeFlags_own (visible : Nat → Bool) (i packetMask : Nat) (k : Fin 4) :
    writeFlags visible i packetMask (i * 4 + k.val) = maskBit packetMask k.val := by
  simp only [writeFlags]
  fin_cases k <;> simp [Function.update]

/-- The four writes of a packet leave the flags of the other packets as they are. -/
theorem writeFlags_other (visible : Nat → Bool) (i packetMask s : Nat) (h : s / 4 ≠ i) :
    writeFlags visible i packetMask s = visible s := by
  simp only [writeFlags, Function.update, eq_rec_constant, dite_eq_ite]
  have h0 : s ≠ i * 4 + 0 := by omega
  have h1 : s ≠ i * 4 + 1 := by omega
  have h2 : s ≠ i * 4 + 2 := by omega
  have h3 : s ≠ i * 4 + 3 := by omega
  simp only [h0, h1, h2, h3, if_false]

/-- A flag whose packet is not visited keeps its value. -/
theorem foldl_writeFlags_other (pm : Nat → Nat) (s : Nat) :
    ∀ (L : List Nat) (visible : Nat → Bool), (∀ a ∈ L, s / 4 ≠ a) →
      L.foldl (fun visible i => writeFlags visible i (pm i)) visible s = visible s := by
  intro L
  induction L with
  | nil => intro visible _; rfl
  | cons a L ih =>
    intro visible h
    rw [List.foldl_cons, ih _ (fun b hb => h b (List.mem_cons_of_mem _ hb))]
    exact writeFlags_other _ _ _ _ (h a (List.mem_cons_self _ _))

/-- After the packet loop, flag `i*4 + k` of a visited packet `i` is bit `k` of its mask. -/
theorem foldl_writeFlags_own (pm : Nat → Nat) (i : Nat) (k : Fin 4) :
    ∀ (L : List Nat) (visible : Nat → Bool), i ∈ L →
      L.foldl (fun visible i => writeFlags visible i (pm i)) visible (i * 4 + k.val) =
        maskBit (pm i) k.val := by
  intro L
  induction L with
  | nil => intro visible h; simp at h
  | cons a L ih =>
    intro visible h
    rw [List.foldl_cons]
    by_cases hL : i ∈ L
    · exact ih _ hL
    · have ha : i = a := by
        rcases List.mem_cons.1 h with h | h
        · exact h
        · exact absurd h hL
      subst ha
      rw [foldl_writeFlags_other pm _ L _ (fun b hb => by
        have hk := k.isLt
        intro hne
        apply hL
        have : b = i := by omega
        rw [← this]; exact hb)]
      exact writeFlags_own _ _ _ _

theorem mem_packetRange (start end_ i : Nat) :
    i ∈ packetRange start end_ ↔ packetStart start ≤ i ∧ i < packetEnd end_ := by
  simp only [packetRange, List.mem_range'_1]
  omega

section FrustumDecision

variable {K : Type} [LinearOrderedField K]

/-- The sign bit of a lane of `inMask` survives the six planes when every dot product of the
lane is negative. -/
theorem inMaskOf_iff (box : WorldBBoxPacket K) (pFrustum : CPUTFrustum K) (l : Fin 4) :
    inMaskOf box pFrustum l = true ↔ ∀ j : Fin 6, planeDot box pFrustum j l < 0 := by
  have hgen : ∀ (L : List (Fin 6)) (m0 : Vec4 Bool),
      L.foldl (fun inMask j => fun l => inMask l && signBit (planeDot box pFrustum j l)) m0 l
        = true ↔ (m0 l = true ∧ ∀ j ∈ L, planeDot box pFrustum j l < 0) := by
    intro L
    induction L with
    | nil => intro m0; simp
    | cons a L ih =>
      intro m0
      rw [List.foldl_cons, ih]
      simp only [Bool.and_eq_true, signBit, decide_eq_true_eq, List.mem_cons, forall_eq_or_imp]
      tauto
  simp only [inMaskOf]
  rw [hgen]
  simp [List.mem_finRange]

end FrustumDecision

/-! ## Theorems: packets of boxes and the render loop -/

/-- The nested loops over asset sets and nodes are one loop over the nodes in order. -/
theorem foldl_assetSets {K : Type} {β : Type} (g : β → RenderNode K → β)
    (pAssetSet : List (List (RenderNode K))) (b : β) :
    pAssetSet.foldl (fun b assetSet => assetSet.foldl g b) b = pAssetSet.flatten.foldl g b :=
  (foldl_flatten_eq g pAssetSet b).symm

/-- The first loop adds the number of model nodes to `mNumModels`. -/
theorem foldl_countStep {K : Type} : ∀ (L : List (RenderNode K)) (m0 : Nat),
    m0 + (L.filter (fun n => n.IsModel)).length < 4294967296 →
    L.foldl countStep m0 = m0 + (L.filter (fun n => n.IsModel)).length := by
  intro L
  induction L with
  | nil => intro m0 _; rfl
  | cons a L ih =>
    intro m0 h
    rw [List.foldl_cons]
    by_cases ha : a.IsModel = true
    · simp only [List.filter_cons, ha, if_true, List.length_cons] at h ⊢
      have hs : countStep m0 a = m0 + 1 := by
        simp only [countStep, ha, if_true, toUINT]
        omega
      rw [hs, ih _ (by omega)]
      omega
    · simp only [List.filter_cons, ha, Bool.false_eq_true, if_false] at h ⊢
      have hs : countStep m0 a = m0 := by
        simp only [countStep, ha, Bool.false_eq_true, if_false]
      rw [hs, ih _ h]

theorem boxAt_update {K : Type} (w : Nat → WorldBBoxPacket K) (m : Nat) (center half : Fin 3 → K)
    (i : Nat) (c : Fin 3) :
    boxAt (fun p => if p = m / 4 then (w p).SetLane (m % 4) center half else w p) i c =
      if i = m then (center c, half c) else boxAt w i c := by
  simp only [boxAt]
  by_cases him : i = m
  · subst him
    simp [WorldBBoxPacket.SetLane]
  · rw [if_neg him]
    by_cases hp : i / 4 = m / 4
    · have hl : i % 4 ≠ m % 4 := by omega
      simp only [hp, if_true, WorldBBoxPacket.SetLane, hl, if_false]
    · simp only [hp, if_false]

/-- The second loop stores the boxes of the model nodes in consecutive lanes from `modelId`
on and leaves every other lane as it is. -/
theorem foldl_fillStep {K : Type} : ∀ (L : List (RenderNode K)) (m0 : Nat)
    (w0 : Nat → WorldBBoxPacket K),
    m0 + (L.filter (fun n => n.IsModel)).length < 4294967296 →
    (L.foldl fillStep (m0, w0)).1 = m0 + (L.filter (fun n => n.IsModel)).length ∧
    ∀ (i : Nat) (c : Fin 3),
      (∀ node, m0 ≤ i → (L.filter (fun n => n.IsModel))[i - m0]? = some node →
        boxAt (L.foldl fillStep (m0, w0)).2 i c = (node.center c, node.half c)) ∧
      ((i < m0 ∨ m0 + (L.filter (fun n => n.IsModel)).length ≤ i) →
        boxAt (L.foldl fillStep (m0, w0)).2 i c = boxAt w0 i c) := by
  intro L
  induction L with
  | nil =>
    intro m0 w0 _
    refine ⟨rfl, fun i c => ⟨?_, fun _ => rfl⟩⟩
    intro node _ h
    simp at h
  | cons a L ih =>
    intro m0 w0 h
    rw [List.foldl_cons]
    by_cases ha : a.IsModel = true
    · simp only [List.filter_cons, ha, if_true, List.length_cons] at h ⊢
      have hs : fillStep (m0, w0) a = (m0 + 1, fun p => if p = m0 / 4
          then (w0 p).SetLane (m0 % 4) a.center a.half else w0 p) := by
        simp only [fillStep, ha, if_true]
        congr 1
        simp only [toUINT]
        omega
      rw [hs]
      obtain ⟨h1, h2⟩ := ih (m0 + 1) (fun p => if p = m0 / 4
          then (w0 p).SetLane (m0 % 4) a.center a.half else w0 p) (by omega)
      refine ⟨by rw [h1]; omega, fun i c => ⟨?_, ?_⟩⟩
      · intro node hi hnode
        by_cases him : i = m0
        · subst him
          rw [(h2 i c).2 (Or.inl (by omega)), boxAt_update, if_pos rfl]
          simp only [Nat.sub_self, List.getElem?_cons_zero, Option.some.injEq] at hnode
          rw [hnode]
        · have e : i - m0 = (i - (m0 + 1)) + 1 := by omega
          rw [e, List.getElem?_cons_succ] at hnode
          exact (h2 i c).1 node (by omega) hnode
      · intro hi
        rw [(h2 i c).2 (by omega), boxAt_update, if_neg (by omega)]
    · simp only [List.filter_cons, ha, Bool.false_eq_true, if_false] at h ⊢
      have hs : fillStep (m0, w0) a = (m0, w0) := by
        simp only [fillStep, ha, Bool.false_eq_true, if_false]
      rw [hs]
      exact ih m0 w0 h

section Packets

variable {K : Type} [LinearOrderedField K]

/-- C16. Packet layout.  After `CreateTransformedAABBoxes`, starting from `mNumModels = 0`,
over asset sets that contain `n` model nodes (`n + 3 < 2^32`): `mNumModels` is `n`, there are
`ceil(n/4)` packets, for every `i < n` lane `i % 4` of packet `i / 4` holds the world-space
center and half-extents of the `i`-th model node in traversal order, and every lane with index
`>= n` of the allocated packets has all six components equal to zero. -/
theorem packet_layout (s : AABBoxRasterizerSSE K) (pAssetSet : List (List (RenderNode K)))
    (h0 : s.mNumModels = 0) (hn : (modelNodes pAssetSet).length + 3 < 4294967296) :
    (CreateTransformedAABBoxes s pAssetSet).mNumModels = (modelNodes pAssetSet).length ∧
    (CreateTransformedAABBoxes s pAssetSet).numPackets =
      ((modelNodes pAssetSet).length + 3) / 4 ∧
    (∀ (i : Nat) (node : RenderNode K), (modelNodes pAssetSet)[i]? = some node →
      ∀ c : Fin 3, boxAt (CreateTransformedAABBoxes s pAssetSet).mpWorldBBox i c =
        (node.center c, node.half c)) ∧
    (∀ i : Nat, (modelNodes pAssetSet).length ≤ i →
      i < 4 * (CreateTransformedAABBoxes s pAssetSet).numPackets →
      ∀ c : Fin 3, boxAt (CreateTransformedAABBoxes s pAssetSet).mpWorldBBox i c = (0, 0)) := by
  have hcount : countModels s.mNumModels pAssetSet = (modelNodes pAssetSet).length := by
    simp only [countModels]
    rw [foldl_assetSets, foldl_countStep _ _ (by rw [h0]; simp only [modelNodes] at hn; omega),
      h0]
    simp only [modelNodes]
    omega
  have hpk : toUINT (((modelNodes pAssetSet).length : Int) + 3) / 4 =
      ((modelNodes pAssetSet).length + 3) / 4 := by
    simp only [toUINT]
    omega
  simp only [CreateTransformedAABBoxes, hcount, hpk, fillPackets]
  rw [foldl_assetSets]
  obtain ⟨-, h2⟩ := foldl_fillStep pAssetSet.flatten 0
    (fun i => if i < ((modelNodes pAssetSet).length + 3) / 4 then zeroPacket
      else s.mpWorldBBox i) (by simp only [modelNodes] at hn; omega)
  refine ⟨trivial, trivial, ?_, ?_⟩
  · intro i node hnode c
    exact (h2 i c).1 node (Nat.zero_le _) (by simpa [modelNodes] using hnode)
  · intro i hi hlt c
    rw [(h2 i c).2 (Or.inr (by simp only [modelNodes] at hi; omega))]
    have hp : i / 4 < ((modelNodes pAssetSet).length + 3) / 4 := by omega
    simp only [boxAt, hp, if_true, zeroPacket]

end Packets


/-- Instance of C16: the three models of `sampleAssetSets` fill lanes 0, 1, 2 of one packet,
lane 3 is zero. -/
theorem packet_layout_witness :
    (newRasterizer.mNumModels = 0 ∧ (modelNodes sampleAssetSets).length + 3 < 4294967296) ∧
    (CreateTransformedAABBoxes newRasterizer sampleAssetSets).numPackets = 1 ∧
    boxAt (CreateTransformedAABBoxes newRasterizer sampleAssetSets).mpWorldBBox 3 0 = (0, 0) := by
  have hlen : (modelNodes sampleAssetSets).length = 3 := by decide
  have h := packet_layout newRasterizer sampleAssetSets rfl (by rw [hlen]; decide)
  rw [hlen] at h
  exact ⟨⟨rfl, by rw [hlen]; decide⟩, h.2.1, h.2.2.2 3 (by decide) (by rw [h.2.1]; decide) 0⟩

theorem length_filter_add_not {α : Type} (p : α → Bool) : ∀ (l : List α),
    (l.filter p).length + (l.filter (fun a => !p a)).length = l.length := by
  intro l
  induction l with
  | nil => rfl
  | cons a l ih =>
    simp only [List.filter_cons]
    cases p a
    · simp only [Bool.false_eq_true, if_false, Bool.not_false, if_true, List.length_cons]
      omega
    · simp only [if_true, Bool.not_true, Bool.false_eq_true, if_false, List.length_cons]
      omega

/-- The render loop gives every model node the next index, renders the nodes whose flag is
set and counts them. -/
theorem foldl_renderStep {K : Type} (mpVisible : Nat → Bool) :
    ∀ (L : List (RenderNode K)) (st0 : RenderState K),
    st0.modelId + (L.filter (fun n => n.IsModel)).length < 4294967296 →
    (-2147483648 ≤ st0.count ∧ st0.count < 2147483648) →
    (L.foldl (renderStep mpVisible) st0).modelId =
      st0.modelId + (L.filter (fun n => n.IsModel)).length ∧
    (L.foldl (renderStep mpVisible) st0).rendered =
      st0.rendered ++ (((L.filter (fun n => n.IsModel)).enumFrom st0.modelId).filter
        (fun p => mpVisible p.1)).map Prod.snd ∧
    (L.foldl (renderStep mpVisible) st0).count =
      wrapINT (st0.count + ((((L.filter (fun n => n.IsModel)).enumFrom st0.modelId).filter
        (fun p => mpVisible p.1)).length : Nat)) := by
  intro L
  induction L with
  | nil =>
    intro st0 _ hc
    refine ⟨rfl, by simp, ?_⟩
    simp only [List.foldl_nil, List.filter_nil, List.enumFrom_nil, List.length_nil,
      Nat.cast_zero, add_zero]
    exact (wrapINT_of_range hc.1 hc.2).symm
  | cons a L ih =>
    intro st0 h hc
    rw [List.foldl_cons]
    by_cases ha : a.IsModel = true
    · simp only [List.filter_cons, ha, if_true, List.length_cons, List.enumFrom_cons] at h ⊢
      by_cases hv : mpVisible st0.modelId = true
      · have hs : renderStep mpVisible st0 a =
            RenderState.mk (st0.modelId + 1) (wrapINT (st0.count + 1)) (st0.rendered ++ [a]) := by
          simp only [renderStep, ha, if_true, hv]
          congr 1
          simp only [toUINT]
          omega
        rw [hs]
        obtain ⟨h1, h2, h3⟩ := ih (RenderState.mk (st0.modelId + 1) (wrapINT (st0.count + 1))
          (st0.rendered ++ [a])) (by simp only; omega) (wrapINT_range _)
        simp only at h1 h2 h3
        refine ⟨by rw [h1]; omega, ?_, ?_⟩
        · rw [h2]
          simp [hv]
        · rw [h3]
          simp only [hv, if_true, List.length_cons, wrapINT]
          push_cast
          omega
      · have hs : renderStep mpVisible st0 a =
            RenderState.mk (st0.modelId + 1) st0.count st0.rendered := by
          simp only [renderStep, ha, if_true, hv, Bool.false_eq_true, if_false]
          congr 1
          simp only [toUINT]
          omega
        rw [hs]
        obtain ⟨h1, h2, h3⟩ := ih (RenderState.mk (st0.modelId + 1) st0.count st0.rendered)
          (by simp only; omega) hc
        simp only at h1 h2 h3
        refine ⟨by rw [h1]; omega, ?_, ?_⟩
        · rw [h2]
          simp [hv]
        · rw [h3]
          simp [hv]
    · simp only [List.filter_cons, ha, Bool.false_eq_true, if_false] at h ⊢
      have hs : renderStep mpVisible st0 a = st0 := by
        simp only [renderStep, ha, Bool.false_eq_true, if_false]
      rw [hs]
      exact ih st0 h hc


/-- The unsigned difference `mNumModels - count` is exact even where the signed counter has
wrapped. -/
theorem toUINT_sub_wrapINT (n v : Nat) (hv : v ≤ n) (hn : n < 4294967296) :
    toUINT ((n : Int) - wrapINT (0 + (v : Int))) = n - v := by
  by_cases h : v < 2147483648
  · rw [wrapINT_of_range (by omega) (by omega)]
    simp only [toUINT]
    omega
  · have e : wrapINT (0 + (v : Int)) = (v : Int) - 4294967296 := by
      simp only [wrapINT]
      omega
    rw [e]
    simp only [toUINT]
    omega

section Render

variable {K : Type} [LinearOrderedField K]

theorem mNumModels_created (s0 : AABBoxRasterizerSSE K)
    (pAssetSet : List (List (RenderNode K))) (h0 : s0.mNumModels = 0)
    (hn : (modelNodes pAssetSet).length < 4294967296) :
    (CreateTransformedAABBoxes s0 pAssetSet).mNumModels = (modelNodes pAssetSet).length := by
  simp only [CreateTransformedAABBoxes, countModels]
  rw [foldl_assetSets, foldl_countStep _ _ (by rw [h0]; simp only [modelNodes] at hn; omega),
    h0]
  simp only [modelNodes]
  omega

/-- C15. Culled count and order.  When `RenderVisible` is given the asset sets from which
`CreateTransformedAABBoxes` (starting from `mNumModels = 0`) counted the models, fewer than
`2^32` of them, it renders exactly the model nodes whose visible flag is true, in traversal
order, the flag of a model being indexed by its ordinal among the model nodes (nodes that are
not models consume no index), and afterwards `mNumCulled` is the number of models whose
visible flag is false. -/
theorem culled_count_and_order (s0 s : AABBoxRasterizerSSE K)
    (pAssetSet : List (List (RenderNode K))) (h0 : s0.mNumModels = 0)
    (hn : (modelNodes pAssetSet).length < 4294967296)
    (hs : s.mNumModels = (CreateTransformedAABBoxes s0 pAssetSet).mNumModels) :
    (RenderVisible s pAssetSet).2 =
      ((modelNodes pAssetSet).enum.filter (fun p => s.mpVisible p.1)).map Prod.snd ∧
    (RenderVisible s pAssetSet).1.mNumCulled =
      ((modelNodes pAssetSet).enum.filter (fun p => !s.mpVisible p.1)).length := by
  have hcount : s.mNumModels = (modelNodes pAssetSet).length := by
    rw [hs]
    exact mNumModels_created s0 pAssetSet h0 hn
  have hlen : (0 : Nat) + (pAssetSet.flatten.filter (fun n => n.IsModel)).length
      < 4294967296 := by
    have : (pAssetSet.flatten.filter (fun n => n.IsModel)).length =
        (modelNodes pAssetSet).length := rfl
    omega
  obtain ⟨-, h2, h3⟩ := foldl_renderStep s.mpVisible pAssetSet.flatten
    (RenderState.mk 0 0 []) hlen
    ⟨show (-2147483648 : Int) ≤ 0 by decide, show (0 : Int) < 2147483648 by decide⟩
  have hsum := length_filter_add_not (fun p : Nat × RenderNode K => s.mpVisible p.1)
    (modelNodes pAssetSet).enum
  rw [List.enum_length] at hsum
  constructor
  · show (renderLoop s.mpVisible pAssetSet).rendered = _
    rw [renderLoop, foldl_assetSets, h2]
    rfl
  · show toUINT ((s.mNumModels : Int) - (renderLoop s.mpVisible pAssetSet).count) = _
    rw [renderLoop, foldl_assetSets, h3, hcount]
    have e : (List.filter (fun p => s.mpVisible p.1)
        (List.enumFrom (RenderState.mk 0 0 ([] : List (RenderNode K))).modelId
          (List.filter (fun n => n.IsModel) pAssetSet.flatten))) =
        (modelNodes pAssetSet).enum.filter (fun p => s.mpVisible p.1) := rfl
    rw [e]
    show toUINT (((modelNodes pAssetSet).length : Int) - wrapINT (0 + _)) = _
    rw [toUINT_sub_wrapINT _ _ (by omega) hn]
    omega

end Render

/-- Instance of C15: of the three models of `sampleAssetSets` only model 1 is flagged visible
in `sampleRasterizer`, taken with the model count 3; two models are culled. -/
theorem culled_count_and_order_witness :
    (newRasterizer.mNumModels = 0 ∧ (modelNodes sampleAssetSets).length < 4294967296 ∧
      ({ sampleRasterizer with mNumModels := 3 } : AABBoxRasterizerSSE Rat).mNumModels =
        (CreateTransformedAABBoxes newRasterizer sampleAssetSets).mNumModels) ∧
    (RenderVisible { sampleRasterizer with mNumModels := 3 } sampleAssetSets).1.mNumCulled
      = 2 := by
  have hlen : (modelNodes sampleAssetSets).length = 3 := by decide
  have hlt : (modelNodes sampleAssetSets).length < 4294967296 := by rw [hlen]; decide
  have hm : ({ sampleRasterizer with mNumModels := 3 } : AABBoxRasterizerSSE Rat).mNumModels =
      (CreateTransformedAABBoxes newRasterizer sampleAssetSets).mNumModels := by
    rw [mNumModels_created newRasterizer sampleAssetSets rfl hlt, hlen]
  have h := (culled_count_and_order newRasterizer { sampleRasterizer with mNumModels := 3 }
    sampleAssetSets rfl hlt hm).2
  refine ⟨⟨rfl, hlt, hm⟩, ?_⟩
  rw [h]
  decide
/-! ## Theorems: barycentric depth -/

/-- At the pixel of vertex `i` the exact edge function of edge `e` is the area when `e = i`
and zero otherwise. -/
theorem edgeExact_at_vertex {K : Type} (t : Triangle K) (e i : Fin 3) :
    edgeExact t e (t.X i) (t.Y i) = if e = i then areaExact t else 0 := by
  fin_cases e <;> fin_cases i <;>
    simp [edgeExact, areaExact] <;> ring

section Depth

variable {K : Type} [LinearOrderedField K]

/-- The interpolated depth as a weighted mean, given that the edge values sum to the area. -/
theorem quadDepth_eq_mean (t : Triangle K) (q : Quad) (l : Fin 4) (harea : triArea t ≠ 0)
    (hsum : q.alpha l + q.beta l + q.gama l = triArea t) :
    quadDepth (zPlane t) q l =
      ((q.alpha l : K) * t.Z 0 + (q.beta l : K) * t.Z 1 + (q.gama l : K) * t.Z 2) /
        (triArea t : K) := by
  have hne : (triArea t : K) ≠ 0 := Int.cast_ne_zero.2 harea
  have hs : (q.alpha l : K) = (triArea t : K) - (q.beta l : K) - (q.gama l : K) := by
    rw [← hsum]
    push_cast
    ring
  simp only [quadDepth, itof, zPlane, oneOverTriArea, Matrix.cons_val_zero, Matrix.cons_val_one,
    Matrix.head_cons, Matrix.cons_val_two, Matrix.tail_cons]
  rw [hs]
  field_simp
  ring

/-- A weighted mean with non-negative weights of positive total lies between the least and
the greatest of the three values. -/
theorem mean_between (a b g s z0 z1 z2 : K) (ha : 0 ≤ a) (hb : 0 ≤ b) (hg : 0 ≤ g)
    (hs : a + b + g = s) (hpos : 0 < s) :
    min (min z0 z1) z2 ≤ (a * z0 + b * z1 + g * z2) / s ∧
    (a * z0 + b * z1 + g * z2) / s ≤ max (max z0 z1) z2 := by
  have l0 : min (min z0 z1) z2 ≤ z0 := le_trans (min_le_left _ _) (min_le_left _ _)
  have l1 : min (min z0 z1) z2 ≤ z1 := le_trans (min_le_left _ _) (min_le_right _ _)
  have l2 : min (min z0 z1) z2 ≤ z2 := min_le_right _ _
  have u0 : z0 ≤ max (max z0 z1) z2 := le_trans (le_max_left _ _) (le_max_left _ _)
  have u1 : z1 ≤ max (max z0 z1) z2 := le_trans (le_max_right _ _) (le_max_left _ _)
  have u2 : z2 ≤ max (max z0 z1) z2 := le_max_right _ _
  constructor
  · rw [le_div_iff₀ hpos, ← hs]
    nlinarith [mul_le_mul_of_nonneg_left l0 ha, mul_le_mul_of_nonneg_left l1 hb,
      mul_le_mul_of_nonneg_left l2 hg]
  · rw [div_le_iff₀ hpos, ← hs]
    nlinarith [mul_le_mul_of_nonneg_left u0 ha, mul_le_mul_of_nonneg_left u1 hb,
      mul_le_mul_of_nonneg_left u2 hg]

/-- C21. Barycentric depth.  In exact arithmetic (the edge values not overflowing 32 bits),
for every triangle with non-zero area and every lane of every visited quad, the depth the
rasterizer computes, `Z0 + beta*Z1 + gama*Z2` with `Z1 = (z1 - z0)/area` and
`Z2 = (z2 - z0)/area`, equals `(alpha*z0 + beta*z1 + gama*z2)/area`; hence for every covered
lane of a positive-area triangle it lies between `min(z0, z1, z2)` and `max(z0, z1, z2)`, and
at the pixel of vertex `i` it equals `z_i`. -/
theorem barycentric_depth (k : Constants) (tile : Tile) (t : Triangle K) (q : Quad)
    (l : Fin 4) (hq : q ∈ traverse k tile t) (harea : triArea t ≠ 0)
    (hfit : EdgesFit k tile t) :
    quadDepth (zPlane t) q l =
      t.Z 0 + (q.beta l : K) * ((t.Z 1 - t.Z 0) / (triArea t : K))
        + (q.gama l : K) * ((t.Z 2 - t.Z 0) / (triArea t : K)) ∧
    quadDepth (zPlane t) q l =
      ((q.alpha l : K) * t.Z 0 + (q.beta l : K) * t.Z 1 + (q.gama l : K) * t.Z 2) /
        (triArea t : K) ∧
    (0 < triArea t → ¬ quadMask q l < 0 →
      min (min (t.Z 0) (t.Z 1)) (t.Z 2) ≤ quadDepth (zPlane t) q l ∧
      quadDepth (zPlane t) q l ≤ max (max (t.Z 0) (t.Z 1)) (t.Z 2)) ∧
    (∀ i : Fin 3, q.c + colOffset l = t.X i → q.r + rowOffset l = t.Y i →
      quadDepth (zPlane t) q l = t.Z i) := by
  have hA : areaExact t = triArea t := by
    rw [triArea_eq_wrap, wrapINT_of_range hfit.1.1 hfit.1.2]
  obtain ⟨ha, hb, hg⟩ := lane_eq_exact k tile t q hq l (hfit.2 q hq l)
  have hsum : q.alpha l + q.beta l + q.gama l = triArea t := by
    rw [ha, hb, hg, edgeExact_sum, hA]
  have hmean := quadDepth_eq_mean t q l harea hsum
  refine ⟨?_, hmean, ?_, ?_⟩
  · simp only [quadDepth, itof, zPlane, oneOverTriArea, Matrix.cons_val_zero,
      Matrix.cons_val_one, Matrix.head_cons, Matrix.cons_val_two, Matrix.tail_cons]
    ring
  · intro hpos hmask
    rw [quadMask_neg_iff] at hmask
    rw [hmean]
    apply mean_between
    · exact Int.cast_nonneg.2 (by omega)
    · exact Int.cast_nonneg.2 (by omega)
    · exact Int.cast_nonneg.2 (by omega)
    · rw [← hsum]; push_cast; ring
    · exact Int.cast_pos.2 hpos
  · intro i hx hy
    rw [hx, hy] at hb hg
    apply quadDepth_at_vertex t q l i harea
    · rw [hb, edgeExact_at_vertex, hA]
      fin_cases i <;> simp
    · rw [hg, edgeExact_at_vertex, hA]
      fin_cases i <;> simp

end Depth

/-- Instance of C21: the quad at the origin of tile 0 for `sampleTriangle`; lane 0 is the
pixel of vertex 0, where the depth is `z0 = 1`. -/
theorem barycentric_depth_witness :
    (triArea sampleTriangle ≠ 0 ∧
      EdgesFit sampleConstants (tileOf sampleConstants 0) sampleTriangle) ∧
    ∃ q ∈ traverse sampleConstants (tileOf sampleConstants 0) sampleTriangle,
      q.c = 0 ∧ q.r = 0 ∧ quadDepth (zPlane sampleTriangle) q 0 = 1 := by
  have harea : triArea sampleTriangle ≠ 0 := by decide
  have hy : startY (tileOf sampleConstants 0) sampleTriangle + 2 * (0 : Nat) <
      endY (tileOf sampleConstants 0) sampleTriangle := by
    simp only [startY, endY, land_neg_two]
    decide
  have hx : startX (tileOf sampleConstants 0) sampleTriangle + 2 * (0 : Nat) <
      endX (tileOf sampleConstants 0) sampleTriangle := by
    simp only [startX, endX, land_neg_two]
    decide
  have sy : startY (tileOf sampleConstants 0) sampleTriangle = 0 := by
    simp only [startY, land_neg_two]
    decide
  have sx : startX (tileOf sampleConstants 0) sampleTriangle = 0 := by
    simp only [startX, land_neg_two]
    decide
  obtain ⟨q, hq, hr, hc⟩ := traverse_complete sampleConstants (tileOf sampleConstants 0)
    sampleTriangle 0 0 hy hx
  rw [sy] at hr
  rw [sx] at hc
  simp only [Nat.cast_zero, mul_zero, add_zero] at hr hc
  refine ⟨⟨harea, EdgesFit_sampleTriangle⟩, q, hq, hc, hr, ?_⟩
  have h := (barycentric_depth sampleConstants (tileOf sampleConstants 0) sampleTriangle q 0 hq
    harea EdgesFit_sampleTriangle).2.2.2 0 (by rw [hc]; rfl) (by rw [hr]; rfl)
  rw [h]
  rfl
/-! ## Theorems: frustum culling is conservative -/

section Conservative

variable {K : Type} [LinearOrderedField K]

/-- The flag that the packet loop leaves at `4*i + k` for a processed packet `i` is the sign
bit of lane `k` of `inMask`. -/
theorem flag_eq_inMaskOf (s : AABBoxRasterizerSSE K) (pFrustum : CPUTFrustum K)
    (start end_ i : Nat) (k : Fin 4) (hstart : packetStart start ≤ i)
    (hend : i < packetEnd end_) :
    (CalcInsideViewFrustum s pFrustum start end_).mpInsideViewFrustum (4 * i + k.val) =
      inMaskOf (s.mpWorldBBox i) pFrustum k := by
  have hmem : i ∈ packetRange start end_ := (mem_packetRange start end_ i).2 ⟨hstart, hend⟩
  simp only [CalcInsideViewFrustum]
  rw [Nat.mul_comm 4 i]
  rw [foldl_writeFlags_own (fun i => movemask (inMaskOf (s.mpWorldBBox i) pFrustum)) i k _ _
    hmem]
  exact maskBit_movemask _ k

/-- Per component, the corner of the code has the least product with the normal among the
points between `center - half` and `center + half`. -/
theorem corner_component_le_point (n center half p : K) (hlo : center - half ≤ p)
    (hhi : p ≤ center + half) :
    n * (center - xorSign half (signBit n)) ≤ n * p := by
  simp only [xorSign, signBit]
  by_cases hn : n < 0
  · simp only [hn, decide_True, if_true]
    nlinarith [mul_nonneg (le_of_lt (neg_pos.2 hn)) (sub_nonneg.2 hhi)]
  · simp only [hn, decide_False, Bool.false_eq_true, if_false]
    have hn0 : 0 ≤ n := not_lt.1 hn
    nlinarith [mul_nonneg hn0 (sub_nonneg.2 hlo)]

/-- The dot product of the code is at most the signed distance of any point of the box. -/
theorem planeDot_le_point (box : WorldBBoxPacket K) (pFrustum : CPUTFrustum K) (j : Fin 6)
    (l : Fin 4) (p : Fin 3 → K)
    (hp : ∀ c : Fin 3, box.mCenter c l - box.mHalf c l ≤ p c ∧
      p c ≤ box.mCenter c l + box.mHalf c l) :
    planeDot box pFrustum j l ≤
      signedDistance (pFrustum.mpNormal j) (pFrustum.mPlanes (3 * 8 + j.val)) p := by
  rw [planeDot_eq_signedDistance]
  simp only [signedDistance, corner, halfSign, planeNormalSign, planeNormal, splat]
  have h0 := corner_component_le_point (pFrustum.mpNormal j 0) (box.mCenter 0 l)
    (box.mHalf 0 l) (p 0) (hp 0).1 (hp 0).2
  have h1 := corner_component_le_point (pFrustum.mpNormal j 1) (box.mCenter 1 l)
    (box.mHalf 1 l) (p 1) (hp 1).1 (hp 1).2
  have h2 := corner_component_le_point (pFrustum.mpNormal j 2) (box.mCenter 2 l)
    (box.mHalf 2 l) (p 2) (hp 2).1 (hp 2).2
  linarith

/-- The corners of a box with non-negative half-extents are points of the box. -/
theorem boxCorner_in_box (center half : Fin 3 → K) (hhalf : ∀ c, 0 ≤ half c)
    (sgn : Fin 3 → Bool) (c : Fin 3) :
    center c - half c ≤ boxCorner center half sgn c ∧
      boxCorner center half sgn c ≤ center c + half c := by
  have := hhalf c
  simp only [boxCorner]
  split <;> constructor <;> linarith

/-- C22. Frustum culling is conservative.  In exact arithmetic, for every box with
non-negative half-extents in a processed packet: if `CalcInsideViewFrustum` flags the box as
outside then there is a frustum plane for which all eight corners of the box have signed
distance `n.p + d >= 0`; and every box that has a point with negative signed distance to all
six planes is flagged inside. -/
theorem frustum_culling_conservative (s : AABBoxRasterizerSSE K) (pFrustum : CPUTFrustum K)
    (start end_ i : Nat) (k : Fin 4) (hstart : packetStart start ≤ i)
    (hend : i < packetEnd end_) (hhalf : ∀ c : Fin 3, 0 ≤ (s.mpWorldBBox i).mHalf c k) :
    ((CalcInsideViewFrustum s pFrustum start end_).mpInsideViewFrustum (4 * i + k.val)
        = false →
      ∃ j : Fin 6, ∀ sgn : Fin 3 → Bool,
        0 ≤ signedDistance (pFrustum.mpNormal j) (pFrustum.mPlanes (3 * 8 + j.val))
          (boxCorner (fun c => (s.mpWorldBBox i).mCenter c k)
            (fun c => (s.mpWorldBBox i).mHalf c k) sgn)) ∧
    (∀ p : Fin 3 → K,
      (∀ c : Fin 3, (s.mpWorldBBox i).mCenter c k - (s.mpWorldBBox i).mHalf c k ≤ p c ∧
        p c ≤ (s.mpWorldBBox i).mCenter c k + (s.mpWorldBBox i).mHalf c k) →
      (∀ j : Fin 6,
        signedDistance (pFrustum.mpNormal j) (pFrustum.mPlanes (3 * 8 + j.val)) p < 0) →
      (CalcInsideViewFrustum s pFrustum start end_).mpInsideViewFrustum (4 * i + k.val)
        = true) := by
  rw [flag_eq_inMaskOf s pFrustum start end_ i k hstart hend]
  constructor
  · intro hout
    have hnot : ¬ ∀ j : Fin 6, planeDot (s.mpWorldBBox i) pFrustum j k < 0 := by
      intro hall
      rw [(inMaskOf_iff _ _ k).2 hall] at hout
      exact Bool.noConfusion hout
    obtain ⟨j, hj⟩ := not_forall.1 hnot
    refine ⟨j, fun sgn => ?_⟩
    exact le_trans (not_lt.1 hj) (planeDot_le_point _ _ j k _
      (boxCorner_in_box _ _ hhalf sgn))
  · intro p hp hneg
    rw [inMaskOf_iff]
    intro j
    exact lt_of_le_of_lt (planeDot_le_point _ _ j k p hp) (hneg j)

end Conservative

/-- Instance of C22: the unit box in lane 0 of packet 0 of `sampleRasterizer` holds the point
(-1, 0, 0), at signed distance -1 to the six planes of `sampleFrustum`; it is flagged
inside. -/
theorem frustum_culling_conservative_witness :
    (packetStart 0 ≤ 0 ∧ 0 < packetEnd 4 ∧
      ∀ c : Fin 3, 0 ≤ (sampleRasterizer.mpWorldBBox 0).mHalf c 0) ∧
    (CalcInsideViewFrustum sampleRasterizer sampleFrustum 0 4).mpInsideViewFrustum
      (4 * 0 + (0 : Fin 4).val) = true := by
  refine ⟨⟨by decide, by decide, samplePacket_half⟩, ?_⟩
  apply (frustum_culling_conservative sampleRasterizer sampleFrustum 0 4 0 0 (by decide)
    (by decide) samplePacket_half).2 ![-1, 0, 0]
  · intro c
    fin_cases c <;>
      simp [sampleRasterizer, samplePacket, WorldBBoxPacket.SetLane, zeroPacket]
  · intro j
    simp [signedDistance, sampleFrustum]
/-! ## Theorems: the extent of the flag writes -/

theorem mem_packetWrites (i x : Nat) : x ∈ packetWrites i ↔ x / 4 = i := by
  simp only [packetWrites, List.mem_cons, List.mem_singleton, List.not_mem_nil, or_false]
  omega

/-- The written indices are those whose packet the loop visits. -/
theorem mem_flagWrites (start end_ x : Nat) :
    x ∈ flagWrites start end_ ↔ packetStart start ≤ x / 4 ∧ x / 4 < packetEnd end_ := by
  simp only [flagWrites, List.mem_flatMap, mem_packetWrites, mem_packetRange]
  constructor
  · rintro ⟨i, hi, rfl⟩; exact hi
  · intro h; exact ⟨x / 4, h, rfl⟩

/-- A flag outside the written indices keeps its value. -/
theorem flag_unchanged {K : Type} [LinearOrderedField K] (s : AABBoxRasterizerSSE K)
    (pFrustum : CPUTFrustum K) (start end_ x : Nat) (hx : x ∉ flagWrites start end_) :
    (CalcInsideViewFrustum s pFrustum start end_).mpInsideViewFrustum x =
      s.mpInsideViewFrustum x := by
  simp only [CalcInsideViewFrustum]
  apply foldl_writeFlags_other (fun i => movemask (inMaskOf (s.mpWorldBBox i) pFrustum))
  intro a ha hxa
  apply hx
  rw [mem_flagWrites, hxa]
  exact (mem_packetRange start end_ a).1 ha

/-- The written indices stay below `end` rounded up to a multiple of four; they stay below
`end` when `end` is a multiple of four. -/
theorem flagWrites_lt (start end_ x : Nat) (hend : end_ + 3 < 4294967296)
    (hx : x ∈ flagWrites start end_) :
    x < end_ + 3 ∧ (end_ % 4 = 0 → x < end_) := by
  rw [mem_flagWrites] at hx
  have he : packetEnd end_ = (end_ + 3) / 4 := by
    simp only [packetEnd, toUINT]
    omega
  rw [he] at hx
  omega

/-- When `end` is not a multiple of four and the range is not empty, index `end` itself is
written, and so is every index up to the next multiple of four. -/
theorem flagWrites_beyond (start end_ x : Nat) (hend : end_ + 3 < 4294967296)
    (hse : start ≤ end_) (hstart : start % 4 = 0) (hx : end_ ≤ x) (hx4 : x / 4 = (end_ - 1) / 4)
    (hpos : 1 ≤ end_) :
    x ∈ flagWrites start end_ := by
  rw [mem_flagWrites]
  have he : packetEnd end_ = (end_ + 3) / 4 := by
    simp only [packetEnd, toUINT]
    omega
  have hs : packetStart start = (start + 3) / 4 := by
    simp only [packetStart, toUINT]
    omega
  rw [he, hs]
  omega

/-- The lanes behind the last model in the allocated packets hold zero boxes. -/
theorem boxAt_trailing {K : Type} [LinearOrderedField K] (s : AABBoxRasterizerSSE K)
    (pAssetSet : List (List (RenderNode K))) (h0 : s.mNumModels = 0)
    (hn : (modelNodes pAssetSet).length + 3 < 4294967296) (i : Nat)
    (hi : (modelNodes pAssetSet).length ≤ i)
    (hlt : i < 4 * (((modelNodes pAssetSet).length + 3) / 4)) (c : Fin 3) :
    boxAt (CreateTransformedAABBoxes s pAssetSet).mpWorldBBox i c = (0, 0) := by
  have hcount : countModels s.mNumModels pAssetSet = (modelNodes pAssetSet).length := by
    simp only [countModels]
    rw [foldl_assetSets, foldl_countStep _ _ (by rw [h0]; simp only [modelNodes] at hn; omega),
      h0]
    simp only [modelNodes]
    omega
  have hpk : toUINT (((modelNodes pAssetSet).length : Int) + 3) / 4 =
      ((modelNodes pAssetSet).length + 3) / 4 := by
    simp only [toUINT]
    omega
  simp only [CreateTransformedAABBoxes, hcount, hpk, fillPackets]
  rw [foldl_assetSets]
  obtain ⟨-, h2⟩ := foldl_fillStep pAssetSet.flatten 0
    (fun i => if i < ((modelNodes pAssetSet).length + 3) / 4 then zeroPacket
      else s.mpWorldBBox i) (by simp only [modelNodes] at hn; omega)
  rw [(h2 i c).2 (Or.inr (by simp only [modelNodes] at hi; omega))]
  have hp : i / 4 < ((modelNodes pAssetSet).length + 3) / 4 := by omega
  simp only [boxAt, hp, if_true, zeroPacket]

/-- The dot product of a lane that holds the zero box is the plane distance. -/
theorem planeDot_zero_box {K : Type} [LinearOrderedField K] (box : WorldBBoxPacket K)
    (pFrustum : CPUTFrustum K) (j : Fin 6) (l : Fin 4)
    (hc : ∀ c : Fin 3, box.mCenter c l = 0) (hh : ∀ c : Fin 3, box.mHalf c l = 0) :
    planeDot box pFrustum j l = pFrustum.mPlanes (3 * 8 + j.val) := by
  simp only [planeDot, corner, halfSign, xorSign, planeDist, splat, hc, hh]
  simp

/-- C23, the code at a failing input.  With five models the flag array is allocated with
length 5; the call `CalcInsideViewFrustum(pFrustum, 0, 5)` visits packets 0 and 1 and writes
the indices 0 to 7.  Index 7 lies outside the array: the value there, `true` before the call,
is `false` after it (lane 3 of packet 1 is a zero box at distance 0 of every plane of
`sampleFrustum`). -/
theorem flag_write_out_of_bounds :
    fiveModelRasterizer.insideViewFrustumLength = 5 ∧
    flagWrites 0 5 = [0, 1, 2, 3, 4, 5, 6, 7] ∧
    fiveModelRasterizer.mpInsideViewFrustum 7 = true ∧
    (CalcInsideViewFrustum fiveModelRasterizer sampleFrustum 0 5).mpInsideViewFrustum 7
      = false := by
  have hlen : (modelNodes fiveModels).length = 5 := by decide
  have hcount : fiveModelRasterizer.insideViewFrustumLength = 5 := by
    show (CreateTransformedAABBoxes
      { newRasterizer with mpInsideViewFrustum := fun _ => true } fiveModels).mNumModels = 5
    rw [mNumModels_created _ fiveModels rfl (by rw [hlen]; decide), hlen]
  refine ⟨hcount, by decide, rfl, ?_⟩
  have hflag := flag_eq_inMaskOf fiveModelRasterizer sampleFrustum 0 5 1 3 (by decide)
    (by decide)
  have h7 : 4 * 1 + (3 : Fin 4).val = 7 := rfl
  rw [h7] at hflag
  rw [hflag]
  have hbox : ∀ c : Fin 3, boxAt fiveModelRasterizer.mpWorldBBox 7 c = (0, 0) := by
    intro c
    exact boxAt_trailing _ fiveModels rfl (by rw [hlen]; decide) 7 (by rw [hlen]; decide)
      (by rw [hlen]; decide) c
  have hc : ∀ c : Fin 3, (fiveModelRasterizer.mpWorldBBox 1).mCenter c 3 = 0 := by
    intro c
    exact congrArg Prod.fst (hbox c)
  have hh : ∀ c : Fin 3, (fiveModelRasterizer.mpWorldBBox 1).mHalf c 3 = 0 := by
    intro c
    exact congrArg Prod.snd (hbox c)
  cases hm : inMaskOf (fiveModelRasterizer.mpWorldBBox 1) sampleFrustum 3
  · rfl
  · have h := (inMaskOf_iff _ _ 3).1 hm 0
    rw [planeDot_zero_box _ _ 0 3 hc hh] at h
    simp [sampleFrustum] at h
/-! ## Theorems: the packet ranges of a split -/

/-- A call processes a packet once if the packet lies in its range, and not at all
otherwise. -/
theorem count_packetRange (start end_ p : Nat) :
    (packetRange start end_).count p =
      if packetStart start ≤ p ∧ p < packetEnd end_ then 1 else 0 := by
  rw [List.count_eq_of_nodup (by simp only [packetRange]; exact List.nodup_range' _ _)]
  simp only [mem_packetRange]

theorem packetWrites_nodup (i : Nat) : (packetWrites i).Nodup := by
  simp only [packetWrites, List.nodup_cons, List.mem_cons, List.mem_singleton,
    List.not_mem_nil, not_false_eq_true, List.nodup_nil, and_true, or_false]
  omega

/-- A call writes a flag as often as it processes the packet of the flag. -/
theorem count_flagWrites (start end_ x : Nat) :
    (flagWrites start end_).count x = (packetRange start end_).count (x / 4) := by
  have hgen : ∀ L : List Nat, (L.flatMap packetWrites).count x = L.count (x / 4) := by
    intro L
    induction L with
    | nil => rfl
    | cons i L ih =>
      rw [List.flatMap_cons, List.count_append, ih, List.count_cons,
        List.count_eq_of_nodup (packetWrites_nodup i)]
      simp only [mem_packetWrites, beq_iff_eq]
      have e : (x / 4 = i) = (i = x / 4) := propext ⟨Eq.symm, Eq.symm⟩
      simp only [e]
      omega
  exact hgen _

theorem timesWritten_eq (s : List Nat) (x : Nat) :
    timesWritten s x = timesProcessed s (x / 4) := by
  simp only [timesWritten, timesProcessed, count_flagWrites]

/-- The first point of a split is at most the last. -/
theorem chain_head_le_last : ∀ (s : List Nat) (a last : Nat),
    List.Chain' (fun x y => x ≤ y) (a :: s) → (a :: s).getLast? = some last → a ≤ last := by
  intro s
  induction s with
  | nil =>
    intro a last _ hl
    simp only [List.getLast?_singleton, Option.some.injEq] at hl
    omega
  | cons b rest ih =>
    intro a last hc hl
    rw [List.chain'_cons] at hc
    rw [List.getLast?_cons_cons] at hl
    exact le_trans hc.1 (ih b last hc.2 hl)

/-- The calls of a split that starts at `a` process exactly the packets from `ceil(a/4)` up to
`ceil(last/4)`, each once. -/
theorem timesProcessed_chain : ∀ (s : List Nat) (a last p : Nat),
    List.Chain' (fun x y => x ≤ y) (a :: s) → (a :: s).getLast? = some last →
    last + 3 < 4294967296 →
    timesProcessed (a :: s) p =
      if (a + 3) / 4 ≤ p ∧ p < (last + 3) / 4 then 1 else 0 := by
  intro s
  induction s with
  | nil =>
    intro a last p _ hl _
    simp only [List.getLast?_singleton, Option.some.injEq] at hl
    subst hl
    simp only [timesProcessed, taskRanges, List.tail_cons, List.zip_nil_right, List.map_nil,
      List.sum_nil]
    rw [if_neg (by omega)]
  | cons b rest ih =>
    intro a last p hc hl hfit
    have hab : a ≤ b := (List.chain'_cons.1 hc).1
    have hc2 : List.Chain' (fun x y => x ≤ y) (b :: rest) := (List.chain'_cons.1 hc).2
    rw [List.getLast?_cons_cons] at hl
    have hbl : b ≤ last := chain_head_le_last rest b last hc2 hl
    have ih2 := ih b last p hc2 hl hfit
    have hstep : timesProcessed (a :: b :: rest) p =
        (packetRange a b).count p + timesProcessed (b :: rest) p := by
      simp only [timesProcessed, taskRanges, List.tail_cons, List.zip_cons_cons, List.map_cons,
        List.sum_cons]
    rw [hstep, ih2, count_packetRange]
    have hs : packetStart a = (a + 3) / 4 := by
      simp only [packetStart, toUINT]
      omega
    have he : packetEnd b = (b + 3) / 4 := by
      simp only [packetEnd, toUINT]
      omega
    rw [hs, he]
    have m1 : (a + 3) / 4 ≤ (b + 3) / 4 := by omega
    have m2 : (b + 3) / 4 ≤ (last + 3) / 4 := by omega
    split <;> split <;> split <;> omega

/-- C24. Packet ranges partition the packets.  For every model count `n` with
`n + 3 < 2^32` and every split `0 = s_0 <= s_1 <= ... <= s_K = n` of the models into
consecutive task ranges, the calls `CalcInsideViewFrustum(s_j, s_{j+1})` for `j = 0..K-1`
process every packet index in `[0, ceil(n/4))` exactly once and no other packet, so the
frustum flag of every model is written by exactly one call. -/
theorem packet_ranges_partition (s : List Nat) (n : Nat)
    (hchain : List.Chain' (fun x y => x ≤ y) s) (hhead : s.head? = some 0)
    (hlast : s.getLast? = some n) (hn : n + 3 < 4294967296) :
    (∀ p : Nat, timesProcessed s p = if p < (n + 3) / 4 then 1 else 0) ∧
    (∀ x : Nat, timesWritten s x = if x < 4 * ((n + 3) / 4) then 1 else 0) ∧
    (∀ m : Nat, m < n → timesWritten s m = 1) := by
  cases s with
  | nil => simp at hhead
  | cons a rest =>
    simp only [List.head?_cons, Option.some.injEq] at hhead
    subst hhead
    have hp : ∀ p : Nat, timesProcessed (0 :: rest) p = if p < (n + 3) / 4 then 1 else 0 := by
      intro p
      rw [timesProcessed_chain rest 0 n p hchain hlast hn]
      split <;> split <;> omega
    refine ⟨hp, ?_, ?_⟩
    · intro x
      rw [timesWritten_eq, hp]
      split <;> split <;> omega
    · intro m hm
      rw [timesWritten_eq, hp, if_pos (by omega)]

theorem chain_sampleSplit : List.Chain' (fun x y => x ≤ y) [0, 3, 6, 10] := by
  simp

/-- Instance of C24: ten models split at 0, 3, 6, 10; packet 1 is processed once, by the call
`(3, 6)`, and flag 4 is written once. -/
theorem packet_ranges_partition_witness :
    (List.Chain' (fun x y => x ≤ y) [0, 3, 6, 10] ∧ [0, 3, 6, 10].head? = some 0 ∧
      [0, 3, 6, 10].getLast? = some 10 ∧ 10 + 3 < 4294967296) ∧
    timesProcessed [0, 3, 6, 10] 1 = 1 ∧ timesWritten [0, 3, 6, 10] 4 = 1 :=
  ⟨⟨chain_sampleSplit, rfl, rfl, by decide⟩,
    (packet_ranges_partition [0, 3, 6, 10] 10 chain_sampleSplit rfl rfl (by decide)).1 1,
    (packet_ranges_partition [0, 3, 6, 10] 10 chain_sampleSplit rfl rfl (by decide)).2.2 4
      (by decide)⟩
/-! ## Theorems: pipeline ordering -/

theorem dependsOf_frame (k : Constants) (NUM_TILES : Nat) :
    dependsOf (TransformModelsAndRasterizeToDepthBuffer k NUM_TILES) TaskSetHandle.mXformMesh
      = [] ∧
    dependsOf (TransformModelsAndRasterizeToDepthBuffer k NUM_TILES) TaskSetHandle.mBinMesh
      = [TaskSetHandle.mXformMesh] ∧
    dependsOf (TransformModelsAndRasterizeToDepthBuffer k NUM_TILES) TaskSetHandle.mRasterize
      = [TaskSetHandle.mBinMesh] :=
  ⟨rfl, rfl, rfl⟩

theorem taskCountOf_frame (k : Constants) (NUM_TILES : Nat) :
    taskCountOf (TransformModelsAndRasterizeToDepthBuffer k NUM_TILES)
      TaskSetHandle.mXformMesh = k.NUM_XFORMVERTS_TASKS ∧
    taskCountOf (TransformModelsAndRasterizeToDepthBuffer k NUM_TILES)
      TaskSetHandle.mBinMesh = k.NUM_XFORMVERTS_TASKS ∧
    taskCountOf (TransformModelsAndRasterizeToDepthBuffer k NUM_TILES)
      TaskSetHandle.mRasterize = NUM_TILES :=
  ⟨rfl, rfl, rfl⟩

/-- Every task set of the frame is the rasterize set or one of its transitive
predecessors. -/
theorem mem_predecessors_frame (k : Constants) (NUM_TILES : Nat) (h : TaskSetHandle) :
    h ∈ predecessors (TransformModelsAndRasterizeToDepthBuffer k NUM_TILES)
      (TransformModelsAndRasterizeToDepthBuffer k NUM_TILES).length
      TaskSetHandle.mRasterize := by
  obtain ⟨d0, d1, d2⟩ := dependsOf_frame k NUM_TILES
  have hl : (TransformModelsAndRasterizeToDepthBuffer k NUM_TILES).length = 4 + 3 := rfl
  rw [hl]
  simp only [predecessors, d0, d1, d2, List.flatMap_cons, List.flatMap_nil, List.append_nil,
    List.mem_cons]
  cases h <;> simp

/-- C25. Pipeline ordering.  `TransformModelsAndRasterizeToDepthBuffer` creates the transform
set without dependency, the bin task set with the transform set as its only dependency and
the rasterize task set with the bin set as its only dependency, and waits on the rasterize
set; so in every execution that the task graph runner admits it does not return before every
transform, bin and rasterize task of the frame has completed, and no bin task starts before
all transform tasks have finished (nor a rasterize task before all bin tasks). -/
theorem pipeline_ordering (k : Constants) (NUM_TILES : Nat) (e : Execution)
    (hadm : e.admissible (TransformModelsAndRasterizeToDepthBuffer k NUM_TILES)) :
    (createdSet (TransformModelsAndRasterizeToDepthBuffer k NUM_TILES) TaskSetHandle.mXformMesh
        = some (TaskFunc.TransformMeshes, k.NUM_XFORMVERTS_TASKS, []) ∧
      createdSet (TransformModelsAndRasterizeToDepthBuffer k NUM_TILES) TaskSetHandle.mBinMesh
        = some (TaskFunc.BinTransformedMeshes, k.NUM_XFORMVERTS_TASKS,
            [TaskSetHandle.mXformMesh]) ∧
      createdSet (TransformModelsAndRasterizeToDepthBuffer k NUM_TILES)
          TaskSetHandle.mRasterize
        = some (TaskFunc.RasterizeBinnedTrianglesToDepthBuffer, NUM_TILES,
            [TaskSetHandle.mBinMesh]) ∧
      (TransformModelsAndRasterizeToDepthBuffer k NUM_TILES)[3]? =
        some (TaskMgrCall.WaitForSet TaskSetHandle.mRasterize)) ∧
    (∀ (h : TaskSetHandle) (taskId : Nat),
      taskId < taskCountOf (TransformModelsAndRasterizeToDepthBuffer k NUM_TILES) h →
      e.finish h taskId ≤
        e.returns ((TransformModelsAndRasterizeToDepthBuffer k NUM_TILES).length - 1)) ∧
    (∀ a b : Nat, a < k.NUM_XFORMVERTS_TASKS → b < k.NUM_XFORMVERTS_TASKS →
      e.finish TaskSetHandle.mXformMesh a ≤ e.start TaskSetHandle.mBinMesh b) ∧
    (∀ a b : Nat, a < k.NUM_XFORMVERTS_TASKS → b < NUM_TILES →
      e.finish TaskSetHandle.mBinMesh a ≤ e.start TaskSetHandle.mRasterize b) := by
  obtain ⟨-, hdep, hwait, hmono⟩ := hadm
  obtain ⟨d0, d1, d2⟩ := dependsOf_frame k NUM_TILES
  obtain ⟨c0, c1, c2⟩ := taskCountOf_frame k NUM_TILES
  refine ⟨⟨rfl, rfl, rfl, rfl⟩, ?_, ?_, ?_⟩
  · intro h taskId ht
    have h1 := hwait 3 TaskSetHandle.mRasterize rfl h (mem_predecessors_frame k NUM_TILES h)
      taskId ht
    exact le_trans h1 (hmono 3 _ (show 3 ≤ 4 + 3 - 1 by decide))
  · intro a b ha hb
    exact hdep TaskSetHandle.mBinMesh TaskSetHandle.mXformMesh b a
      (by rw [d1]; exact List.mem_singleton.2 rfl) (by rw [c1]; exact hb) (by rw [c0]; exact ha)
  · intro a b ha hb
    exact hdep TaskSetHandle.mRasterize TaskSetHandle.mBinMesh b a
      (by rw [d2]; exact List.mem_singleton.2 rfl) (by rw [c2]; exact hb) (by rw [c1]; exact ha)

/-- The runner admits `sampleExecution` for the frame of `sampleConstants` with four tiles. -/
theorem admissible_sampleExecution :
    sampleExecution.admissible (TransformModelsAndRasterizeToDepthBuffer sampleConstants 4) := by
  obtain ⟨d0, d1, d2⟩ := dependsOf_frame sampleConstants 4
  refine ⟨?_, ?_, ?_, ?_⟩
  · intro h taskId _
    simp only [sampleExecution]
    omega
  · intro h d taskId taskId2 hd _ _
    cases h
    · rw [d0] at hd; simp at hd
    · rw [d1] at hd
      rw [List.mem_singleton.1 hd]
      simp [sampleExecution, pipelineLevel]
    · rw [d2] at hd
      rw [List.mem_singleton.1 hd]
      simp [sampleExecution, pipelineLevel]
  · intro i h hi p _ taskId _
    have hi3 : 3 ≤ i := by
      by_contra hlt
      have : i = 0 ∨ i = 1 ∨ i = 2 := by omega
      rcases this with rfl | rfl | rfl <;>
        simp [TransformModelsAndRasterizeToDepthBuffer] at hi
    simp only [sampleExecution, if_neg (by omega : ¬ i < 3)]
    cases p <;> simp [pipelineLevel]
  · intro i j hij
    simp only [sampleExecution]
    split <;> split <;> omega

/-- Instance of C25: in `sampleExecution` the frame function returns at time 6, after the last
rasterize task, which completes at time 5. -/
theorem pipeline_ordering_witness :
    sampleExecution.admissible (TransformModelsAndRasterizeToDepthBuffer sampleConstants 4) ∧
    sampleExecution.finish TaskSetHandle.mRasterize 3 ≤
      sampleExecution.returns
        ((TransformModelsAndRasterizeToDepthBuffer sampleConstants 4).length - 1) :=
  ⟨admissible_sampleExecution,
    (pipeline_ordering sampleConstants 4 sampleExecution admissible_sampleExecution).2.1
      TaskSetHandle.mRasterize 3 (by decide)⟩
/-! ## Theorems: the coverage rule on a rasterized triangle -/

section FragmentPixels

variable {K : Type} [LinearOrderedField K]

/-- Every sample of a triangle is the depth of a covered lane of a visited quad, at the slot of
the pixel of that lane. -/
theorem fragment_pixel (k : Constants) (tile : Tile) (t : Triangle K) (f : Int × K)
    (hf : f ∈ triangleFragments k tile t) :
    ∃ q ∈ traverse k tile t, ∃ l : Fin 4, ¬ quadMask q l < 0 ∧
      f = (slotOf k.SCREENW (q.c + colOffset l) (q.r + rowOffset l),
        quadDepth (zPlane t) q l) := by
  simp only [triangleFragments, List.mem_flatMap] at hf
  obtain ⟨q, hq, hfq⟩ := hf
  simp only [quadFragments] at hfq
  split at hfq
  · simp at hfq
  · rw [List.mem_filterMap] at hfq
    obtain ⟨l, -, hl⟩ := hfq
    split at hl
    · simp at hl
    · rename_i hm
      simp only [Option.some.injEq] at hl
      obtain ⟨-, -, hslot⟩ := quad_layout_aux k tile t q l hq
      exact ⟨q, hq, l, hm, by rw [← hl, hslot]⟩

/-- A slot at which a triangle has no sample keeps its value. -/
theorem rasterizeTriangle_of_no_fragment (k : Constants) (tile : Tile) (t : Triangle K)
    (buf : Int → K) (s : Int) (h : ∀ f ∈ triangleFragments k tile t, f.1 ≠ s) :
    rasterizeTriangle k tile buf t s = buf s := by
  rw [rasterizeTriangle_eq_foldl, foldl_maxWrite_apply]
  have hnil : (triangleFragments k tile t).filter (fun f => decide (f.1 = s)) = [] := by
    rw [List.filter_eq_nil_iff]
    intro f hf
    simp only [decide_eq_true_eq]
    exact h f hf
  rw [hnil]
  rfl

/-- A sample bounds the value of its slot after the triangle from below. -/
theorem fragment_le_rasterizeTriangle (k : Constants) (tile : Tile) (t : Triangle K)
    (buf : Int → K) (f : Int × K) (hf : f ∈ triangleFragments k tile t) :
    f.2 ≤ rasterizeTriangle k tile buf t f.1 := by
  rw [rasterizeTriangle_eq_foldl, foldl_maxWrite_apply]
  apply mem_le_foldl_max
  simp only [List.mem_map, List.mem_filter, decide_eq_true_eq]
  exact ⟨f, ⟨hf, rfl⟩, rfl⟩

end FragmentPixels

/-- C10, counterexample to the claim as stated, on a rasterized triangle.  `sampleTriangle`,
with vertices (0,0), (3,0), (0,3) and depths 1, 2, 3, is rasterized in tile 0 over the zero
buffer; the quad at (2, 0) is visited.  In its lane 0, pixel (2, 0), the three edge values
are 3, 6, 0: the sign bit of the mask is clear, yet the lane is covered, its slot goes from 0
to at least the depth 5/3.  In its lane 3, pixel (3, 1), the edge values are -3, 9, 3: the
sign bit of the mask is set, yet the lane is not covered, its slot keeps the value 0 although
the depth computed there is 8/3. -/
theorem coverage_rule_counterexample :
    ∃ q ∈ traverse sampleConstants (tileOf sampleConstants 0) sampleTriangle,
      (q.c = 2 ∧ q.r = 0) ∧
      ((q.alpha 0 = 3 ∧ q.beta 0 = 6 ∧ q.gama 0 = 0) ∧ ¬ quadMask q 0 < 0 ∧
        zeroBuffer (q.idx + 0) = 0 ∧ quadDepth (zPlane sampleTriangle) q 0 = 5 / 3 ∧
        5 / 3 ≤ rasterizeTriangle sampleConstants (tileOf sampleConstants 0) zeroBuffer
          sampleTriangle (q.idx + 0)) ∧
      ((q.alpha 3 = -3 ∧ q.beta 3 = 9 ∧ q.gama 3 = 3) ∧ quadMask q 3 < 0 ∧
        quadDepth (zPlane sampleTriangle) q 3 = 8 / 3 ∧
        rasterizeTriangle sampleConstants (tileOf sampleConstants 0) zeroBuffer
          sampleTriangle (q.idx + 3) = 0) := by
  have hy : startY (tileOf sampleConstants 0) sampleTriangle + 2 * (0 : Nat) <
      endY (tileOf sampleConstants 0) sampleTriangle := by
    simp only [startY, endY, land_neg_two]
    decide
  have hx : startX (tileOf sampleConstants 0) sampleTriangle + 2 * (1 : Nat) <
      endX (tileOf sampleConstants 0) sampleTriangle := by
    simp only [startX, endX, land_neg_two]
    decide
  have sy : startY (tileOf sampleConstants 0) sampleTriangle = 0 := by
    simp only [startY, land_neg_two]
    decide
  have sx : startX (tileOf sampleConstants 0) sampleTriangle = 0 := by
    simp only [startX, land_neg_two]
    decide
  obtain ⟨q, hq, hr, hc⟩ := traverse_complete sampleConstants (tileOf sampleConstants 0)
    sampleTriangle 0 1 hy hx
  rw [sy] at hr
  rw [sx] at hc
  have hr0 : q.r = 0 := by omega
  have hc2 : q.c = 2 := by omega
  have hedge : ∀ (q2 : Quad) (l : Fin 4),
      q2 ∈ traverse sampleConstants (tileOf sampleConstants 0) sampleTriangle →
      q2.alpha l = 9 - 3 * (q2.c + colOffset l) - 3 * (q2.r + rowOffset l) ∧
      q2.beta l = 3 * (q2.c + colOffset l) ∧ q2.gama l = 3 * (q2.r + rowOffset l) := by
    intro q2 l hq2
    obtain ⟨ha, hb, hg⟩ := lane_eq_exact sampleConstants (tileOf sampleConstants 0)
      sampleTriangle q2 hq2 l (EdgesFit_sampleTriangle.2 q2 hq2 l)
    rw [ha, hb, hg]
    simp [edgeExact, sampleTriangle]
    omega
  have hdepth : ∀ (q2 : Quad) (l : Fin 4),
      q2 ∈ traverse sampleConstants (tileOf sampleConstants 0) sampleTriangle →
      quadDepth (zPlane sampleTriangle) q2 l =
        1 + ((3 * (q2.c + colOffset l) : Int) : Rat) * (1 / 9)
          + ((3 * (q2.r + rowOffset l) : Int) : Rat) * (2 / 9) := by
    intro q2 l hq2
    obtain ⟨-, hb, hg⟩ := hedge q2 l hq2
    have hA : triArea sampleTriangle = 9 := by decide
    simp only [quadDepth, itof, zPlane, oneOverTriArea, hb, hg, hA]
    simp only [sampleTriangle, Matrix.cons_val_zero, Matrix.cons_val_one, Matrix.head_cons,
      Matrix.cons_val_two, Matrix.tail_cons]
    push_cast
    norm_num
  obtain ⟨a0, b0, g0⟩ := hedge q 0 hq
  obtain ⟨a3, b3, g3⟩ := hedge q 3 hq
  have co0 : colOffset 0 = 0 := rfl
  have ro0 : rowOffset 0 = 0 := rfl
  have co3 : colOffset 3 = 1 := rfl
  have ro3 : rowOffset 3 = 1 := rfl
  simp only [hc2, hr0, co0, ro0] at a0 b0 g0
  simp only [hc2, hr0, co3, ro3] at a3 b3 g3
  have m0 : ¬ quadMask q 0 < 0 := by
    rw [quadMask_neg_iff, a0, b0, g0]
    omega
  have m3 : quadMask q 3 < 0 := by
    rw [quadMask_neg_iff, a3]
    exact Or.inl (by omega)
  have d0 : quadDepth (zPlane sampleTriangle) q 0 = 5 / 3 := by
    rw [hdepth q 0 hq, hc2, hr0, co0, ro0]
    norm_num
  have d3 : quadDepth (zPlane sampleTriangle) q 3 = 8 / 3 := by
    rw [hdepth q 3 hq, hc2, hr0, co3, ro3]
    norm_num
  refine ⟨q, hq, ⟨hc2, hr0⟩, ⟨⟨by omega, by omega, by omega⟩, m0, rfl, d0, ?_⟩,
    ⟨by omega, by omega, by omega⟩, m3, d3, ?_⟩
  · have hf := fragment_le_rasterizeTriangle sampleConstants (tileOf sampleConstants 0)
      sampleTriangle zeroBuffer (q.idx + ((0 : Fin 4).val : Int),
        quadDepth (zPlane sampleTriangle) q 0)
      (List.mem_flatMap.2 ⟨q, hq, mem_quadFragments _ q 0 m0⟩)
    simp only [Fin.val_zero, Nat.cast_zero] at hf
    rw [d0] at hf
    exact hf
  · rw [rasterizeTriangle_of_no_fragment]
    · rfl
    · intro f hf hslot
      obtain ⟨q2, hq2, l2, hm2, hfe⟩ := fragment_pixel sampleConstants
        (tileOf sampleConstants 0) sampleTriangle f hf
      obtain ⟨-, -, hs3⟩ := quad_layout_aux sampleConstants (tileOf sampleConstants 0)
        sampleTriangle q 3 hq
      have hs3' : q.idx + 3 = slotOf sampleConstants.SCREENW (q.c + colOffset 3)
          (q.r + rowOffset 3) := hs3
      rw [hfe] at hslot
      simp only at hslot
      rw [hs3'] at hslot
      obtain ⟨t1, t2, t3, t4⟩ := traverse_in_tile sampleConstants (tileOf sampleConstants 0)
        sampleTriangle q2 (by decide) (by decide) (by decide) (by decide) hq2
      have e1 : (tileOf sampleConstants 0).tileStartX = 0 := by decide
      have e2 : (tileOf sampleConstants 0).tileEndX = 4 := by decide
      rw [e1] at t1
      rw [e2] at t2
      have hco := colOffset_cases l2
      have hl2 := l2.isLt
      have hW : (sampleConstants.SCREENW : Int) = 8 := rfl
      obtain ⟨ex, ey⟩ := slotOf_injective sampleConstants.SCREENW _ _ _ _ (by rw [hW]; decide)
        (by rw [hW]; omega) (by rw [hW, hc2, co3]; omega) hslot
      obtain ⟨a2, -, -⟩ := hedge q2 l2 hq2
      rw [ex, ey, hc2, hr0, co3, ro3] at a2
      rw [quadMask_neg_iff] at hm2
      omega
/-! ## Theorems: triangles of area zero, with the special values of IEEE 754 -/

section IEEETheorems

variable {K : Type} [LinearOrderedField K]

theorem XFloat.mul_inf_ne_fin (x : XFloat K) (s : Bool) (v : K) :
    XFloat.mul x (XFloat.inf s) ≠ XFloat.fin v := by
  cases x with
  | fin a =>
    simp only [XFloat.mul]
    split <;> simp
  | inf s2 => simp [XFloat.mul]
  | nan => simp [XFloat.mul]

theorem XFloat.zero_mul_of_not_fin (y : XFloat K) (h : ∀ v, y ≠ XFloat.fin v) :
    XFloat.mul (XFloat.fin 0) y = XFloat.nan := by
  cases y with
  | fin a => exact absurd rfl (h a)
  | inf s => simp [XFloat.mul]
  | nan => simp [XFloat.mul]

theorem XFloat.add_nan (x : XFloat K) : XFloat.add x XFloat.nan = XFloat.nan := by
  cases x <;> rfl

theorem XFloat.nan_add (x : XFloat K) : XFloat.add XFloat.nan x = XFloat.nan := by
  cases x <;> rfl

theorem XFloat.maxps_nan (b : XFloat K) : XFloat.maxps XFloat.nan b = b := by
  cases b <;> rfl

theorem XFloat.maxps_fin (a b : K) :
    XFloat.maxps (XFloat.fin a) (XFloat.fin b) = XFloat.fin (max a b) := by
  simp only [XFloat.maxps, XFloat.gt]
  by_cases h : b < a
  · simp [h, max_eq_left (le_of_lt h)]
  · simp [h, max_eq_right (not_lt.1 h)]

end IEEETheorems

/-- Storing back the four values just loaded leaves the buffer as it was. -/
theorem store_load {F : Type} (buf : Int → F) (idx : Int) : store (load buf idx) idx buf = buf := by
  funext s
  simp only [store, load]
  split
  · rename_i h; subst h; exact congrArg buf (by simp)
  · split
    · rename_i h; subst h; rfl
    · split
      · rename_i h; subst h; rfl
      · split
        · rename_i h; subst h; rfl
        · rfl

/-- In a triangle with two coincident vertices the edge function of the two coincident
vertices vanishes in every lane of every visited quad. -/
theorem degenerate_edge_zero {F : Type} (k : Constants) (tile : Tile) (t : Triangle F)
    (i j : Fin 3) (hij : i ≠ j) (hx : t.X i = t.X j) (hy : t.Y i = t.Y j)
    (q : Quad) (hq : q ∈ traverse k tile t) (l : Fin 4) :
    q.alpha l = 0 ∨ q.beta l = 0 ∨ q.gama l = 0 := by
  obtain ⟨-, -, -, -, ha, hb, hg⟩ := traverse_mem k tile t q hq
  obtain ⟨ra, rb, rg⟩ := traverse_range k tile t q hq
  have hz : (-2147483648 : Int) ≤ 0 ∧ (0 : Int) < 2147483648 := by omega
  have h12 : t.X 1 = t.X 2 → t.Y 1 = t.Y 2 → q.alpha l = 0 := by
    intro h1 h2
    apply eq_of_cast_eq (ra l) hz
    rw [ha]
    simp only [A0, B0, C0]
    push_cast [wrapINT_cast]
    rw [h1, h2]
    ring
  have h20 : t.X 2 = t.X 0 → t.Y 2 = t.Y 0 → q.beta l = 0 := by
    intro h1 h2
    apply eq_of_cast_eq (rb l) hz
    rw [hb]
    simp only [A1, B1, C1]
    push_cast [wrapINT_cast]
    rw [h1, h2]
    ring
  have h01 : t.X 0 = t.X 1 → t.Y 0 = t.Y 1 → q.gama l = 0 := by
    intro h1 h2
    apply eq_of_cast_eq (rg l) hz
    rw [hg]
    simp only [A2, B2, C2]
    push_cast [wrapINT_cast]
    rw [h1, h2]
    ring
  fin_cases i <;> fin_cases j <;>
    simp only [Fin.zero_eta, Fin.mk_one, Fin.reduceFinMk, ne_eq, not_true_eq_false] at hij hx hy
  · exact Or.inr (Or.inr (h01 hx hy))
  · exact Or.inr (Or.inl (h20 hx.symm hy.symm))
  · exact Or.inr (Or.inr (h01 hx.symm hy.symm))
  · exact Or.inl (h12 hx hy)
  · exact Or.inr (Or.inl (h20 hx hy))
  · exact Or.inl (h12 hx.symm hy.symm)

/-- In a triangle with two coincident vertices the three edge values of a covered lane are
zero. -/
theorem degenerate_covered_lane {F : Type} (k : Constants) (tile : Tile) (t : Triangle F)
    (i j : Fin 3) (hij : i ≠ j) (hx : t.X i = t.X j) (hy : t.Y i = t.Y j)
    (q : Quad) (hq : q ∈ traverse k tile t) (l : Fin 4) (hm : ¬ quadMask q l < 0) :
    q.alpha l = 0 ∧ q.beta l = 0 ∧ q.gama l = 0 := by
  have hsum := edge_sum k tile t q hq l
  rw [triArea_of_coincident t i j hij hx hy] at hsum
  obtain ⟨ra, rb, rg⟩ := traverse_range k tile t q hq
  have a := ra l
  have b := rb l
  have c := rg l
  rw [quadMask_neg_iff] at hm
  have hz := degenerate_edge_zero k tile t i j hij hx hy q hq l
  simp only [wrapINT] at hsum
  omega

section IEEEDegenerate

variable {K : Type} [LinearOrderedField K]

/-- With `triArea = 0` the two slopes of the depth plane are not finite. -/
theorem zPlaneX_not_fin (t : Triangle (XFloat K)) (h : triArea t = 0) (v : K) :
    zPlaneX t 1 ≠ XFloat.fin v ∧ zPlaneX t 2 ≠ XFloat.fin v := by
  simp only [zPlaneX, oneOverTriAreaX, h, if_true, Matrix.cons_val_one, Matrix.head_cons,
    Matrix.cons_val_two, Matrix.tail_cons]
  exact ⟨XFloat.mul_inf_ne_fin _ _ _, XFloat.mul_inf_ne_fin _ _ _⟩

/-- With `triArea = 0` the depth of a lane whose edge values `beta`, `gama` are zero is NaN. -/
theorem quadDepthX_nan (t : Triangle (XFloat K)) (h : triArea t = 0) (q : Quad) (l : Fin 4)
    (hb : q.beta l = 0) (hg : q.gama l = 0) :
    quadDepthX (zPlaneX t) q l = XFloat.nan := by
  simp only [quadDepthX, itofX, hb, hg, Int.cast_zero]
  rw [XFloat.zero_mul_of_not_fin _ (fun v => (zPlaneX_not_fin t h v).2), XFloat.add_nan]

/-- A quad step whose covered lanes all have depth NaN leaves the buffer as it was. -/
theorem quadStepX_of_nan (zz : Fin 3 → XFloat K) (buf : Int → XFloat K) (q : Quad)
    (h : ∀ l : Fin 4, ¬ quadMask q l < 0 → quadDepthX zz q l = XFloat.nan) :
    quadStepX zz buf q = buf := by
  simp only [quadStepX]
  split
  · rfl
  · have hsel : select (vmaxX (quadDepthX zz q) (load buf q.idx)) (load buf q.idx)
        (quadMask q) = load buf q.idx := by
      funext l
      simp only [select]
      split
      · rfl
      · rename_i hm
        simp only [vmaxX, h l hm, XFloat.maxps_nan]
    rw [hsel, store_load]

theorem foldl_eq_of_fixed {α β : Type} (f : β → α → β) (l : List α) (b : β)
    (h : ∀ a ∈ l, ∀ b, f b a = b) : l.foldl f b = b := by
  induction l with
  | nil => rfl
  | cons a l ih =>
    rw [List.foldl_cons, h a (List.mem_cons_self a l) b]
    exact ih (fun x hx => h x (List.mem_cons_of_mem a hx))

/-- Rasterizing a triangle with two coincident vertices leaves the buffer as it was. -/
theorem rasterizeTriangleX_degenerate (k : Constants) (tile : Tile) (t : Triangle (XFloat K))
    (i j : Fin 3) (hij : i ≠ j) (hx : t.X i = t.X j) (hy : t.Y i = t.Y j)
    (buf : Int → XFloat K) : rasterizeTriangleX k tile buf t = buf := by
  apply foldl_eq_of_fixed
  intro q hq b
  apply quadStepX_of_nan
  intro l hm
  obtain ⟨-, hb, hg⟩ := degenerate_covered_lane k tile t i j hij hx hy q hq l hm
  exact quadDepthX_nan t (triArea_of_coincident t i j hij hx hy) q l hb hg

/-- With `triArea` not zero and finite depths, the depth plane with the special values is the
depth plane in exact arithmetic. -/
theorem zPlaneX_finite (t : Triangle K) (h : triArea t ≠ 0) (n : Fin 3) :
    zPlaneX t.toX n = XFloat.fin (zPlane t n) := by
  have h2 : triArea t.toX ≠ 0 := h
  fin_cases n
  · rfl
  · simp only [zPlaneX, oneOverTriAreaX, if_neg h2, zPlane, oneOverTriArea]
    have h3 : triArea t.toX = triArea t := rfl
    rw [h3]
    simp [Triangle.toX, XFloat.sub, XFloat.neg, XFloat.add, XFloat.mul, sub_eq_add_neg]
  · simp only [zPlaneX, oneOverTriAreaX, if_neg h2, zPlane, oneOverTriArea]
    have h3 : triArea t.toX = triArea t := rfl
    rw [h3]
    simp [Triangle.toX, XFloat.sub, XFloat.neg, XFloat.add, XFloat.mul, sub_eq_add_neg]

/-- With `triArea` not zero, finite depths and a finite buffer, the rasterization with the
special values is the rasterization in exact arithmetic. -/
theorem rasterizeTriangleX_finite (k : Constants) (tile : Tile) (t : Triangle K)
    (h : triArea t ≠ 0) (buf : Int → K) :
    rasterizeTriangleX k tile (fun s => XFloat.fin (buf s)) t.toX =
      fun s => XFloat.fin (rasterizeTriangle k tile buf t s) := by
  have htr : traverse k tile t.toX = traverse k tile t := rfl
  simp only [rasterizeTriangleX, rasterizeTriangle, htr]
  have hstep : ∀ (b : Int → K) (q : Quad),
      quadStepX (zPlaneX t.toX) (fun s => XFloat.fin (b s)) q =
        fun s => XFloat.fin (quadStep (zPlane t) b q s) := by
    intro b q
    simp only [quadStepX, quadStep]
    split
    · rfl
    · funext s
      have hd : ∀ l, quadDepthX (zPlaneX t.toX) q l = XFloat.fin (quadDepth (zPlane t) q l) := by
        intro l
        simp only [quadDepthX, quadDepth, itofX, itof, zPlaneX_finite t h]
        rfl
      have hsel : ∀ l, select (vmaxX (quadDepthX (zPlaneX t.toX) q)
            (load (fun s => XFloat.fin (b s)) q.idx)) (load (fun s => XFloat.fin (b s)) q.idx)
            (quadMask q) l =
          XFloat.fin (select (vmax (quadDepth (zPlane t) q) (load b q.idx)) (load b q.idx)
            (quadMask q) l) := by
        intro l
        simp only [select, vmaxX, vmax, hd, load, XFloat.maxps_fin]
        split <;> rfl
      simp only [store, hsel]
      split
      · rfl
      · split
        · rfl
        · split
          · rfl
          · split
            · rfl
            · rfl
  generalize traverse k tile t = qs
  induction qs generalizing buf with
  | nil => rfl
  | cons q qs ih =>
    rw [List.foldl_cons, List.foldl_cons, hstep, ih]

end IEEEDegenerate

theorem foldl_filter_of_fixed {α β : Type} (f : β → α → β) (p : α → Bool) (l : List α)
    (h : ∀ a ∈ l, p a = false → ∀ b, f b a = b) (b : β) :
    l.foldl f b = (l.filter p).foldl f b := by
  induction l generalizing b with
  | nil => rfl
  | cons a l ih =>
    have ih2 := ih (fun x hx => h x (List.mem_cons_of_mem a hx))
    by_cases hp : p a = true
    · rw [List.filter_cons_of_pos hp, List.foldl_cons, List.foldl_cons, ih2]
    · have hp2 : p a = false := by simpa using hp
      rw [List.filter_cons_of_neg hp, List.foldl_cons, h a (List.mem_cons_self a l) hp2, ih2]

section IEEETask

variable {K : Type} [LinearOrderedField K]

/-- The tile task with the special values folds the rasterization of one triangle over the
gathered triangles. -/
theorem RasterizeX_eq_foldl (k : Constants) (bins : Bins (XFloat K)) (taskId : Nat)
    (buf : Int → XFloat K) :
    RasterizeBinnedTrianglesToDepthBufferX k bins taskId buf =
      (gatheredTriangles k bins taskId).foldl (rasterizeTriangleX k (tileOf k taskId)) buf := by
  simp only [RasterizeBinnedTrianglesToDepthBufferX, gatheredTriangles, gatheredEntries,
    List.foldl_map]
  generalize gatheredGroups k bins taskId = gs
  induction gs generalizing buf with
  | nil => rfl
  | cons g gs ih => rw [List.foldl_cons, List.flatten_cons, List.foldl_append, ih]

/-- C7 (as amended). Zero-area triangles.  A binned triangle with two coincident vertices has
fixed-point area `triArea = 0`, and the three edge values of every lane sum to zero modulo
`2^32`.  The rasterizer has no area test and does not skip the triangle: every vertex whose
pixel lies inside the tile (coordinates below `2^31 - 1`) is in a covered lane, and its quad
is not skipped but loaded, merged and stored.  In every covered lane of every visited quad
the three edge values are zero and the interpolated depth `zz[0] + 0 * zz[1] + 0 * zz[2]` is
NaN, the slopes `zz[1]`, `zz[2]` being products with `1.0f / 0.0f`; `vmax(depth, previous)`
is then the previous depth, so every quad stores back the four values it loaded and, for
every depth buffer, every slot keeps its value.  The depth buffer after the tile task is the
one that the binned triangles without two coincident vertices produce. -/
theorem zero_area_leaves_buffer_unchanged (k : Constants) (tile : Tile)
    (t : Triangle (XFloat K)) (i j : Fin 3)
    (hij : i ≠ j) (hx : t.X i = t.X j) (hy : t.Y i = t.Y j) :
    triArea t = 0 ∧
    (∀ q ∈ traverse k tile t, ∀ l : Fin 4, wrapINT (q.alpha l + q.beta l + q.gama l) = 0) ∧
    (∀ v : Fin 3, 0 ≤ tile.tileStartX → 0 ≤ tile.tileStartY →
      (∀ n, t.X n < 2147483647) → (∀ n, t.Y n < 2147483647) →
      (tile.tileStartX ≤ t.X v ∧ t.X v < tile.tileEndX) →
      (tile.tileStartY ≤ t.Y v ∧ t.Y v < tile.tileEndY) →
      ∃ q ∈ traverse k tile t, ∃ l : Fin 4,
        (q.c + colOffset l = t.X v ∧ q.r + rowOffset l = t.Y v) ∧
        ¬ quadMask q l < 0 ∧ is_all_negative (quadMask q) = false ∧
        q.idx + (l.val : Int) ∈ triangleStores k tile t) ∧
    (∀ q ∈ traverse k tile t, ∀ l : Fin 4, ¬ quadMask q l < 0 →
      (q.alpha l = 0 ∧ q.beta l = 0 ∧ q.gama l = 0) ∧
      quadDepthX (zPlaneX t) q l = XFloat.nan) ∧
    (∀ (pDepthBuffer : Int → XFloat K), ∀ q ∈ traverse k tile t,
      quadStepX (zPlaneX t) pDepthBuffer q = pDepthBuffer) ∧
    (∀ pDepthBuffer : Int → XFloat K, rasterizeTriangleX k tile pDepthBuffer t = pDepthBuffer) ∧
    (∀ (bins : Bins (XFloat K)) (taskId : Nat) (pDepthBuffer : Int → XFloat K),
      RasterizeBinnedTrianglesToDepthBufferX k bins taskId pDepthBuffer =
        ((gatheredTriangles k bins taskId).filter (fun u => !hasCoincidentVertices u)).foldl
          (rasterizeTriangleX k (tileOf k taskId)) pDepthBuffer) := by
  have h0 := triArea_of_coincident t i j hij hx hy
  have hlane : ∀ q ∈ traverse k tile t, ∀ l : Fin 4, ¬ quadMask q l < 0 →
      (q.alpha l = 0 ∧ q.beta l = 0 ∧ q.gama l = 0) ∧
      quadDepthX (zPlaneX t) q l = XFloat.nan := by
    intro q hq l hm
    have h3 := degenerate_covered_lane k tile t i j hij hx hy q hq l hm
    exact ⟨h3, quadDepthX_nan t h0 q l h3.2.1 h3.2.2⟩
  refine ⟨h0, ?_, ?_, hlane, ?_, ?_, ?_⟩
  · intro q hq l
    rw [edge_sum k tile t q hq l, h0]
  · intro v h0x h0y hX hY hinx hiny
    obtain ⟨q, hq, l, hpix, -, hmask, hnot, -, hst⟩ :=
      vertex_covered k tile t v (by omega) h0x h0y hX hY hinx hiny
    exact ⟨q, hq, l, hpix, hmask, hnot, hst⟩
  · intro buf q hq
    exact quadStepX_of_nan _ buf q (fun l hm => (hlane q hq l hm).2)
  · intro buf
    exact rasterizeTriangleX_degenerate k tile t i j hij hx hy buf
  · intro bins taskId buf
    rw [RasterizeX_eq_foldl]
    apply foldl_filter_of_fixed
    intro u _ hu b
    simp only [Bool.not_eq_false_eq_eq_true, Bool.not_eq_eq_eq_not, Bool.not_false,
      hasCoincidentVertices, decide_eq_true_eq] at hu
    obtain ⟨a, c, hac, h1, h2⟩ := hu
    exact rasterizeTriangleX_degenerate k (tileOf k taskId) u a c hac h1 h2 b

end IEEETask

/-- Instance of the amended C7 on `degenerateTriangleX`, whose vertices 0 and 1 coincide, over
a buffer with four different values in the slots of the quad at (0, 0). -/
theorem zero_area_leaves_buffer_unchanged_witness :
    ((0 : Fin 3) ≠ 1 ∧ degenerateTriangleX.X 0 = degenerateTriangleX.X 1 ∧
      degenerateTriangleX.Y 0 = degenerateTriangleX.Y 1) ∧
    triArea degenerateTriangleX = 0 ∧
    rasterizeTriangleX sampleConstants (tileOf sampleConstants 0) rampBufferX
      degenerateTriangleX = rampBufferX :=
  ⟨⟨by decide, by decide, by decide⟩,
    (zero_area_leaves_buffer_unchanged sampleConstants (tileOf sampleConstants 0)
      degenerateTriangleX 0 1 (by decide) (by decide) (by decide)).1,
    (zero_area_leaves_buffer_unchanged sampleConstants (tileOf sampleConstants 0)
      degenerateTriangleX 0 1 (by decide) (by decide) (by decide)).2.2.2.2.2.1 rampBufferX⟩
/-! ## Theorems: the frustum decision and the sign bit -/

section SignDecision

variable {K : Type} [LinearOrderedField K]

end SignDecision

end SoftwareOcclusionCulling
